import Mathlib

/-!
Shallow embedding of `src/master/allocator/sorter/random/sorter.cpp`
(the `RandomSorter` of a cluster allocator).

Modelling conventions, fixed once here:

* Client paths.  The C++ takes `/`-delimited strings and immediately splits
  them (`strings::split(clientPath, "/")`, sorter.cpp:89); all internal logic
  works on the token list.  The embedding represents a path directly as its
  token list (`List String`); joining/splitting is the out-of-scope string
  library boundary.
* `SlaveID` (the pool-unit id) is an opaque identifier: `Nat`.
* `Resources` is the out-of-scope resource arithmetic library (spec section 1:
  "treated as an opaque type supporting add/subtract/contains/compare and an
  aggregate scalar quantities projection").  A resource instance `Rsrc`
  carries an identity `rid`, a scalar quantity, a shareable flag and the
  pool unit (`slave`) it sits on; a `hashmap<SlaveID, Resources>` is
  represented as a `Multiset Rsrc` of slave-tagged instances (the C++ code
  erases map entries that become empty, so the map is isomorphic to the
  multiset of tagged instances).
* `ResourceQuantities` is the aggregate scalar projection; per the spec's
  glossary ("a resource amount reduced to comparable numeric totals,
  independent of resource identity") it is modelled as a `Nat` total.
* Weights are `double` in C++ but the sorter only stores and forwards them
  (no arithmetic in sorter.cpp), so they are modelled as `Rat`.
-/

/-- Node kinds, sorter.hpp's `Node::Kind` as used by sorter.cpp. -/
inductive Kind where
  | internalK
  | activeLeaf
  | inactiveLeaf
deriving DecidableEq, Repr

/-- One resource instance: identity, scalar quantity, shareable flag,
and the pool unit (slave) it is tagged with once stored. -/
structure Rsrc where
  rid : Nat
  scalar : Nat
  shared : Bool
  slave : Nat
deriving DecidableEq, Repr

/-- Tag every instance of a resource collection with the pool unit it is
being added to / removed from (the C++ keys resources by `SlaveID`;
arguments carry no slave, storage does). -/
def tagSlave (u : Nat) (rs : Multiset Rsrc) : Multiset Rsrc :=
  rs.map (fun r => { r with slave := u })

/-- The part of a resource collection sitting on pool unit `u`
(the C++ `resources[slaveId]`). -/
def atSlave (u : Nat) (rs : Multiset Rsrc) : Multiset Rsrc :=
  rs.filter (fun r => r.slave = u)

/-- `ResourceQuantities::fromScalarResources(rs.scalars())`: the aggregate
scalar quantity of a collection (all modelled resources are scalar). -/
def scalarSum (rs : Multiset Rsrc) : Nat :=
  (rs.map Rsrc.scalar).sum

/-- Modelled from the spec: the per-node `allocation` of sorter.hpp's
`Node` (the header is not in `src/`): a per-pool-unit resource map plus "a
derived aggregate scalar-quantity total" kept consistent incrementally
(spec section 3). -/
structure Alloc where
  resources : Multiset Rsrc
  totals : Nat
deriving DecidableEq

/-- The empty allocation of a freshly constructed node. -/
def Alloc.empty : Alloc := ⟨0, 0⟩

/-- Modelled from the spec: `Allocation::add(slaveId, toAdd)` — add the
tagged resources and grow the aggregate total (spec section 4.2 "applying
add ... to each ancestor's allocation"). -/
def Alloc.add (a : Alloc) (u : Nat) (rs : Multiset Rsrc) : Alloc :=
  ⟨a.resources + tagSlave u rs, a.totals + scalarSum rs⟩

/-- Modelled from the spec: `Allocation::subtract(slaveId, toRemove)`. -/
def Alloc.sub (a : Alloc) (u : Nat) (rs : Multiset Rsrc) : Alloc :=
  ⟨a.resources - tagSlave u rs, a.totals - scalarSum rs⟩

/-- Modelled from the spec: `Allocation::update(slaveId, old, new)` —
"replace-old-with-new" (spec section 4.2). -/
def Alloc.updateR (a : Alloc) (u : Nat) (oldR newR : Multiset Rsrc) : Alloc :=
  ⟨a.resources - tagSlave u oldR + tagSlave u newR,
   a.totals - scalarSum oldR + scalarSum newR⟩

/-- A tree node (sorter.hpp `Node`): name segment, kind, allocation, the
lazily resolved weight cache, and the ordered children.  Parent pointers of
the C++ are represented by addressing nodes with the list of name segments
from the root. -/
inductive Node where
  | mk (name : String) (kind : Kind) (alloc : Alloc) (weight : Option Rat)
      (children : List Node)

def Node.name : Node → String
  | .mk nm _ _ _ _ => nm

def Node.kind : Node → Kind
  | .mk _ k _ _ _ => k

def Node.alloc : Node → Alloc
  | .mk _ _ a _ _ => a

def Node.weight : Node → Option Rat
  | .mk _ _ _ w _ => w

def Node.children : Node → List Node
  | .mk _ _ _ _ cs => cs

/-- `Node::isLeaf()`: a node is a client iff its kind is not internal. -/
def Node.isLeaf (n : Node) : Bool :=
  n.kind ≠ Kind.internalK

/-- Replace the children list. -/
def Node.withChildren (n : Node) (cs : List Node) : Node :=
  match n with
  | .mk nm k a w _ => .mk nm k a w cs

/-- Find the first child carrying a given name segment (the child-lookup
loop of sorter.cpp:125-130). -/
def findChild (cs : List Node) (t : String) : Option Node :=
  cs.find? (fun c => c.name = t)

/-- `Node::removeChild`: erase the (first) child with the given name. -/
def eraseChild (cs : List Node) (t : String) : List Node :=
  match cs with
  | [] => []
  | c :: rest => if c.name = t then rest else c :: eraseChild rest t

/-- Replace the (first) child with the given name, in place. -/
def replaceChild (cs : List Node) (t : String) (c' : Node) : List Node :=
  match cs with
  | [] => []
  | c :: rest => if c.name = t then c' :: rest else c :: replaceChild rest t c'

/-- Modelled from the spec: `Node::addChild` of sorter.hpp (not in `src/`).
Per spec invariant 3 and section 4.1, inactive leaves go to the back of the
`children` sequence and active-capable nodes to the front of the active
region ("move to front of active prefix on activation, to back on
deactivation"). -/
def addChild (cs : List Node) (c : Node) : List Node :=
  if c.kind = Kind.inactiveLeaf then cs ++ [c] else c :: cs

/-- Resolve a node by its address (name segments from this node down);
stands in for the C++ node pointers. -/
def nodeAt : Node → List String → Option Node
  | n, [] => some n
  | n, t :: ts =>
    match findChild n.children t with
    | some c => nodeAt c ts
    | none => none

mutual
/-- Addresses of all leaf descendants of a node (relative to it); a leaf
itself is addressed by `[]`.  These addresses mirror the `Node*` handles
the C++ `clients` hashmap stores. -/
def leafAddrs : Node → List (List String)
  | .mk _ k _ _ cs => if k = Kind.internalK then leafAddrsKids cs else [[]]

def leafAddrsKids : List Node → List (List String)
  | [] => []
  | c :: cs => (leafAddrs c).map (fun a => c.name :: a) ++ leafAddrsKids cs
end

/-- `clientPath()` of the node addressed by `a`: the trailing virtual
segment `"."` is stripped for client-facing identity. -/
def stripDot (a : List String) : List String :=
  if a.getLast? = some "." then a.dropLast else a

/-- Association-list lookup (`hashmap::get` / `contains`). -/
def lookupA {κ α : Type} [DecidableEq κ] (l : List (κ × α)) (k : κ) : Option α :=
  (l.find? (fun e => decide (e.1 = k))).map Prod.snd

/-- Association-list write (`hashmap::operator[] =`): replace in place, or
append a fresh binding. -/
def setA {κ α : Type} [DecidableEq κ] (l : List (κ × α)) (k : κ) (v : α) :
    List (κ × α) :=
  match l with
  | [] => [(k, v)]
  | e :: rest => if e.1 = k then (k, v) :: rest else e :: setA rest k v

/-- Association-list erase (`hashmap::erase`). -/
def eraseA {κ α : Type} [DecidableEq κ] (l : List (κ × α)) (k : κ) :
    List (κ × α) :=
  match l with
  | [] => []
  | e :: rest => if e.1 = k then rest else e :: eraseA rest k

/-- The sorter's state: the owned root, the `clients` index (client path ↦
address of its leaf node), the `weights` override table (keyed by node
path, which for a virtual leaf ends in `"."`), and the cluster-wide
`total_` accounting (raw per-unit resources and the scalar aggregate). -/
structure SState where
  root : Node
  clients : List (List String × List String)
  weights : List (List String × Rat)
  totalRes : Multiset Rsrc
  totalTotals : Nat

/-- `RandomSorter::RandomSorter()`: an empty internal root, empty indexes. -/
def initS : SState :=
  ⟨Node.mk "" Kind.internalK Alloc.empty none [], [], [], 0, 0⟩

/-- `RandomSorter::find`: resolve a client path through the `clients`
index; the C++ `CHECK(client->isLeaf())` is modelled by returning `none`
on a non-leaf (a fatal abort has no post-state). -/
def findS (s : SState) (p : List String) : Option Node := do
  let addr ← lookupA s.clients p
  let n ← nodeAt s.root addr
  if n.isLeaf then some n else none

/-- `RandomSorter::contains`. -/
def containsS (s : SState) (p : List String) : Bool :=
  (findS s p).isSome

/-- `RandomSorter::count`. -/
def countS (s : SState) : Nat := s.clients.length

/-- Phase 2 of `RandomSorter::add` (sorter.cpp:139-148): create one new
child per remaining token — `INTERNAL` for all but the last token,
`INACTIVE_LEAF` for the last. -/
def mkChain : String → List String → Node
  | t, [] => .mk t Kind.inactiveLeaf Alloc.empty none []
  | t, t' :: ts => .mk t Kind.internalK Alloc.empty none [mkChain t' ts]

/-- The walk of `RandomSorter::add` (sorter.cpp:96-148), processed top-down.
Returns the transformed subtree, the absolute address of the new client's
leaf, and an optional re-registration of an existing client (case (b)
registers the new virtual `"."` leaf under the converted node's own path,
sorter.cpp:120).  Cases, at the node `n` (address `pre`):
* tokens exhausted (case (a), sorter.cpp:99-106): insert a synthetic `"."`
  `INACTIVE_LEAF` child; the new client is that virtual leaf;
* next token has no matching child (case (c), sorter.cpp:132-133): phase 2
  creates the whole remaining chain beneath `n`;
* the matching child is a leaf and tokens remain (case (b),
  sorter.cpp:108-123): re-insert the child as `INTERNAL` (its position
  among its siblings is re-derived from its new kind), give it a `"."`
  child carrying its previous kind and allocation, and let phase 2 create
  the rest of the chain beneath it;
* otherwise descend. -/
def addAux (pre : List String) : Node → List String →
    Node × List String × Option (List String × List String)
  | n, [] =>
    let virt := Node.mk "." Kind.inactiveLeaf Alloc.empty none []
    (n.withChildren (addChild n.children virt), pre ++ ["."], none)
  | n, t :: ts =>
    match findChild n.children t with
    | none =>
      (n.withChildren (addChild n.children (mkChain t ts)), pre ++ t :: ts, none)
    | some c =>
      if c.isLeaf ∧ ts ≠ [] then
        let virt := Node.mk "." c.kind c.alloc none []
        let conv0 := Node.mk t Kind.internalK c.alloc c.weight
          (addChild c.children virt)
        let conv :=
          match ts with
          | [] => conv0
          | t' :: ts' => conv0.withChildren (addChild conv0.children (mkChain t' ts'))
        (n.withChildren (addChild (eraseChild n.children t) conv),
         pre ++ t :: ts, some (pre ++ [t], pre ++ [t, "."]))
      else
        let r := addAux (pre ++ [t]) c ts
        (n.withChildren (replaceChild n.children t r.1), r.2.1, r.2.2)

/-- `RandomSorter::add(clientPath)` (sorter.cpp:68-157).  The entry
`CHECK(!clients.contains(clientPath))` is the fatal precondition; the
final consistency CHECKs of sorter.cpp:150-154 always pass on states
reachable under the precondition and are not separately modelled. -/
def addClient (s : SState) (p : List String) : Option SState :=
  match lookupA s.clients p with
  | some _ => none
  | none =>
    let r := addAux [] s.root p
    let cl1 :=
      match r.2.2 with
      | none => s.clients
      | some kv => setA s.clients kv.1 kv.2
    some { s with root := r.1, clients := setA cl1 p r.2.1 }

/-- How the parent of the currently visited node reacts to it during the
upward walk of `RandomSorter::remove` (sorter.cpp:198-230). -/
inductive RemRes where
  | deleted
  | kept (n : Node)
  | collapsed (n : Node)

/-- End-of-iteration decision about the visited node `n` (address `pre`)
in `RandomSorter::remove`: childless nodes are deleted (sorter.cpp:198-200);
a node whose single remaining child is the synthetic `"."` leaf collapses —
it absorbs the child's kind and is re-registered in `clients` under its own
path (sorter.cpp:201-229); anything else is kept.  The
`CHECK(child->isLeaf())` of sorter.cpp:209 is modelled as `none`. -/
def resolveN (pre : List String) (n : Node) :
    Option (RemRes × Option (List String × List String)) :=
  match n.children with
  | [] => some (.deleted, none)
  | [c] =>
    if c.name = "." then
      if c.isLeaf then
        some (.collapsed (Node.mk n.name c.kind n.alloc n.weight []),
              some (pre, pre))
      else none
    else some (.kept n, none)
  | _ => some (.kept n, none)

/-- Subtract the removed leaf's saved allocation from an ancestor
(the `foreachpair ... parent->allocation.subtract(...)` of
sorter.cpp:192-196, summed over the per-unit entries). -/
def Alloc.subAll (a : Alloc) (la : Multiset Rsrc) : Alloc :=
  ⟨a.resources - la, a.totals - scalarSum la⟩

/-- Integrate the processed child back into the parent's children list.
After a collapse the node is repositioned among its siblings only when its
new kind is `INTERNAL` (sorter.cpp:219-224) — faithfully embedded even
though the freshly assigned kind is always a leaf kind. -/
def applyRes (cs : List Node) (t : String) : RemRes → List Node
  | .deleted => eraseChild cs t
  | .kept c' => replaceChild cs t c'
  | .collapsed c' =>
    if c'.kind = Kind.internalK then addChild (eraseChild cs t) c'
    else replaceChild cs t c'

/-- The upward walk of `RandomSorter::remove` (sorter.cpp:186-233),
processed top-down along the removed client's address: every ancestor
subtracts the saved leaf allocation, empties are deleted and single-`"."`
parents collapse.  Returns this node's fate plus the collapse
re-registrations for `clients`. -/
def removeAux (la : Multiset Rsrc) :
    List String → Node → List String →
    Option (RemRes × List (List String × List String))
  | pre, n, [] =>
    (resolveN pre n).map (fun r => (r.1, r.2.toList))
  | pre, n, t :: rest => do
    let c ← findChild n.children t
    let r ← removeAux la (pre ++ [t]) c rest
    let n' := Node.mk n.name n.kind (n.alloc.subAll la) n.weight
      (applyRes n.children t r.1)
    let r' ← resolveN pre n'
    some (r'.1, r.2 ++ r'.2.toList)

/-- `RandomSorter::remove(clientPath)` (sorter.cpp:160-234): save the
leaf's allocation, erase the `clients` entry, then walk up.  The root is
only ever updated, never deleted or collapsed (the loop stops there). -/
def removeClient (s : SState) (p : List String) : Option SState := do
  let addr ← lookupA s.clients p
  let leaf ← nodeAt s.root addr
  if leaf.isLeaf then
    let la := leaf.alloc.resources
    let cl := eraseA s.clients p
    match addr with
    | [] => none
    | t :: rest => do
      let c ← findChild s.root.children t
      let r ← removeAux la [t] c rest
      let root' := Node.mk s.root.name s.root.kind (s.root.alloc.subAll la)
        s.root.weight (applyRes s.root.children t r.1)
      some { s with root := root',
                    clients := r.2.foldl (fun m e => setA m e.1 e.2) cl }
  else none

/-- Change the kind of the node at `addr` and re-insert it among its
parent's children (the `removeChild` / `addChild` pair of
`RandomSorter::activate` and `deactivate`, sorter.cpp:248-249, 265-266). -/
def flipAt (k : Kind) : Node → List String → Node
  | n, [] => n
  | n, [t] =>
    match findChild n.children t with
    | some c =>
      n.withChildren
        (addChild (eraseChild n.children t)
          (Node.mk c.name k c.alloc c.weight c.children))
    | none => n
  | n, t :: rest =>
    match findChild n.children t with
    | some c => n.withChildren (replaceChild n.children t (flipAt k c rest))
    | none => n

/-- `RandomSorter::activate(clientPath)` (sorter.cpp:237-251): a no-op
unless the client is an `INACTIVE_LEAF`. -/
def activateS (s : SState) (p : List String) : Option SState := do
  let addr ← lookupA s.clients p
  let c ← nodeAt s.root addr
  if c.isLeaf then
    if c.kind = Kind.inactiveLeaf then
      some { s with root := flipAt Kind.activeLeaf s.root addr }
    else some s
  else none

/-- `RandomSorter::deactivate(clientPath)` (sorter.cpp:254-268): a no-op
unless the client is an `ACTIVE_LEAF`. -/
def deactivateS (s : SState) (p : List String) : Option SState := do
  let addr ← lookupA s.clients p
  let c ← nodeAt s.root addr
  if c.isLeaf then
    if c.kind = Kind.activeLeaf then
      some { s with root := flipAt Kind.inactiveLeaf s.root addr }
    else some s
  else none

/-- Set the cached weight of the node at `addr`. -/
def setWeightAt (w : Rat) : Node → List String → Node
  | n, [] => Node.mk n.name n.kind n.alloc (some w) n.children
  | n, t :: rest =>
    match findChild n.children t with
    | some c => n.withChildren (replaceChild n.children t (setWeightAt w c rest))
    | none => n

/-- `RandomSorter::updateWeight(path, weight)` (sorter.cpp:271-292): the
override table is always written; if a client node exists at `path` its
cached weight is updated too, redirecting from a virtual `"."` leaf to its
parent (the real node at `path`). -/
def updateWeightS (s : SState) (p : List String) (w : Rat) : SState :=
  let wt := setA s.weights p w
  match lookupA s.clients p with
  | none => { s with weights := wt }
  | some addr =>
    let tgt := if addr.getLast? = some "." then addr.dropLast else addr
    { s with weights := wt, root := setWeightAt w s.root tgt }

/-- Apply an allocation change at every node from the root down to (and
including) the client's leaf — the leaf-to-root walks of
`RandomSorter::allocated` / `update` / `unallocated` (sorter.cpp:302-305,
320-323, 334-337). -/
def mapAlong (f : Alloc → Alloc) : Node → List String → Node
  | n, [] => Node.mk n.name n.kind (f n.alloc) n.weight n.children
  | n, t :: rest =>
    match findChild n.children t with
    | some c =>
      Node.mk n.name n.kind (f n.alloc) n.weight
        (replaceChild n.children t (mapAlong f c rest))
    | none => n

/-- `RandomSorter::allocated(clientPath, slaveId, resources)`
(sorter.cpp:295-306). -/
def allocatedS (s : SState) (p : List String) (u : Nat) (rs : Multiset Rsrc) :
    Option SState := do
  let addr ← lookupA s.clients p
  let leaf ← nodeAt s.root addr
  if leaf.isLeaf then
    some { s with root := mapAlong (fun a => a.add u rs) s.root addr }
  else none

/-- `RandomSorter::unallocated(clientPath, slaveId, resources)`
(sorter.cpp:327-338).  Modelled from the spec: the per-node
`Allocation::subtract` lives in sorter.hpp and carries fatal containment
CHECKs; they fire first at the leaf, so the embedding guards that the
leaf's per-unit entry exists and contains the subtrahend. -/
def unallocatedS (s : SState) (p : List String) (u : Nat)
    (rs : Multiset Rsrc) : Option SState := do
  let addr ← lookupA s.clients p
  let leaf ← nodeAt s.root addr
  if leaf.isLeaf ∧ atSlave u leaf.alloc.resources ≠ 0 ∧
      tagSlave u rs ≤ leaf.alloc.resources then
    some { s with root := mapAlong (fun a => a.sub u rs) s.root addr }
  else none

/-- `RandomSorter::update(clientPath, slaveId, old, new)`
(sorter.cpp:309-324), with the same spec-modelled leaf guard as
`unallocatedS` (from `Allocation::update`'s containment CHECKs). -/
def updateS (s : SState) (p : List String) (u : Nat)
    (oldR newR : Multiset Rsrc) : Option SState := do
  let addr ← lookupA s.clients p
  let leaf ← nodeAt s.root addr
  if leaf.isLeaf ∧ atSlave u leaf.alloc.resources ≠ 0 ∧
      tagSlave u oldR ≤ leaf.alloc.resources then
    some { s with root := mapAlong (fun a => a.updateR u oldR newR) s.root addr }
  else none

/-- `RandomSorter::allocation(clientPath)` (sorter.cpp:341-346). -/
def allocationQ (s : SState) (p : List String) : Option (Multiset Rsrc) :=
  (findS s p).map (fun n => n.alloc.resources)

/-- `RandomSorter::allocationScalarQuantities(clientPath)`
(sorter.cpp:349-354). -/
def allocScalarQ (s : SState) (p : List String) : Option Nat :=
  (findS s p).map (fun n => n.alloc.totals)

/-- `RandomSorter::allocationScalarQuantities()` (sorter.cpp:357-360). -/
def allocScalarRootQ (s : SState) : Nat := s.root.alloc.totals

/-- `RandomSorter::allocation(slaveId)` (sorter.cpp:363-387): scan the
`clients` index (not the tree); a client appears iff its allocation has an
entry for that unit. -/
def allocationSlaveQ (s : SState) (u : Nat) :
    List (List String × Multiset Rsrc) :=
  s.clients.filterMap (fun e =>
    match nodeAt s.root e.2 with
    | some c =>
      if atSlave u c.alloc.resources ≠ 0 then
        some (stripDot e.2, atSlave u c.alloc.resources)
      else none
    | none => none)

/-- `RandomSorter::allocation(clientPath, slaveId)` (sorter.cpp:390-401):
empty resources, never an error, when the client holds nothing there. -/
def allocationCUQ (s : SState) (p : List String) (u : Nat) :
    Option (Multiset Rsrc) :=
  (findS s p).map (fun n => atSlave u n.alloc.resources)

/-- `RandomSorter::totalScalarQuantities()` (sorter.cpp:404-407). -/
def totalScalarQ (s : SState) : Nat := s.totalTotals

/-- `RandomSorter::add(slaveId, resources)` (sorter.cpp:410-428): empty
resources are a silent no-op; otherwise shared instances feed the scalar
aggregate only when no identical instance is already in the unit's total. -/
def addTotal (s : SState) (u : Nat) (rs : Multiset Rsrc) : SState :=
  if rs = 0 then s
  else
    let newShared := (rs.filter (fun r => r.shared)).filter
      (fun r => ¬ ({ r with slave := u } ∈ s.totalRes))
    let q := scalarSum (rs.filter (fun r => !r.shared)) + scalarSum newShared
    { s with totalRes := s.totalRes + tagSlave u rs,
             totalTotals := s.totalTotals + q }

/-- `RandomSorter::remove(slaveId, resources)` (sorter.cpp:431-458): empty
resources are a silent no-op with no CHECK; otherwise the unit's total must
contain the removed resources (fatal, modelled as `none`), shared instances
leave the scalar aggregate unless their last copy goes away, and emptied
per-unit entries are erased (the identity in the multiset representation). -/
def removeTotal (s : SState) (u : Nat) (rs : Multiset Rsrc) : Option SState :=
  if rs = 0 then some s
  else
    if atSlave u s.totalRes ≠ 0 ∧ tagSlave u rs ≤ s.totalRes then
      let res' := s.totalRes - tagSlave u rs
      let absentShared := (rs.filter (fun r => r.shared)).filter
        (fun r => ¬ ({ r with slave := u } ∈ res'))
      let q := scalarSum (rs.filter (fun r => !r.shared)) + scalarSum absentShared
      if q ≤ s.totalTotals then
        some { s with totalRes := res', totalTotals := s.totalTotals - q }
      else none
    else none

/-- `RandomSorter::getWeight(node)` (sorter.cpp:538-545), as the pure
resolution it computes: the cached weight if resolved, else the override
table entry for the node's path (a virtual leaf's path ends in `"."`),
else the default 1.  The C++ memoizes the resolved value into
`node->weight`; since `updateWeight` rewrites both the table and the cache
of the node at that path, the memo always stores exactly this resolution,
and the embedding leaves the cache write out of `sort`. -/
def getWeightPure (wt : List (List String × Rat)) (addr : List String)
    (n : Node) : Rat :=
  match n.weight with
  | some w => w
  | none => (lookupA wt addr).getD 1

/-- Apply a position permutation (the outcome of one `weightedShuffle`
draw) to a list. -/
def applyPerm {α : Type} (pi : List Nat) (l : List α) : List α :=
  pi.filterMap (fun i => l[i]?)

mutual
/-- The `shuffleTree` lambda of `RandomSorter::sort` (sorter.cpp:463-489):
at every internal node, weighted-shuffle the children strictly before the
first `INACTIVE_LEAF` and recurse into internal children until the first
inactive leaf.  `weightedShuffle` lives in utils.hpp (not in `src/`) and is
modelled from the spec as an arbitrary weight-driven position permutation
`sh`, keyed by the node's address and handed the active children's resolved
weights; recursing before permuting is equivalent to the C++ order because
the permutation only moves positions. -/
def shuffleNode (sh : List String → List Rat → List Nat)
    (wt : List (List String × Rat)) (pre : List String) : Node → Node
  | .mk nm k a w cs =>
    if k = Kind.internalK then
      let cs1 := shuffleKids sh wt pre cs
      let act := cs1.takeWhile (fun c => !(c.kind == Kind.inactiveLeaf))
      let rest := cs1.dropWhile (fun c => !(c.kind == Kind.inactiveLeaf))
      let ws := act.map (fun c => getWeightPure wt (pre ++ [c.name]) c)
      .mk nm k a w (applyPerm (sh pre ws) act ++ rest)
    else .mk nm k a w cs

def shuffleKids (sh : List String → List Rat → List Nat)
    (wt : List (List String × Rat)) (pre : List String) :
    List Node → List Node
  | [] => []
  | c :: cs =>
    if c.kind == Kind.inactiveLeaf then c :: cs
    else shuffleNode sh wt (pre ++ [c.name]) c :: shuffleKids sh wt pre cs
end

mutual
/-- The `listClients` lambda of `RandomSorter::sort` (sorter.cpp:500-518):
pre-order collection of `ACTIVE_LEAF` client paths, stopping a node's child
iteration at the first `INACTIVE_LEAF`. -/
def collectNode (pre : List String) : Node → List (List String)
  | .mk _ k _ _ cs => if k = Kind.internalK then collectKids pre cs else []

def collectKids (pre : List String) : List Node → List (List String)
  | [] => []
  | c :: cs =>
    match c.kind with
    | Kind.activeLeaf => stripDot (pre ++ [c.name]) :: collectKids pre cs
    | Kind.inactiveLeaf => []
    | Kind.internalK => collectNode (pre ++ [c.name]) c ++ collectKids pre cs
end

/-- `RandomSorter::sort()` (sorter.cpp:461-523): shuffle the whole tree,
then collect the active leaves. -/
def sortS (sh : List String → List Rat → List Nat) (s : SState) :
    SState × List (List String) :=
  let r := shuffleNode sh s.weights [] s.root
  ({ s with root := r }, collectNode [] r)

/-- Modelled from the spec: the contract of `weightedShuffle` (utils.hpp,
not in `src/`) — it permutes the given range, i.e. every draw it returns is
some position permutation (spec section 4.3: "a weighted random
permutation of that prefix"). -/
def ValidSh (sh : List String → List Rat → List Nat) : Prop :=
  ∀ pre ws, (sh pre ws).Perm (List.range ws.length)

/-- A client path as handed to `add`: at least one token, and no token
equals the reserved virtual segment `"."` or the empty string (the caller
passes real role path segments; a `"."` or empty segment would trip the
final `CHECK_EQ(clientPath, current->clientPath())` of sorter.cpp:153). -/
def validPath (p : List String) : Prop :=
  p ≠ [] ∧ ∀ t ∈ p, t ≠ "." ∧ t ≠ ""

instance (p : List String) : Decidable (validPath p) := by
  unfold validPath; infer_instance

/-- One public call of the sorter, relating pre- and post-states; fatal
CHECK violations abort the process and thus yield no post-state. -/
inductive Step : SState → SState → Prop where
  | add {s s' p} : validPath p → addClient s p = some s' → Step s s'
  | remove {s s' p} : removeClient s p = some s' → Step s s'
  | activate {s s' p} : activateS s p = some s' → Step s s'
  | deactivate {s s' p} : deactivateS s p = some s' → Step s s'
  | updateW {s s' p w} : updateWeightS s p w = s' → Step s s'
  | allocated {s s' p u rs} : allocatedS s p u rs = some s' → Step s s'
  | updateAlloc {s s' p u o n} : updateS s p u o n = some s' → Step s s'
  | unallocated {s s' p u rs} : unallocatedS s p u rs = some s' → Step s s'
  | addTot {s s' u rs} : addTotal s u rs = s' → Step s s'
  | removeTot {s s' u rs} : removeTotal s u rs = some s' → Step s s'
  | sortStep {s s' sh} : ValidSh sh → (sortS sh s).1 = s' → Step s s'

/-- States reachable from a freshly constructed sorter by public calls. -/
def Reachable (s : SState) : Prop :=
  Relation.ReflTransGen Step initS s

mutual
/-- Structural well-formedness of every non-root node: sibling names are
unique, a virtual `"."` node is a leaf, leaves are childless, and an
internal node always keeps at least one child, not solely the virtual
one (a single-`"."` parent is collapsed by `remove` before returning). -/
def treeOK : Node → Bool
  | .mk nm k _ _ cs =>
    decide (nm = "." → ¬k = Kind.internalK) &&
    (match k with
     | Kind.internalK => !cs.isEmpty && decide (cs.map Node.name ≠ ["."])
     | _ => cs.isEmpty) &&
    decide ((cs.map Node.name).Nodup) &&
    kidsOK cs

def kidsOK : List Node → Bool
  | [] => true
  | c :: cs => treeOK c && kidsOK cs
end

/-- Structural well-formedness at the root: an internal node named `""`
with well-formed children and no virtual `"."` child (the root is never a
client, so no `"."` is ever inserted beneath it). -/
def rootOK : Node → Bool
  | .mk nm k _ _ cs =>
    decide (nm = "") && decide (k = Kind.internalK) &&
    decide ((cs.map Node.name).Nodup) &&
    decide ("." ∉ cs.map Node.name) && kidsOK cs

/-- The summed allocation of a children list. -/
def sumKidsRes (cs : List Node) : Multiset Rsrc :=
  (cs.map (fun c => c.alloc.resources)).sum

mutual
/-- Allocation consistency (spec invariants, section 3): every node's
cached scalar total matches its raw resources, and an internal node's
allocation is the sum of its children's. -/
def allocOK : Node → Bool
  | .mk _ k a _ cs =>
    decide (a.totals = scalarSum a.resources) &&
    (if k = Kind.internalK then decide (a.resources = sumKidsRes cs) else true) &&
    kidsAllocOK cs

def kidsAllocOK : List Node → Bool
  | [] => true
  | c :: cs => allocOK c && kidsAllocOK cs
end

/-- Consistency of the `clients` index: distinct valid keys, each bound to
the address of a leaf whose `clientPath()` is the key, and every leaf of
the tree registered. -/
def clientsOK (s : SState) : Bool :=
  decide ((s.clients.map Prod.fst).Nodup) &&
  s.clients.all (fun e =>
    decide (validPath e.1) && decide (e.1 = stripDot e.2) &&
    (match nodeAt s.root e.2 with
     | some n => n.isLeaf
     | none => false)) &&
  (leafAddrs s.root).all (fun a => decide ((stripDot a, a) ∈ s.clients))

/-- The state invariant maintained by every public call (the ordering
invariant 3 of the spec is deliberately not part of it: `remove`'s dead
repositioning branch, sorter.cpp:219, lets it break). -/
def invOK (s : SState) : Bool :=
  rootOK s.root && allocOK s.root && clientsOK s

/-- Spec invariant 3 at one node: the `InactiveLeaf` children form a
contiguous suffix of the children sequence. -/
def orderedKids (cs : List Node) : Bool :=
  (cs.dropWhile (fun c => !(c.kind == Kind.inactiveLeaf))).all
    (fun c => c.kind == Kind.inactiveLeaf)

mutual
/-- The multiset of the `allocation` values of every node of a tree (used
to state that an operation alters no node's allocation). -/
def allAllocs : Node → Multiset Alloc
  | .mk _ _ a _ cs => a ::ₘ allAllocsKids cs

def allAllocsKids : List Node → Multiset Alloc
  | [] => 0
  | c :: cs => allAllocs c + allAllocsKids cs
end

/-- Sort a sibling list by node name (sibling names are unique in
well-formed trees, so this is a canonical order). -/
def sortKids (cs : List Node) : List Node :=
  List.insertionSort (fun a b => a.name ≤ b.name) cs

instance : IsTotal Node (fun a b => a.name ≤ b.name) :=
  ⟨fun a b => le_total a.name b.name⟩

instance : IsTrans Node (fun a b => a.name ≤ b.name) :=
  ⟨fun _ _ _ h1 h2 => le_trans h1 h2⟩

mutual
/-- Canonical form of a tree: every children list sorted by name.  Two
trees have the same canonical form iff they agree up to sibling order. -/
def canonN : Node → Node
  | .mk nm k a w cs => .mk nm k a w (sortKids (canonKids cs))

def canonKids : List Node → List Node
  | [] => []
  | c :: cs => canonN c :: canonKids cs
end

/-- The facts about the tree along the walk of `add(p)` that hold when no
client is registered at `p` (derived from the `clients` index invariant):
the walk never exhausts its tokens at a node that already has a virtual
`"."` child, and never lands exactly on an existing leaf. -/
def WalkOK : Node → List String → Prop
  | n, [] => n.kind = Kind.internalK ∧ findChild n.children "." = none
  | n, t :: ts =>
    match findChild n.children t with
    | none => True
    | some c => (c.isLeaf = true → ts ≠ []) ∧ (c.isLeaf = false → WalkOK c ts)

mutual
/-- Similarity of trees up to sibling order: equal names, kinds agreeing
about being internal, allocations related by `ra`, arbitrary weights,
children pointwise similar up to one permutation per node.  The reordering
public calls (`activate` / `deactivate` / `sort`, and the weight and
allocation walks) produce trees similar to their input. -/
inductive Sim (ra : Alloc → Alloc → Prop) : Node → Node → Prop where
  | mk {nm : String} {k k' : Kind} {a a' : Alloc} {w w' : Option Rat}
      {cs cs'' : List Node} (cs' : List Node) :
      (k = Kind.internalK ↔ k' = Kind.internalK) → ra a a' →
      SimKids ra cs cs' → cs'.Perm cs'' →
      Sim ra (.mk nm k a w cs) (.mk nm k' a' w' cs'')

/-- Pointwise similarity of children lists. -/
inductive SimKids (ra : Alloc → Alloc → Prop) :
    List Node → List Node → Prop where
  | nil : SimKids ra [] []
  | cons {c c' : Node} {cs cs' : List Node} :
      Sim ra c c' → SimKids ra cs cs' → SimKids ra (c :: cs) (c' :: cs')
end

mutual
/-- The summed allocation of a node's leaf descendants (spec invariant:
"ancestor `allocation` is always the exact sum of descendant leaf
allocations"); a leaf's own allocation for a leaf. -/
def leafResSum : Node → Multiset Rsrc
  | .mk _ k a _ cs =>
    if k = Kind.internalK then leafResSumKids cs else a.resources

def leafResSumKids : List Node → Multiset Rsrc
  | [] => 0
  | c :: cs => leafResSum c + leafResSumKids cs
end

@[simp] theorem Node.name_mk (nm k a w cs) : (Node.mk nm k a w cs).name = nm := rfl

@[simp] theorem Node.kind_mk (nm k a w cs) : (Node.mk nm k a w cs).kind = k := rfl

@[simp] theorem Node.alloc_mk (nm k a w cs) : (Node.mk nm k a w cs).alloc = a := rfl

@[simp] theorem Node.weight_mk (nm k a w cs) : (Node.mk nm k a w cs).weight = w := rfl

@[simp] theorem Node.children_mk (nm k a w cs) :
    (Node.mk nm k a w cs).children = cs := rfl

@[simp] theorem Node.withChildren_mk (nm k a w cs cs') :
    (Node.mk nm k a w cs).withChildren cs' = Node.mk nm k a w cs' := rfl

theorem lookupA_setA_self {κ α : Type} [DecidableEq κ]
    (l : List (κ × α)) (k : κ) (v : α) :
    lookupA (setA l k v) k = some v := by
  induction l with
  | nil => simp [setA, lookupA]
  | cons e rest ih =>
    by_cases h : e.1 = k
    · simp [setA, h, lookupA]
    · simpa [setA, h, lookupA, List.find?_cons, decide_eq_true_eq] using ih

theorem lookupA_setA_ne {κ α : Type} [DecidableEq κ]
    (l : List (κ × α)) (k k' : κ) (v : α) (h : k' ≠ k) :
    lookupA (setA l k v) k' = lookupA l k' := by
  induction l with
  | nil => simp [setA, lookupA, List.find?, Ne.symm h]
  | cons e rest ih =>
    by_cases he : e.1 = k
    · subst he
      simp [setA, lookupA, List.find?_cons, Ne.symm h]
    · by_cases he' : e.1 = k'
      · subst he'
        simp [setA, he, lookupA, List.find?_cons]
      · simpa [setA, he, lookupA, List.find?_cons, he'] using ih

theorem tagSlave_singleton (u : Nat) (r : Rsrc) :
    tagSlave u {r} = {({ r with slave := u } : Rsrc)} := by
  simp [tagSlave]

theorem scalarSum_singleton (r : Rsrc) : scalarSum {r} = r.scalar := by
  simp [scalarSum]

theorem scalarSum_zero : scalarSum 0 = 0 := by
  simp [scalarSum]

/-- Claim C10: calling the global total `add(poolUnitId, resources)` or
`remove(poolUnitId, resources)` with empty resources is a silent no-op —
the accounting state is unchanged and no fatal check fires, even when
`remove` names a pool unit that was never added (the containment
precondition is only enforced for non-empty resources). -/
theorem c10_total_empty_noop (s : SState) (u : Nat) :
    addTotal s u 0 = s ∧ removeTotal s u 0 = some s := by
  exact ⟨by simp [addTotal], by simp [removeTotal]⟩

/-- Claim C6: for the global total accounting, adding the same shareable
resource instance to the same pool unit twice increases the raw per-unit
resource map both times but increases the scalar total only the first
time; removing one shareable instance while an identical one remains
leaves the scalar total unchanged; removing the last identical instance
decrements it; and non-shareable resources always contribute/retract their
full scalar quantity. -/
theorem c6_shared_total_accounting (s : SState) (u : Nat) (r q : Rsrc)
    (hr : r.shared = true) (hq : q.shared = false)
    (hnot : ({ r with slave := u } : Rsrc) ∉ s.totalRes) :
    (addTotal s u {r}).totalRes = s.totalRes + {({ r with slave := u } : Rsrc)} ∧
    (addTotal s u {r}).totalTotals = s.totalTotals + r.scalar ∧
    (addTotal (addTotal s u {r}) u {r}).totalRes
      = s.totalRes + {({ r with slave := u } : Rsrc)}
          + {({ r with slave := u } : Rsrc)} ∧
    (addTotal (addTotal s u {r}) u {r}).totalTotals
      = s.totalTotals + r.scalar ∧
    (∃ s3, removeTotal (addTotal (addTotal s u {r}) u {r}) u {r} = some s3 ∧
      s3.totalRes = s.totalRes + {({ r with slave := u } : Rsrc)} ∧
      s3.totalTotals = s.totalTotals + r.scalar ∧
      ∃ s4, removeTotal s3 u {r} = some s4 ∧
        s4.totalRes = s.totalRes ∧ s4.totalTotals = s.totalTotals) ∧
    (addTotal s u {q}).totalTotals = s.totalTotals + q.scalar ∧
    (∃ s5, removeTotal (addTotal s u {q}) u {q} = some s5 ∧
      s5.totalRes = s.totalRes ∧ s5.totalTotals = s.totalTotals) := by
  obtain ⟨rid, rsc, rsh, rsl⟩ := r
  obtain ⟨qid, qsc, qsh, qsl⟩ := q
  simp only at hr hq hnot
  subst hr
  subst hq
  have hne : ({(⟨rid, rsc, true, rsl⟩ : Rsrc)} : Multiset Rsrc) ≠ 0 := by simp
  have hqe : ({(⟨qid, qsc, false, qsl⟩ : Rsrc)} : Multiset Rsrc) ≠ 0 := by simp
  have h1res : (addTotal s u {⟨rid, rsc, true, rsl⟩}).totalRes
      = s.totalRes + {(⟨rid, rsc, true, u⟩ : Rsrc)} := by
    simp [addTotal, hne, tagSlave]
  have h1tot : (addTotal s u {⟨rid, rsc, true, rsl⟩}).totalTotals
      = s.totalTotals + rsc := by
    simp [addTotal, hne, Multiset.filter_singleton, hnot, scalarSum, tagSlave]
  have hmem1 : (⟨rid, rsc, true, u⟩ : Rsrc)
      ∈ s.totalRes + {(⟨rid, rsc, true, u⟩ : Rsrc)} := by simp
  have h2res : (addTotal (addTotal s u {⟨rid, rsc, true, rsl⟩}) u
      {⟨rid, rsc, true, rsl⟩}).totalRes
      = s.totalRes + {(⟨rid, rsc, true, u⟩ : Rsrc)}
          + {(⟨rid, rsc, true, u⟩ : Rsrc)} := by
    simp [addTotal, hne, tagSlave, h1res]
  have h2tot : (addTotal (addTotal s u {⟨rid, rsc, true, rsl⟩}) u
      {⟨rid, rsc, true, rsl⟩}).totalTotals = s.totalTotals + rsc := by
    simp [addTotal, hne, Multiset.filter_singleton, h1res, h1tot, hmem1,
      hnot, scalarSum, tagSlave]
  refine ⟨h1res, h1tot, h2res, h2tot, ?_, ?_, ?_⟩
  · -- remove one of two shareable copies: scalar total unchanged
    have hat : atSlave u (s.totalRes + {(⟨rid, rsc, true, u⟩ : Rsrc)}
        + {(⟨rid, rsc, true, u⟩ : Rsrc)}) ≠ 0 := by
      intro h
      have hm : (⟨rid, rsc, true, u⟩ : Rsrc) ∈ atSlave u (s.totalRes
          + {(⟨rid, rsc, true, u⟩ : Rsrc)} + {(⟨rid, rsc, true, u⟩ : Rsrc)}) := by
        simp [atSlave, Multiset.mem_filter]
      rw [h] at hm
      simp at hm
    have hle : tagSlave u {(⟨rid, rsc, true, rsl⟩ : Rsrc)}
        ≤ s.totalRes + {(⟨rid, rsc, true, u⟩ : Rsrc)}
            + {(⟨rid, rsc, true, u⟩ : Rsrc)} := by
      rw [tagSlave_singleton]
      exact Multiset.singleton_le.2 (by simp)
    have hsub : s.totalRes + {(⟨rid, rsc, true, u⟩ : Rsrc)}
        + {(⟨rid, rsc, true, u⟩ : Rsrc)}
        - tagSlave u {(⟨rid, rsc, true, rsl⟩ : Rsrc)}
        = s.totalRes + {(⟨rid, rsc, true, u⟩ : Rsrc)} := by
      rw [tagSlave_singleton]
      exact add_tsub_cancel_right _ _
    have hrem1 : removeTotal (addTotal (addTotal s u {⟨rid, rsc, true, rsl⟩}) u
        {⟨rid, rsc, true, rsl⟩}) u {⟨rid, rsc, true, rsl⟩}
        = some { addTotal (addTotal s u {⟨rid, rsc, true, rsl⟩}) u
                   {⟨rid, rsc, true, rsl⟩} with
                 totalRes := s.totalRes + {(⟨rid, rsc, true, u⟩ : Rsrc)},
                 totalTotals := s.totalTotals + rsc } := by
      simp only [removeTotal, if_neg hne, h2res, h2tot]
      rw [if_pos ⟨hat, hle⟩, hsub]
      simp [Multiset.filter_singleton, hmem1, scalarSum, h2tot]
    refine ⟨_, hrem1, by simp, by simp, ?_⟩
    -- remove the last copy: scalar total decremented
    have hat3 : atSlave u (s.totalRes + {(⟨rid, rsc, true, u⟩ : Rsrc)}) ≠ 0 := by
      intro h
      have hm : (⟨rid, rsc, true, u⟩ : Rsrc)
          ∈ atSlave u (s.totalRes + {(⟨rid, rsc, true, u⟩ : Rsrc)}) := by
        simp [atSlave, Multiset.mem_filter]
      rw [h] at hm
      simp at hm
    have hle3 : tagSlave u {(⟨rid, rsc, true, rsl⟩ : Rsrc)}
        ≤ s.totalRes + {(⟨rid, rsc, true, u⟩ : Rsrc)} := by
      rw [tagSlave_singleton]
      exact Multiset.singleton_le.2 (by simp)
    have hsub3 : s.totalRes + {(⟨rid, rsc, true, u⟩ : Rsrc)}
        - tagSlave u {(⟨rid, rsc, true, rsl⟩ : Rsrc)} = s.totalRes := by
      rw [tagSlave_singleton]
      exact add_tsub_cancel_right _ _
    have hrem2 : removeTotal { addTotal (addTotal s u {⟨rid, rsc, true, rsl⟩}) u
          {⟨rid, rsc, true, rsl⟩} with
          totalRes := s.totalRes + {(⟨rid, rsc, true, u⟩ : Rsrc)},
          totalTotals := s.totalTotals + rsc } u {⟨rid, rsc, true, rsl⟩}
        = some { addTotal (addTotal s u {⟨rid, rsc, true, rsl⟩}) u
                   {⟨rid, rsc, true, rsl⟩} with
                 totalRes := s.totalRes, totalTotals := s.totalTotals } := by
      simp only [removeTotal, if_neg hne]
      rw [if_pos ⟨hat3, hle3⟩, hsub3]
      simp [Multiset.filter_singleton, hnot, scalarSum]
    exact ⟨_, hrem2, by simp, by simp⟩
  · -- non-shareable add always contributes its full scalar quantity
    simp [addTotal, hqe, Multiset.filter_singleton, scalarSum, tagSlave]
  · -- non-shareable remove always retracts its full scalar quantity
    have haddr : (addTotal s u {(⟨qid, qsc, false, qsl⟩ : Rsrc)}).totalRes
        = s.totalRes + {(⟨qid, qsc, false, u⟩ : Rsrc)} := by
      simp [addTotal, hqe, tagSlave]
    have haddt : (addTotal s u {(⟨qid, qsc, false, qsl⟩ : Rsrc)}).totalTotals
        = s.totalTotals + qsc := by
      simp [addTotal, hqe, Multiset.filter_singleton, scalarSum, tagSlave]
    have hatq : atSlave u (s.totalRes + {(⟨qid, qsc, false, u⟩ : Rsrc)}) ≠ 0 := by
      intro h
      have hm : (⟨qid, qsc, false, u⟩ : Rsrc)
          ∈ atSlave u (s.totalRes + {(⟨qid, qsc, false, u⟩ : Rsrc)}) := by
        simp [atSlave, Multiset.mem_filter]
      rw [h] at hm
      simp at hm
    have hleq : tagSlave u {(⟨qid, qsc, false, qsl⟩ : Rsrc)}
        ≤ s.totalRes + {(⟨qid, qsc, false, u⟩ : Rsrc)} := by
      rw [tagSlave_singleton]
      exact Multiset.singleton_le.2 (by simp)
    have hsubq : s.totalRes + {(⟨qid, qsc, false, u⟩ : Rsrc)}
        - tagSlave u {(⟨qid, qsc, false, qsl⟩ : Rsrc)} = s.totalRes := by
      rw [tagSlave_singleton]
      exact add_tsub_cancel_right _ _
    have hremq : removeTotal (addTotal s u {⟨qid, qsc, false, qsl⟩}) u
        {⟨qid, qsc, false, qsl⟩}
        = some { addTotal s u {⟨qid, qsc, false, qsl⟩} with
                 totalRes := s.totalRes, totalTotals := s.totalTotals } := by
      simp only [removeTotal, if_neg hqe, haddr, haddt]
      rw [if_pos ⟨hatq, hleq⟩, hsubq]
      simp [Multiset.filter_singleton, scalarSum]
    exact ⟨_, hremq, by simp, by simp⟩

theorem Node.children_withChildren (n : Node) (cs : List Node) :
    (n.withChildren cs).children = cs := by
  cases n
  rfl

theorem findChild_append_none (cs ds : List Node) (t : String)
    (h : findChild cs t = none) : findChild (cs ++ ds) t = findChild ds t := by
  induction cs with
  | nil => simp
  | cons c rest ih =>
    rw [List.cons_append]
    unfold findChild at h ⊢
    rw [List.find?_cons] at h ⊢
    cases hd : decide (c.name = t)
    · rw [hd] at h
      exact ih h
    · rw [hd] at h
      exact Option.noConfusion h

theorem updateWeightS_clients (s : SState) (p : List String) (w : Rat) :
    (updateWeightS s p w).clients = s.clients := by
  unfold updateWeightS
  cases lookupA s.clients p <;> simp

theorem updateWeightS_weights (s : SState) (p : List String) (w : Rat) :
    (updateWeightS s p w).weights = setA s.weights p w := by
  unfold updateWeightS
  cases lookupA s.clients p <;> simp

/-- Claim C7: `updateWeight(path, w)` always records `w` in the override
table, even when no client exists at `path`; and if `updateWeight("x", 2)`
precedes any client at `"x"`, a later `add("x")` yields a client whose
weight, as resolved by `getWeight` during `sort()`, is 2 rather than the
default 1. -/
theorem c7_weight_override (s : SState) (p : List String) (w : Rat)
    (hnc : lookupA s.clients ["x"] = none)
    (hnn : findChild s.root.children "x" = none) :
    lookupA (updateWeightS s p w).weights p = some w ∧
    ∃ s2, addClient (updateWeightS s ["x"] 2) ["x"] = some s2 ∧
      findS s2 ["x"] = some (Node.mk "x" Kind.inactiveLeaf Alloc.empty none []) ∧
      getWeightPure s2.weights ["x"]
        (Node.mk "x" Kind.inactiveLeaf Alloc.empty none []) = 2 := by
  constructor
  · rw [updateWeightS_weights]
    exact lookupA_setA_self _ _ _
  · have hroot : (updateWeightS s ["x"] 2).root = s.root := by
      unfold updateWeightS
      rw [hnc]
    have hcl := updateWeightS_clients s ["x"] 2
    have hwt := updateWeightS_weights s ["x"] 2
    refine ⟨{ updateWeightS s ["x"] 2 with
              root := s.root.withChildren (addChild s.root.children
                (Node.mk "x" Kind.inactiveLeaf Alloc.empty none [])),
              clients := setA s.clients ["x"] ["x"] }, ?_, ?_, ?_⟩
    · unfold addClient
      rw [hcl, hnc]
      simp only [addAux, hroot, hnn]
      simp [mkChain]
    · have hkids : (s.root.withChildren (addChild s.root.children
          (Node.mk "x" Kind.inactiveLeaf Alloc.empty none []))).children
          = s.root.children ++ [Node.mk "x" Kind.inactiveLeaf Alloc.empty none []] := by
        rw [Node.children_withChildren]
        simp [addChild, Node.kind]
      have hfc : findChild (s.root.children
          ++ [Node.mk "x" Kind.inactiveLeaf Alloc.empty none []]) "x"
          = some (Node.mk "x" Kind.inactiveLeaf Alloc.empty none []) := by
        rw [findChild_append_none _ _ _ hnn]
        simp [findChild, Node.name]
      have hval : nodeAt (s.root.withChildren
          (addChild s.root.children (Node.mk "x" Kind.inactiveLeaf Alloc.empty none [])))
          ["x"] = some (Node.mk "x" Kind.inactiveLeaf Alloc.empty none []) := by
        simp only [nodeAt, hkids, hfc]
      simp only [findS]
      rw [lookupA_setA_self]
      simp only [Option.bind_eq_bind, Option.some_bind]
      rw [hval]
      simp [Node.isLeaf, Node.kind]
    · change getWeightPure (updateWeightS s ["x"] 2).weights ["x"]
        (Node.mk "x" Kind.inactiveLeaf Alloc.empty none []) = 2
      rw [hwt]
      simp [getWeightPure, Node.weight, lookupA_setA_self]

theorem c6_shared_total_accounting_witness :
    (⟨0, 1, true, 0⟩ : Rsrc).shared = true ∧
    (⟨1, 2, false, 0⟩ : Rsrc).shared = false ∧
    ({ (⟨0, 1, true, 0⟩ : Rsrc) with slave := 0 } : Rsrc) ∉ initS.totalRes ∧
    (addTotal initS 0 {⟨0, 1, true, 0⟩}).totalTotals = initS.totalTotals + 1 ∧
    (addTotal (addTotal initS 0 {⟨0, 1, true, 0⟩}) 0
        {⟨0, 1, true, 0⟩}).totalTotals = initS.totalTotals + 1 :=
  ⟨rfl, rfl, by simp [initS],
   (c6_shared_total_accounting initS 0 ⟨0, 1, true, 0⟩ ⟨1, 2, false, 0⟩
      rfl rfl (by simp [initS])).2.1,
   (c6_shared_total_accounting initS 0 ⟨0, 1, true, 0⟩ ⟨1, 2, false, 0⟩
      rfl rfl (by simp [initS])).2.2.2.1⟩

theorem c7_weight_override_witness :
    lookupA initS.clients ["x"] = none ∧
    findChild initS.root.children "x" = none ∧
    lookupA (updateWeightS initS ["y"] 5).weights ["y"] = some 5 :=
  ⟨rfl, rfl, (c7_weight_override initS ["y"] 5 rfl rfl).1⟩

theorem findChild_name {cs : List Node} {t : String} {c : Node}
    (h : findChild cs t = some c) : c.name = t := by
  unfold findChild at h
  have := List.find?_some h
  simpa using this

/-- Claim C5: if a client exists at leaf path `a` and `add("a/b")` is
called, node `a` becomes `Internal` with a synthetic `"."` child carrying
`a`'s prior kind and allocation, registered in `clients` under path `a`;
`allocation("a")` still returns exactly what was allocated before the
split and `contains("a")` stays true; subsequently removing `"a/b"`
collapses `a` back into a direct leaf. -/
theorem c5_split_collapse (s : SState) (c : Node)
    (hfc : findChild s.root.children "a" = some c)
    (hleaf : c.isLeaf = true)
    (hkids : c.children = [])
    (hcl : lookupA s.clients ["a"] = some ["a"])
    (hnb : lookupA s.clients ["a", "b"] = none) :
    ∃ s1, addClient s ["a", "b"] = some s1 ∧
      nodeAt s1.root ["a"] = some (Node.mk "a" Kind.internalK c.alloc c.weight
        [Node.mk "." c.kind c.alloc none [],
         Node.mk "b" Kind.inactiveLeaf Alloc.empty none []]) ∧
      lookupA s1.clients ["a"] = some ["a", "."] ∧
      allocationQ s1 ["a"] = some c.alloc.resources ∧
      containsS s1 ["a"] = true ∧
      ∃ s2, removeClient s1 ["a", "b"] = some s2 ∧
        findS s2 ["a"] = some (Node.mk "a" c.kind c.alloc c.weight []) ∧
        allocationQ s2 ["a"] = some c.alloc.resources ∧
        containsS s2 ["a"] = true := by
  obtain ⟨rt, cls, wts, tr, tt⟩ := s
  obtain ⟨rnm, rk, ra, rw', rcs⟩ := rt
  obtain ⟨cnm, ck, ca, cw, ccs⟩ := c
  simp only [Node.children_mk] at hfc hkids
  simp only [Node.isLeaf, Node.kind_mk] at hleaf
  have hname : cnm = "a" := by
    simpa using findChild_name hfc
  subst hname
  subst hkids
  have hkind : ¬ck = Kind.internalK := by
    simpa using hleaf
  have hAddNil : ∀ x : Node, addChild [] x = [x] := by
    intro x
    unfold addChild
    split <;> rfl
  simp only at hcl hnb ⊢
  have hadd : addClient ⟨Node.mk rnm rk ra rw' rcs, cls, wts, tr, tt⟩ ["a", "b"]
      = some ⟨Node.mk rnm rk ra rw'
          (Node.mk "a" Kind.internalK ca cw
            [Node.mk "." ck ca none [],
             Node.mk "b" Kind.inactiveLeaf Alloc.empty none []]
           :: eraseChild rcs "a"),
          setA (setA cls ["a"] ["a", "."]) ["a", "b"] ["a", "b"], wts, tr, tt⟩ := by
    unfold addClient
    rw [show lookupA cls ["a", "b"] = none from hnb]
    simp only [addAux, Node.children_mk, hfc, Node.isLeaf, Node.kind_mk, hkind,
      mkChain, hAddNil, Node.withChildren_mk, List.cons_append, List.nil_append]
    simp [addChild, hkind]
  refine ⟨_, hadd, ?_, ?_, ?_, ?_, ?_⟩
  · simp [nodeAt, findChild]
  · exact by
      rw [lookupA_setA_ne _ _ _ _ (by simp), lookupA_setA_self]
  · simp only [allocationQ, findS]
    rw [lookupA_setA_ne _ _ _ _ (by simp), lookupA_setA_self]
    simp [nodeAt, findChild, Node.isLeaf, hkind]
  · simp only [containsS, findS]
    rw [lookupA_setA_ne _ _ _ _ (by simp), lookupA_setA_self]
    simp [nodeAt, findChild, Node.isLeaf, hkind]
  · have hsub0 : ∀ a : Alloc, a.subAll 0 = a := by
      intro a
      simp [Alloc.subAll, scalarSum]
    have hrem : removeClient ⟨Node.mk rnm rk ra rw'
          (Node.mk "a" Kind.internalK ca cw
            [Node.mk "." ck ca none [],
             Node.mk "b" Kind.inactiveLeaf Alloc.empty none []]
           :: eraseChild rcs "a"),
          setA (setA cls ["a"] ["a", "."]) ["a", "b"] ["a", "b"], wts, tr, tt⟩
          ["a", "b"]
        = some ⟨Node.mk rnm rk ra rw'
            (Node.mk "a" ck ca cw [] :: eraseChild rcs "a"),
            setA (eraseA (setA (setA cls ["a"] ["a", "."]) ["a", "b"] ["a", "b"])
              ["a", "b"]) ["a"] ["a"], wts, tr, tt⟩ := by
      unfold removeClient
      rw [lookupA_setA_self]
      simp only [Option.bind_eq_bind, Option.some_bind]
      rw [show nodeAt (Node.mk rnm rk ra rw'
            (Node.mk "a" Kind.internalK ca cw
              [Node.mk "." ck ca none [],
               Node.mk "b" Kind.inactiveLeaf Alloc.empty none []]
             :: eraseChild rcs "a")) ["a", "b"]
          = some (Node.mk "b" Kind.inactiveLeaf Alloc.empty none []) from by
        simp [nodeAt, findChild]]
      simp only [Option.some_bind]
      rw [if_pos (show (Node.mk "b" Kind.inactiveLeaf Alloc.empty none []).isLeaf
        = true from rfl)]
      simp only [removeAux, resolveN, applyRes, nodeAt, findChild, List.find?,
        Node.name_mk, Node.children_mk, Node.kind_mk, Node.alloc_mk,
        Node.weight_mk, eraseChild, replaceChild, Alloc.empty, hsub0]
      simp [hkind, Node.isLeaf, hleaf, eraseChild, replaceChild, hsub0, Alloc.empty, List.foldl]
    refine ⟨_, hrem, ?_, ?_, ?_⟩
    · simp only [findS]
      rw [lookupA_setA_self]
      simp [nodeAt, findChild, Node.isLeaf, hkind]
    · simp only [allocationQ, findS]
      rw [lookupA_setA_self]
      simp [nodeAt, findChild, Node.isLeaf, hkind]
    · simp only [containsS, findS]
      rw [lookupA_setA_self]
      simp [nodeAt, findChild, Node.isLeaf, hkind]

theorem c5_split_collapse_witness :
    (findChild (SState.mk
        (Node.mk "" Kind.internalK Alloc.empty none
          [Node.mk "a" Kind.inactiveLeaf Alloc.empty none []])
        [(["a"], ["a"])] [] 0 0).root.children "a"
      = some (Node.mk "a" Kind.inactiveLeaf Alloc.empty none []) ∧
     (Node.mk "a" Kind.inactiveLeaf Alloc.empty none []).isLeaf = true ∧
     lookupA [(["a"], ["a"])] ["a"] = some ["a"] ∧
     lookupA [(["a"], ["a"])] ["a", "b"] = none) ∧
    ∃ s1, addClient (SState.mk
        (Node.mk "" Kind.internalK Alloc.empty none
          [Node.mk "a" Kind.inactiveLeaf Alloc.empty none []])
        [(["a"], ["a"])] [] 0 0) ["a", "b"] = some s1 ∧
      containsS s1 ["a"] = true ∧
      ∃ s2, removeClient s1 ["a", "b"] = some s2 ∧ containsS s2 ["a"] = true := by
  refine ⟨⟨rfl, rfl, rfl, rfl⟩, ?_⟩
  obtain ⟨s1, h1, _, _, _, h5, s2, h6, _, _, h9⟩ :=
    c5_split_collapse (SState.mk
        (Node.mk "" Kind.internalK Alloc.empty none
          [Node.mk "a" Kind.inactiveLeaf Alloc.empty none []])
        [(["a"], ["a"])] [] 0 0)
      (Node.mk "a" Kind.inactiveLeaf Alloc.empty none []) rfl rfl rfl rfl rfl
  exact ⟨s1, h1, h5, s2, h6, h9⟩

theorem allAllocsKids_append (cs ds : List Node) :
    allAllocsKids (cs ++ ds) = allAllocsKids cs + allAllocsKids ds := by
  induction cs with
  | nil => simp [allAllocsKids]
  | cons c rest ih => simp [allAllocsKids, ih, add_assoc]

theorem allAllocsKids_addChild (cs : List Node) (x : Node) :
    allAllocsKids (addChild cs x) = allAllocs x + allAllocsKids cs := by
  unfold addChild
  split
  · rw [allAllocsKids_append]
    simp [allAllocsKids, add_comm]
  · simp [allAllocsKids]

theorem allAllocsKids_erase {cs : List Node} {t : String} {c : Node}
    (h : findChild cs t = some c) :
    allAllocsKids cs = allAllocs c + allAllocsKids (eraseChild cs t) := by
  induction cs with
  | nil => simp [findChild] at h
  | cons d rest ih =>
    unfold findChild at h
    rw [List.find?_cons] at h
    cases hd : decide (d.name = t)
    · rw [hd] at h
      have hdt : ¬d.name = t := of_decide_eq_false hd
      rw [show eraseChild (d :: rest) t = d :: eraseChild rest t by
        simp [eraseChild, hdt]]
      simp only [allAllocsKids]
      rw [ih h]
      exact add_left_comm _ _ _
    · rw [hd] at h
      cases h
      have hdt : c.name = t := of_decide_eq_true hd
      rw [show eraseChild (c :: rest) t = rest by simp [eraseChild, hdt]]
      simp [allAllocsKids]

theorem allAllocsKids_replace {cs : List Node} {t : String} {c : Node}
    (c' : Node) (h : findChild cs t = some c)
    (heq : allAllocs c' = allAllocs c) :
    allAllocsKids (replaceChild cs t c') = allAllocsKids cs := by
  induction cs with
  | nil => simp [findChild] at h
  | cons d rest ih =>
    unfold findChild at h
    rw [List.find?_cons] at h
    cases hd : decide (d.name = t)
    · rw [hd] at h
      have hdt : ¬d.name = t := of_decide_eq_false hd
      rw [show replaceChild (d :: rest) t c' = d :: replaceChild rest t c' by
        simp [replaceChild, hdt]]
      simp only [allAllocsKids]
      rw [ih h]
    · rw [hd] at h
      cases h
      have hdt : c.name = t := of_decide_eq_true hd
      rw [show replaceChild (c :: rest) t c' = c' :: rest by
        simp [replaceChild, hdt]]
      simp [allAllocsKids, heq]

theorem allAllocs_flip (c : Node) (k : Kind) :
    allAllocs (Node.mk c.name k c.alloc c.weight c.children) = allAllocs c := by
  cases c
  simp [allAllocs]

theorem flipAt_allAllocs (k : Kind) :
    ∀ (a : List String) (n : Node), allAllocs (flipAt k n a) = allAllocs n := by
  intro a
  induction a with
  | nil => intro n; rfl
  | cons t rest ih =>
    intro n
    cases rest with
    | nil =>
      show allAllocs (flipAt k n [t]) = allAllocs n
      unfold flipAt
      cases hf : findChild n.children t with
      | none => rfl
      | some c =>
        cases n with
        | mk nm nk na nw cs =>
          simp only [Node.withChildren_mk, allAllocs, Node.children_mk] at hf ⊢
          rw [allAllocsKids_addChild, allAllocs_flip]
          rw [allAllocsKids_erase hf]
    | cons t2 rest2 =>
      show allAllocs (flipAt k n (t :: t2 :: rest2)) = allAllocs n
      unfold flipAt
      cases hf : findChild n.children t with
      | none => rfl
      | some c =>
        cases n with
        | mk nm nk na nw cs =>
          simp only [Node.withChildren_mk, allAllocs, Node.children_mk] at hf ⊢
          rw [allAllocsKids_replace _ hf (ih c)]

theorem findChild_replaceChild {cs : List Node} {t : String} {c : Node}
    (c' : Node) (hn : c'.name = t) (h : findChild cs t = some c) :
    findChild (replaceChild cs t c') t = some c' := by
  induction cs with
  | nil => simp [findChild] at h
  | cons d rest ih =>
    unfold findChild at h ⊢
    rw [List.find?_cons] at h
    cases hd : decide (d.name = t)
    · rw [hd] at h
      have hdt : ¬d.name = t := of_decide_eq_false hd
      rw [show replaceChild (d :: rest) t c' = d :: replaceChild rest t c' by
        simp [replaceChild, hdt]]
      rw [List.find?_cons, hd]
      exact ih h
    · have hdt : d.name = t := of_decide_eq_true hd
      rw [show replaceChild (d :: rest) t c' = c' :: rest by
        simp [replaceChild, hdt]]
      rw [List.find?_cons]
      simp [hn]

theorem flipAt_name (k : Kind) (a : List String) (n : Node) :
    (flipAt k n a).name = n.name := by
  cases a with
  | nil => rfl
  | cons t rest =>
    cases rest with
    | nil =>
      unfold flipAt
      cases findChild n.children t
      · rfl
      · cases n
        rfl
    | cons t2 r2 =>
      unfold flipAt
      cases findChild n.children t
      · rfl
      · cases n
        rfl

theorem flipAt_cons (k : Kind) (t0 : String) (rest : List String)
    (hne : rest ≠ []) (n : Node) :
    flipAt k n (t0 :: rest)
      = (match findChild n.children t0 with
        | some c => n.withChildren (replaceChild n.children t0 (flipAt k c rest))
        | none => n) := by
  cases rest with
  | nil => exact absurd rfl hne
  | cons a b => rfl

theorem flipAt_nodeAt (k : Kind) :
    ∀ (q : List String) (n par c : Node) (t : String),
      nodeAt n q = some par → findChild par.children t = some c →
      nodeAt (flipAt k n (q ++ [t])) q
        = some (par.withChildren (addChild (eraseChild par.children t)
            (Node.mk c.name k c.alloc c.weight c.children))) := by
  intro q
  induction q with
  | nil =>
    intro n par c t h1 h2
    cases h1
    show nodeAt (flipAt k n [t]) [] = _
    unfold flipAt
    rw [h2]
    rfl
  | cons t0 q' ih =>
    intro n par c t h1 h2
    simp only [nodeAt] at h1
    cases hch : findChild n.children t0 with
    | none =>
      rw [hch] at h1
      exact absurd h1 (by simp)
    | some ch =>
      rw [hch] at h1
      have h1' : nodeAt ch q' = some par := h1
      have hnm : (flipAt k ch (q' ++ [t])).name = ch.name := flipAt_name _ _ _
      have hnm2 : ch.name = t0 := findChild_name hch
      rw [List.cons_append, flipAt_cons k t0 (q' ++ [t]) (by simp) n, hch]
      cases n with
      | mk nm nk na nw cs =>
        simp only [Node.children_mk] at hch
        simp only [Node.withChildren_mk, Node.children_mk, nodeAt]
        rw [findChild_replaceChild _ (by rw [hnm, hnm2]) hch]
        exact ih ch par c t h1' h2

theorem nodeAt_append (n : Node) (q r : List String) :
    nodeAt n (q ++ r) = (nodeAt n q).bind (fun m => nodeAt m r) := by
  induction q generalizing n with
  | nil => simp [nodeAt]
  | cons t q' ih =>
    rw [List.cons_append]
    simp only [nodeAt]
    cases findChild n.children t with
    | none => rfl
    | some ch => exact ih ch

/-- Claim C9: `activate` is a no-op on an already active client and
`deactivate` on an already inactive one; otherwise the operation only
flips the client's kind between `ActiveLeaf` and `InactiveLeaf` and
repositions it within its parent's children (front of the active region on
activation, back on deactivation) — no node's allocation, nor any other
sorter state, is altered. -/
theorem c9_activate_deactivate (s : SState) (p q : List String) (t : String)
    (par c : Node)
    (hcl : lookupA s.clients p = some (q ++ [t]))
    (hpar : nodeAt s.root q = some par)
    (hc : findChild par.children t = some c)
    (hleaf : c.isLeaf = true) :
    (c.kind = Kind.activeLeaf → activateS s p = some s) ∧
    (c.kind = Kind.inactiveLeaf → deactivateS s p = some s) ∧
    (c.kind = Kind.inactiveLeaf → ∃ s',
      activateS s p = some s' ∧
      s'.clients = s.clients ∧ s'.weights = s.weights ∧
      s'.totalRes = s.totalRes ∧ s'.totalTotals = s.totalTotals ∧
      allAllocs s'.root = allAllocs s.root ∧
      nodeAt s'.root q = some (par.withChildren
        (Node.mk c.name Kind.activeLeaf c.alloc c.weight c.children
          :: eraseChild par.children t))) ∧
    (c.kind = Kind.activeLeaf → ∃ s',
      deactivateS s p = some s' ∧
      s'.clients = s.clients ∧ s'.weights = s.weights ∧
      s'.totalRes = s.totalRes ∧ s'.totalTotals = s.totalTotals ∧
      allAllocs s'.root = allAllocs s.root ∧
      nodeAt s'.root q = some (par.withChildren
        (eraseChild par.children t
          ++ [Node.mk c.name Kind.inactiveLeaf c.alloc c.weight c.children]))) := by
  have hnode : nodeAt s.root (q ++ [t]) = some c := by
    rw [nodeAt_append, hpar]
    simp [nodeAt, hc]
  refine ⟨?_, ?_, ?_, ?_⟩
  · intro hk
    unfold activateS
    rw [hcl]
    simp only [Option.bind_eq_bind, Option.some_bind]
    rw [hnode]
    simp [hleaf, hk]
  · intro hk
    unfold deactivateS
    rw [hcl]
    simp only [Option.bind_eq_bind, Option.some_bind]
    rw [hnode]
    simp [hleaf, hk]
  · intro hk
    refine ⟨{ s with root := flipAt Kind.activeLeaf s.root (q ++ [t]) },
      ?_, rfl, rfl, rfl, rfl, flipAt_allAllocs _ _ _, ?_⟩
    · unfold activateS
      rw [hcl]
      simp only [Option.bind_eq_bind, Option.some_bind]
      rw [hnode]
      simp [hleaf, hk]
    · rw [flipAt_nodeAt Kind.activeLeaf q s.root par c t hpar hc]
      simp [addChild]
  · intro hk
    refine ⟨{ s with root := flipAt Kind.inactiveLeaf s.root (q ++ [t]) },
      ?_, rfl, rfl, rfl, rfl, flipAt_allAllocs _ _ _, ?_⟩
    · unfold deactivateS
      rw [hcl]
      simp only [Option.bind_eq_bind, Option.some_bind]
      rw [hnode]
      simp [hleaf, hk]
    · rw [flipAt_nodeAt Kind.inactiveLeaf q s.root par c t hpar hc]
      simp [addChild]

theorem c9_activate_deactivate_witness :
    (lookupA [(["a"], ["a"])] ["a"] = some ([] ++ ["a"]) ∧
     nodeAt (Node.mk "" Kind.internalK Alloc.empty none
        [Node.mk "a" Kind.inactiveLeaf Alloc.empty none []]) []
       = some (Node.mk "" Kind.internalK Alloc.empty none
          [Node.mk "a" Kind.inactiveLeaf Alloc.empty none []]) ∧
     findChild [Node.mk "a" Kind.inactiveLeaf Alloc.empty none []] "a"
       = some (Node.mk "a" Kind.inactiveLeaf Alloc.empty none []) ∧
     (Node.mk "a" Kind.inactiveLeaf Alloc.empty none []).isLeaf = true) ∧
    deactivateS (SState.mk
      (Node.mk "" Kind.internalK Alloc.empty none
        [Node.mk "a" Kind.inactiveLeaf Alloc.empty none []])
      [(["a"], ["a"])] [] 0 0) ["a"]
      = some (SState.mk
        (Node.mk "" Kind.internalK Alloc.empty none
          [Node.mk "a" Kind.inactiveLeaf Alloc.empty none []])
        [(["a"], ["a"])] [] 0 0) :=
  ⟨⟨rfl, rfl, rfl, rfl⟩,
   (c9_activate_deactivate (SState.mk
      (Node.mk "" Kind.internalK Alloc.empty none
        [Node.mk "a" Kind.inactiveLeaf Alloc.empty none []])
      [(["a"], ["a"])] [] 0 0) ["a"] [] "a"
      (Node.mk "" Kind.internalK Alloc.empty none
        [Node.mk "a" Kind.inactiveLeaf Alloc.empty none []])
      (Node.mk "a" Kind.inactiveLeaf Alloc.empty none [])
      rfl rfl rfl rfl).2.1 rfl⟩

/-- Claim C8 as stated is false: `allocation(slaveId)` skips clients with
no entry for that unit (sorter.cpp:377), so its domain is not "every
client path".  Concretely: clients `a` and `b`, resources allocated only
to `a` on unit 1 — the returned map binds `a` but not `b`, though `b` is a
client. -/
theorem c8_allocation_domain_counterexample :
    ((addClient initS ["a"]).bind (fun s1 =>
        (addClient s1 ["b"]).bind (fun s2 =>
          allocatedS s2 ["a"] 1 {⟨0, 1, false, 0⟩}))).map
      (fun s => (containsS s ["b"],
                 (lookupA (allocationSlaveQ s 1) ["b"]).isNone,
                 (lookupA (allocationSlaveQ s 1) ["a"]).isSome))
    = some (true, true, true) := by decide

/-- Claim C8, amended: for every sorter state and pool unit `u`,
`allocation(u)` is built by scanning the `clients` index (not the tree)
and binds exactly those client paths whose client holds a non-empty
allocation on `u`, each to that client's resources on `u`. -/
theorem c8_allocation_by_unit (s : SState) (u : Nat) (k : List String)
    (rs : Multiset Rsrc) :
    (k, rs) ∈ allocationSlaveQ s u ↔
      ∃ e ∈ s.clients, ∃ n, nodeAt s.root e.2 = some n ∧
        atSlave u n.alloc.resources ≠ 0 ∧
        k = stripDot e.2 ∧ rs = atSlave u n.alloc.resources := by
  unfold allocationSlaveQ
  rw [List.mem_filterMap]
  constructor
  · rintro ⟨e, he, hf⟩
    cases hnd : nodeAt s.root e.2 with
    | none => rw [hnd] at hf; exact absurd hf (by simp)
    | some n =>
      rw [hnd] at hf
      have hf' : (if atSlave u n.alloc.resources ≠ 0 then
          some (stripDot e.2, atSlave u n.alloc.resources) else none)
          = some (k, rs) := hf
      by_cases hne : atSlave u n.alloc.resources ≠ 0
      · rw [if_pos hne] at hf'
        have h12 := Option.some.inj hf'
        exact ⟨e, he, n, hnd, hne, (congrArg Prod.fst h12).symm,
          (congrArg Prod.snd h12).symm⟩
      · rw [if_neg hne] at hf'
        exact absurd hf' (by simp)
  · rintro ⟨e, he, n, hnd, hne, rfl, rfl⟩
    refine ⟨e, he, ?_⟩
    rw [hnd]
    show (if atSlave u n.alloc.resources ≠ 0 then
        some (stripDot e.2, atSlave u n.alloc.resources) else none)
      = some (stripDot e.2, atSlave u n.alloc.resources)
    rw [if_pos hne]

/-- Claim C1 is violated by the code: the collapse step of `remove`
guards its repositioning on `current->kind == Node::INTERNAL`
(sorter.cpp:219) immediately after assigning a leaf kind, so the collapsed
inactive leaf is never moved behind its active-capable siblings.  After
`add("z/w"); add("y"); add("y/v"); remove("y/v")` the root's children are
`[InactiveLeaf, Internal]` — an inactive leaf precedes an active-capable
node, breaking the contiguous active-front / inactive-suffix partition. -/
theorem c1_children_ordering_bug :
    ((addClient initS ["z", "w"]).bind (fun s1 =>
        (addClient s1 ["y"]).bind (fun s2 =>
          (addClient s2 ["y", "v"]).bind (fun s3 =>
            removeClient s3 ["y", "v"])))).map
      (fun s => (s.root.children.map Node.kind, orderedKids s.root.children))
    = some ([Kind.inactiveLeaf, Kind.internalK], false) := by decide

/-- Claim C3 is violated on a reachable state: after
`add("z/w"); add("y"); add("y/v"); activate("z/w"); remove("y/v")` the
broken children ordering (see `c1_children_ordering_bug`) makes both the
shuffle and the collection pass of `sort()` stop at the front inactive
leaf, so `sort()` returns an empty sequence although one active client
(`z/w`) exists. -/
theorem c3_sort_misses_active_client :
    ((addClient initS ["z", "w"]).bind (fun s1 =>
        (addClient s1 ["y"]).bind (fun s2 =>
          (addClient s2 ["y", "v"]).bind (fun s3 =>
            (activateS s3 ["z", "w"]).bind (fun s4 =>
              removeClient s4 ["y", "v"]))))).map
      (fun s => ((sortS (fun _ ws => List.range ws.length) s).2,
                 (s.clients.filter (fun e =>
                    match nodeAt s.root e.2 with
                    | some n => n.kind == Kind.activeLeaf
                    | none => false)).length))
    = some ([], 1) := by decide

theorem setA_append_of_none {κ α : Type} [DecidableEq κ]
    {l : List (κ × α)} {k : κ} (v : α) (h : lookupA l k = none) :
    setA l k v = l ++ [(k, v)] := by
  induction l with
  | nil => rfl
  | cons e rest ih =>
    unfold lookupA at h
    rw [List.find?_cons] at h
    cases hd : decide (e.1 = k)
    · rw [hd] at h
      have : lookupA rest k = none := by
        unfold lookupA
        cases hfound : List.find? (fun e => decide (e.1 = k)) rest with
        | none => rfl
        | some x => rw [hfound] at h; exact absurd h (by simp)
      rw [show setA (e :: rest) k v = e :: setA rest k v by
        simp [setA, of_decide_eq_false hd]]
      rw [ih this]
      rfl
    · rw [hd] at h
      exact absurd h (by simp)

theorem eraseA_append_of_none {κ α : Type} [DecidableEq κ]
    {l : List (κ × α)} {k : κ} (v : α) (h : lookupA l k = none) :
    eraseA (l ++ [(k, v)]) k = l := by
  induction l with
  | nil => simp [eraseA]
  | cons e rest ih =>
    unfold lookupA at h
    rw [List.find?_cons] at h
    cases hd : decide (e.1 = k)
    · rw [hd] at h
      have hrest : lookupA rest k = none := by
        unfold lookupA
        cases hfound : List.find? (fun e => decide (e.1 = k)) rest with
        | none => rfl
        | some x => rw [hfound] at h; exact absurd h (by simp)
      rw [List.cons_append]
      rw [show eraseA (e :: (rest ++ [(k, v)])) k
          = e :: eraseA (rest ++ [(k, v)]) k by
        simp [eraseA, of_decide_eq_false hd]]
      rw [ih hrest]
    · rw [hd] at h
      exact absurd h (by simp)

theorem setA_self_of_lookup {κ α : Type} [DecidableEq κ]
    {l : List (κ × α)} {k : κ} {v : α} (h : lookupA l k = some v) :
    setA l k v = l := by
  induction l with
  | nil => simp [lookupA] at h
  | cons e rest ih =>
    unfold lookupA at h
    rw [List.find?_cons] at h
    cases hd : decide (e.1 = k)
    · rw [hd] at h
      rw [show setA (e :: rest) k v = e :: setA rest k v by
        simp [setA, of_decide_eq_false hd]]
      rw [ih h]
    · rw [hd] at h
      have he : e.1 = k := of_decide_eq_true hd
      have hv : e.2 = v := by
        have := Option.some.inj h
        simp at this
        exact this
      rw [show setA (e :: rest) k v = (k, v) :: rest by simp [setA, he]]
      rw [← he, ← hv]

theorem lookupA_isSome_of_mem {κ α : Type} [DecidableEq κ]
    {l : List (κ × α)} {k : κ} {v : α} (h : (k, v) ∈ l) :
    (lookupA l k).isSome = true := by
  induction l with
  | nil => simp at h
  | cons e rest ih =>
    rcases List.mem_cons.1 h with he | hrest
    · subst he
      simp [lookupA, List.find?_cons]
    · unfold lookupA
      rw [List.find?_cons]
      cases hd : decide (e.1 = k)
      · exact ih hrest
      · simp

theorem lookupA_eq_of_mem_nodup {κ α : Type} [DecidableEq κ]
    {l : List (κ × α)} {k : κ} {v : α}
    (hn : (l.map Prod.fst).Nodup) (h : (k, v) ∈ l) :
    lookupA l k = some v := by
  induction l with
  | nil => simp at h
  | cons e rest ih =>
    rw [List.map_cons, List.nodup_cons] at hn
    rcases List.mem_cons.1 h with he | hrest
    · subst he
      simp [lookupA, List.find?_cons]
    · have hne : ¬e.1 = k := by
        intro hk
        exact hn.1 (hk ▸ (List.mem_map.2 ⟨(k, v), hrest, rfl⟩))
      unfold lookupA
      rw [List.find?_cons]
      rw [show decide (e.1 = k) = false by simp [hne]]
      exact ih hn.2 hrest

theorem findChild_mem {cs : List Node} {t : String} {c : Node}
    (h : findChild cs t = some c) : c ∈ cs := by
  unfold findChild at h
  exact List.mem_of_find?_eq_some h

theorem replaceChild_self {cs : List Node} {t : String} {c : Node}
    (h : findChild cs t = some c) : replaceChild cs t c = cs := by
  induction cs with
  | nil => rfl
  | cons d rest ih =>
    unfold findChild at h
    rw [List.find?_cons] at h
    cases hd : decide (d.name = t)
    · rw [hd] at h
      simp [replaceChild, of_decide_eq_false hd, ih h]
    · rw [hd] at h
      cases h
      simp [replaceChild, of_decide_eq_true hd]

theorem replaceChild_replaceChild (cs : List Node) (t : String) (c' c'' : Node)
    (hn : c'.name = t) :
    replaceChild (replaceChild cs t c') t c'' = replaceChild cs t c'' := by
  induction cs with
  | nil => rfl
  | cons d rest ih =>
    by_cases hd : d.name = t
    · simp [replaceChild, hd, hn]
    · simp [replaceChild, hd, ih]

theorem findChild_not_mem_name {cs : List Node} {t : String}
    (h : findChild cs t = none) : ∀ c ∈ cs, c.name ≠ t := by
  intro c hc
  unfold findChild at h
  have := List.find?_eq_none.1 h c hc
  simpa using this

theorem eraseChild_append_of_none {cs : List Node} {t : String} {x : Node}
    (h : findChild cs t = none) (hx : x.name = t) :
    eraseChild (cs ++ [x]) t = cs := by
  induction cs with
  | nil => simp [eraseChild, hx]
  | cons d rest ih =>
    unfold findChild at h
    rw [List.find?_cons] at h
    cases hd : decide (d.name = t)
    · rw [hd] at h
      rw [List.cons_append]
      rw [show eraseChild (d :: (rest ++ [x])) t = d :: eraseChild (rest ++ [x]) t by
        simp [eraseChild, of_decide_eq_false hd]]
      rw [ih h]
    · rw [hd] at h
      exact absurd h (by simp)

theorem eraseChild_addChild {cs : List Node} {t : String} {x : Node}
    (h : findChild cs t = none) (hx : x.name = t) :
    eraseChild (addChild cs x) t = cs := by
  unfold addChild
  split
  · exact eraseChild_append_of_none h hx
  · simp [eraseChild, hx]

theorem findChild_addChild_self {cs : List Node} {t : String} {x : Node}
    (h : findChild cs t = none) (hx : x.name = t) :
    findChild (addChild cs x) t = some x := by
  unfold addChild
  split
  · rw [findChild_append_none _ _ _ h]
    simp [findChild, hx]
  · simp [findChild, List.find?_cons, hx]

theorem perm_cons_eraseChild {cs : List Node} {t : String} {c : Node}
    (h : findChild cs t = some c) : cs.Perm (c :: eraseChild cs t) := by
  induction cs with
  | nil => simp [findChild] at h
  | cons d rest ih =>
    unfold findChild at h
    rw [List.find?_cons] at h
    cases hd : decide (d.name = t)
    · rw [hd] at h
      rw [show eraseChild (d :: rest) t = d :: eraseChild rest t by
        simp [eraseChild, of_decide_eq_false hd]]
      exact (List.Perm.cons d (ih h)).trans (List.Perm.swap _ _ _)
    · rw [hd] at h
      cases h
      rw [show eraseChild (c :: rest) t = rest by
        simp [eraseChild, of_decide_eq_true hd]]

theorem canonKids_eq_map (cs : List Node) : canonKids cs = cs.map canonN := by
  induction cs with
  | nil => rfl
  | cons c rest ih => simp [canonKids, ih]

theorem canonN_name (n : Node) : (canonN n).name = n.name := by
  cases n
  simp [canonN]

theorem sortKids_perm (l : List Node) : (sortKids l).Perm l :=
  List.perm_insertionSort _ l

theorem sortKids_sorted (l : List Node) :
    (sortKids l).Sorted (fun a b => a.name ≤ b.name) :=
  List.sorted_insertionSort _ l

theorem sorted_nodup_perm_eq : ∀ {l1 l2 : List Node}, l1.Perm l2 →
    l1.Sorted (fun a b => a.name ≤ b.name) →
    l2.Sorted (fun a b => a.name ≤ b.name) →
    (l1.map Node.name).Nodup → l1 = l2 := by
  intro l1
  induction l1 with
  | nil =>
    intro l2 hp _ _ _
    exact (List.Perm.nil_eq hp).symm ▸ rfl
  | cons a l1' ih =>
    intro l2 hp hs1 hs2 hnd
    cases l2 with
    | nil => exact absurd hp.symm (by simp)
    | cons b l2' =>
      have hab : a = b := by
        have hain : a ∈ b :: l2' := hp.mem_iff.1 (by simp)
        have hbin : b ∈ a :: l1' := hp.symm.mem_iff.1 (by simp)
        rcases List.mem_cons.1 hain with h | hal2
        · exact h
        rcases List.mem_cons.1 hbin with h | hbl1
        · exact h.symm
        have h1 : a.name ≤ b.name :=
          (List.sorted_cons.1 hs1).1 b hbl1
        have h2 : b.name ≤ a.name :=
          (List.sorted_cons.1 hs2).1 a hal2
        have hname : a.name = b.name := le_antisymm h1 h2
        rw [List.map_cons, List.nodup_cons] at hnd
        exact absurd (hname ▸ List.mem_map.2 ⟨b, hbl1, rfl⟩) hnd.1
      subst hab
      have hp' : l1'.Perm l2' := hp.cons_inv
      rw [List.map_cons, List.nodup_cons] at hnd
      rw [ih hp' (List.sorted_cons.1 hs1).2 (List.sorted_cons.1 hs2).2 hnd.2]

theorem sortKids_eq_of_perm {l1 l2 : List Node} (hp : l1.Perm l2)
    (hnd : (l1.map Node.name).Nodup) : sortKids l1 = sortKids l2 := by
  apply sorted_nodup_perm_eq
  · exact (sortKids_perm l1).trans (hp.trans (sortKids_perm l2).symm)
  · exact sortKids_sorted l1
  · exact sortKids_sorted l2
  · exact ((sortKids_perm l1).map Node.name).nodup_iff.2 hnd

theorem canonKids_replace {cs : List Node} {t : String} {c : Node}
    (c'' : Node) (h : findChild cs t = some c) (heq : canonN c'' = canonN c) :
    canonKids (replaceChild cs t c'') = canonKids cs := by
  induction cs with
  | nil => rfl
  | cons d rest ih =>
    unfold findChild at h
    rw [List.find?_cons] at h
    cases hd : decide (d.name = t)
    · rw [hd] at h
      rw [show replaceChild (d :: rest) t c'' = d :: replaceChild rest t c'' by
        simp [replaceChild, of_decide_eq_false hd]]
      simp only [canonKids]
      rw [ih h]
    · rw [hd] at h
      cases h
      rw [show replaceChild (c :: rest) t c'' = c'' :: rest by
        simp [replaceChild, of_decide_eq_true hd]]
      simp only [canonKids]
      rw [heq]

theorem canonN_perm_kids {nm : String} {k : Kind} {a : Alloc} {w : Option Rat}
    {cs cs' : List Node} (hp : cs'.Perm cs)
    (hnd : (cs.map Node.name).Nodup) :
    canonN (Node.mk nm k a w cs') = canonN (Node.mk nm k a w cs) := by
  simp only [canonN]
  rw [sortKids_eq_of_perm ((canonKids_eq_map cs').symm ▸
    (canonKids_eq_map cs).symm ▸ hp.map canonN)]
  rw [canonKids_eq_map]
  rw [List.map_map]
  have : (Node.name ∘ canonN) = Node.name := by
    funext x
    exact canonN_name x
  rw [this]
  exact ((hp.map Node.name).nodup_iff.2 hnd)

theorem Alloc.subAll_zero (a : Alloc) : a.subAll 0 = a := by
  simp [Alloc.subAll, scalarSum]

theorem Node.name_withChildren (n : Node) (cs : List Node) :
    (n.withChildren cs).name = n.name := by
  cases n
  rfl

theorem mkChain_name (t : String) (ts : List String) :
    (mkChain t ts).name = t := by
  cases ts <;> rfl

theorem addAux_name (pre : List String) (n : Node) (toks : List String) :
    (addAux pre n toks).1.name = n.name := by
  cases toks with
  | nil => exact Node.name_withChildren _ _
  | cons t ts =>
    cases hf : findChild n.children t with
    | none =>
      unfold addAux
      rw [hf]
      exact Node.name_withChildren _ _
    | some c =>
      unfold addAux
      rw [hf]
      dsimp only
      split <;> simp [Node.name_withChildren]

theorem replaceChild_ne_nil {cs : List Node} (t : String) (x : Node)
    (h : cs ≠ []) : replaceChild cs t x ≠ [] := by
  cases cs with
  | nil => exact absurd rfl h
  | cons c rest =>
    unfold replaceChild
    split <;> simp

theorem replaceChild_map_name {cs : List Node} {t : String} {x : Node}
    (hx : x.name = t) : (replaceChild cs t x).map Node.name = cs.map Node.name := by
  induction cs with
  | nil => rfl
  | cons c rest ih =>
    by_cases hc : c.name = t
    · simp [replaceChild, hc, hx]
    · simp [replaceChild, hc, ih]

theorem resolveN_kept (pre : List String) (n : Node)
    (h1 : n.children ≠ []) (h2 : n.children.map Node.name ≠ ["."]) :
    resolveN pre n = some (.kept n, none) := by
  unfold resolveN
  cases hcs : n.children with
  | nil => exact absurd hcs h1
  | cons c rest =>
    cases rest with
    | nil =>
      have hc : ¬c.name = "." := by
        intro hdot
        exact h2 (by simp [hcs, hdot])
      simp [hc]
    | cons d rest2 => rfl

theorem resolveN_deleted (pre : List String) (n : Node)
    (h : n.children = []) : resolveN pre n = some (.deleted, none) := by
  unfold resolveN
  rw [h]

theorem resolveN_nil (pre : List String) (nm : String) (k : Kind) (a : Alloc)
    (w : Option Rat) :
    resolveN pre (Node.mk nm k a w []) = some (.deleted, none) := rfl

theorem chain_nodeAt (ts : List String) : ∀ t : String,
    ∃ lf, nodeAt (mkChain t ts) ts = some lf ∧ lf.isLeaf = true ∧
      lf.alloc = Alloc.empty := by
  induction ts with
  | nil =>
    intro t
    exact ⟨_, rfl, rfl, rfl⟩
  | cons t' ts' ih =>
    intro t
    obtain ⟨lf, h1, h2, h3⟩ := ih t'
    refine ⟨lf, ?_, h2, h3⟩
    show nodeAt (Node.mk t Kind.internalK Alloc.empty none [mkChain t' ts'])
      (t' :: ts') = some lf
    simp only [nodeAt, Node.children_mk]
    rw [show findChild [mkChain t' ts'] t' = some (mkChain t' ts') by
      simp [findChild, mkChain_name]]
    exact h1

theorem chain_removes : ∀ (ts : List String) (t : String) (pre : List String),
    removeAux 0 pre (mkChain t ts) ts = some (.deleted, []) := by
  intro ts
  induction ts with
  | nil =>
    intro t pre
    rfl
  | cons t' ts' ih =>
    intro t pre
    show (do
      let c ← findChild (mkChain t (t' :: ts')).children t'
      let r ← removeAux 0 (pre ++ [t']) c ts'
      let n' := Node.mk (mkChain t (t' :: ts')).name (mkChain t (t' :: ts')).kind
        ((mkChain t (t' :: ts')).alloc.subAll 0) (mkChain t (t' :: ts')).weight
        (applyRes (mkChain t (t' :: ts')).children t' r.1)
      let r' ← resolveN pre n'
      some (r'.1, r.2 ++ r'.2.toList)) = some (.deleted, [])
    rw [show findChild (mkChain t (t' :: ts')).children t'
        = some (mkChain t' ts') by
      simp [mkChain, findChild, mkChain_name]]
    simp only [Option.bind_eq_bind, Option.some_bind]
    rw [ih t' (pre ++ [t'])]
    simp only [Option.some_bind]
    rw [show applyRes (mkChain t (t' :: ts')).children t' RemRes.deleted = [] by
      simp [mkChain, applyRes, eraseChild, mkChain_name]]
    rw [resolveN_nil]
    rfl

theorem treeOK_parts {nm : String} {k : Kind} {a : Alloc} {w : Option Rat}
    {cs : List Node} (h : treeOK (Node.mk nm k a w cs) = true) :
    (nm = "." → ¬k = Kind.internalK) ∧
    (k = Kind.internalK → cs ≠ [] ∧ cs.map Node.name ≠ ["."]) ∧
    (¬k = Kind.internalK → cs = []) ∧
    (cs.map Node.name).Nodup ∧ kidsOK cs = true := by
  unfold treeOK at h
  cases k with
  | internalK =>
    rw [Bool.and_eq_true, Bool.and_eq_true, Bool.and_eq_true] at h
    obtain ⟨⟨⟨h1, h2⟩, h3⟩, h4⟩ := h
    rw [Bool.and_eq_true] at h2
    refine ⟨fun hnm => (of_decide_eq_true h1) hnm, fun _ => ⟨?_, of_decide_eq_true h2.2⟩,
      fun hk => absurd rfl hk, of_decide_eq_true h3, h4⟩
    intro hnil
    rw [hnil] at h2
    simp at h2
  | activeLeaf =>
    rw [Bool.and_eq_true, Bool.and_eq_true, Bool.and_eq_true] at h
    obtain ⟨⟨⟨h1, h2⟩, h3⟩, h4⟩ := h
    exact ⟨fun _ => by simp, fun hk => absurd hk (by simp),
      fun _ => List.isEmpty_iff.1 h2, of_decide_eq_true h3, h4⟩
  | inactiveLeaf =>
    rw [Bool.and_eq_true, Bool.and_eq_true, Bool.and_eq_true] at h
    obtain ⟨⟨⟨h1, h2⟩, h3⟩, h4⟩ := h
    exact ⟨fun _ => by simp, fun hk => absurd hk (by simp),
      fun _ => List.isEmpty_iff.1 h2, of_decide_eq_true h3, h4⟩

theorem kidsOK_mem : ∀ {cs : List Node}, kidsOK cs = true →
    ∀ c ∈ cs, treeOK c = true := by
  intro cs
  induction cs with
  | nil => intro _ c hc; simp at hc
  | cons d rest ih =>
    intro h c hc
    rw [show kidsOK (d :: rest) = (treeOK d && kidsOK rest) from rfl,
      Bool.and_eq_true] at h
    rcases List.mem_cons.1 hc with he | hrest
    · exact he ▸ h.1
    · exact ih h.2 c hrest

theorem conv_collapses (t t' : String) (ts' : List String) (ck : Kind)
    (ca : Alloc) (cw : Option Rat) (hk : ¬ck = Kind.internalK)
    (ht' : t' ≠ ".") (pre : List String) :
    removeAux 0 pre
      (Node.mk t Kind.internalK ca cw
        (addChild (addChild [] (Node.mk "." ck ca none [])) (mkChain t' ts')))
      (t' :: ts')
    = some (.collapsed (Node.mk t ck ca cw []), [(pre, pre)]) := by
  have hkids : addChild [] (Node.mk "." ck ca none [])
      = [Node.mk "." ck ca none []] := by
    unfold addChild
    split <;> rfl
  rw [hkids]
  have hfc : findChild (addChild [Node.mk "." ck ca none []] (mkChain t' ts')) t'
      = some (mkChain t' ts') := by
    unfold addChild
    split
    · rw [findChild_append_none]
      · simp [findChild, mkChain_name]
      · simp [findChild, List.find?_cons, Ne.symm ht']
    · simp [findChild, List.find?_cons, mkChain_name]
  have herase : eraseChild (addChild [Node.mk "." ck ca none []]
      (mkChain t' ts')) t' = [Node.mk "." ck ca none []] := by
    unfold addChild
    split
    · rw [show ([Node.mk "." ck ca none []] ++ [mkChain t' ts'])
          = Node.mk "." ck ca none [] :: [mkChain t' ts'] from rfl]
      rw [show eraseChild (Node.mk "." ck ca none [] :: [mkChain t' ts']) t'
          = Node.mk "." ck ca none [] :: eraseChild [mkChain t' ts'] t' by
        simp [eraseChild, Ne.symm ht']]
      simp [eraseChild, mkChain_name]
    · simp [eraseChild, mkChain_name]
  show (do
    let c ← findChild (Node.mk t Kind.internalK ca cw
      (addChild [Node.mk "." ck ca none []] (mkChain t' ts'))).children t'
    let r ← removeAux 0 (pre ++ [t']) c ts'
    let n' := Node.mk _ _ _ _ _
    let r' ← resolveN pre n'
    some (r'.1, r.2 ++ r'.2.toList)) = _
  rw [show (Node.mk t Kind.internalK ca cw
      (addChild [Node.mk "." ck ca none []] (mkChain t' ts'))).children
      = addChild [Node.mk "." ck ca none []] (mkChain t' ts') from rfl]
  rw [hfc]
  simp only [Option.bind_eq_bind, Option.some_bind]
  rw [chain_removes ts' t' (pre ++ [t'])]
  simp only [Option.some_bind]
  rw [show applyRes (addChild [Node.mk "." ck ca none []] (mkChain t' ts')) t'
        RemRes.deleted = [Node.mk "." ck ca none []] by
    simp only [applyRes]
    exact herase]
  simp only [Node.name_mk, Node.kind_mk, Node.alloc_mk, Node.weight_mk,
    Alloc.subAll_zero]
  rw [show resolveN pre (Node.mk t Kind.internalK ca cw
        [Node.mk "." ck ca none []])
      = some (.collapsed (Node.mk t ck ca cw []), some (pre, pre)) by
    unfold resolveN
    simp [Node.isLeaf, hk]]
  rfl

theorem walkok_some {n : Node} {t : String} {ts : List String} {c : Node}
    (h : WalkOK n (t :: ts)) (hf : findChild n.children t = some c) :
    (c.isLeaf = true → ts ≠ []) ∧ (c.isLeaf = false → WalkOK c ts) := by
  unfold WalkOK at h
  rw [hf] at h
  exact h

theorem Node.kind_withChildren (n : Node) (cs : List Node) :
    (n.withChildren cs).kind = n.kind := by
  cases n
  rfl

theorem canonKids_map_name (l : List Node) :
    (canonKids l).map Node.name = l.map Node.name := by
  rw [canonKids_eq_map, List.map_map]
  congr 1
  funext x
  exact canonN_name x

theorem removeAux_cons (la : Multiset Rsrc) (pre : List String) (n : Node)
    (t : String) (rest : List String) :
    removeAux la pre n (t :: rest) = (do
      let c ← findChild n.children t
      let r ← removeAux la (pre ++ [t]) c rest
      let n' := Node.mk n.name n.kind (n.alloc.subAll la) n.weight
        (applyRes n.children t r.1)
      let r' ← resolveN pre n'
      some (r'.1, r.2 ++ r'.2.toList)) := rfl

theorem removeAux_nil (la : Multiset Rsrc) (pre : List String) (n : Node) :
    removeAux la pre n []
      = (resolveN pre n).map (fun r => (r.1, r.2.toList)) := rfl

theorem addChild_not_inactive {cs : List Node} {x : Node}
    (h : ¬x.kind = Kind.inactiveLeaf) : addChild cs x = x :: cs := by
  unfold addChild
  rw [if_neg h]

theorem addChild_inactive {cs : List Node} {x : Node}
    (h : x.kind = Kind.inactiveLeaf) : addChild cs x = cs ++ [x] := by
  unfold addChild
  rw [if_pos h]

theorem findChild_none_of_not_mem {cs : List Node} {t : String}
    (h : t ∉ cs.map Node.name) : findChild cs t = none := by
  unfold findChild
  rw [List.find?_eq_none]
  intro c hc
  simp only [decide_eq_true_eq]
  intro he
  exact h (List.mem_map.2 ⟨c, hc, he⟩)

theorem findChild_eraseChild_none {cs : List Node} (t : String)
    (hnd : (cs.map Node.name).Nodup) : findChild (eraseChild cs t) t = none := by
  induction cs with
  | nil => rfl
  | cons d rest ih =>
    rw [List.map_cons, List.nodup_cons] at hnd
    by_cases hd : d.name = t
    · rw [show eraseChild (d :: rest) t = rest by simp [eraseChild, hd]]
      exact findChild_none_of_not_mem (hd ▸ hnd.1)
    · rw [show eraseChild (d :: rest) t = d :: eraseChild rest t by
        simp [eraseChild, hd]]
      unfold findChild
      rw [List.find?_cons, decide_eq_false hd]
      exact ih hnd.2

theorem findChild_replaceChild_self {cs : List Node} {t : String} {c x : Node}
    (h : findChild cs t = some c) (hx : x.name = t) :
    findChild (replaceChild cs t x) t = some x := by
  induction cs with
  | nil => simp [findChild] at h
  | cons d rest ih =>
    unfold findChild at h
    rw [List.find?_cons] at h
    by_cases hd : d.name = t
    · rw [show replaceChild (d :: rest) t x = x :: rest by
        simp [replaceChild, hd]]
      simp [findChild, List.find?_cons, hx]
    · rw [decide_eq_false hd] at h
      rw [show replaceChild (d :: rest) t x = d :: replaceChild rest t x by
        simp [replaceChild, hd]]
      unfold findChild
      rw [List.find?_cons, decide_eq_false hd]
      exact ih h

theorem addChild_nil (x : Node) : addChild [] x = [x] := by
  unfold addChild
  split <;> rfl

theorem Node.alloc_withChildren (n : Node) (cs : List Node) :
    (n.withChildren cs).alloc = n.alloc := by
  cases n
  rfl

theorem Node.weight_withChildren (n : Node) (cs : List Node) :
    (n.withChildren cs).weight = n.weight := by
  cases n
  rfl

theorem addAux_kind (pre : List String) (n : Node) (toks : List String) :
    (addAux pre n toks).1.kind = n.kind := by
  cases toks with
  | nil => exact Node.kind_withChildren _ _
  | cons t ts =>
    cases hf : findChild n.children t with
    | none =>
      unfold addAux
      rw [hf]
      exact Node.kind_withChildren _ _
    | some c =>
      unfold addAux
      rw [hf]
      dsimp only
      split <;> simp [Node.kind_withChildren]

theorem addAux_alloc (pre : List String) (n : Node) (toks : List String) :
    (addAux pre n toks).1.alloc = n.alloc := by
  cases toks with
  | nil => exact Node.alloc_withChildren _ _
  | cons t ts =>
    cases hf : findChild n.children t with
    | none =>
      unfold addAux
      rw [hf]
      exact Node.alloc_withChildren _ _
    | some c =>
      unfold addAux
      rw [hf]
      dsimp only
      split <;> simp [Node.alloc_withChildren]

theorem addAux_weight (pre : List String) (n : Node) (toks : List String) :
    (addAux pre n toks).1.weight = n.weight := by
  cases toks with
  | nil => exact Node.weight_withChildren _ _
  | cons t ts =>
    cases hf : findChild n.children t with
    | none =>
      unfold addAux
      rw [hf]
      exact Node.weight_withChildren _ _
    | some c =>
      unfold addAux
      rw [hf]
      dsimp only
      split <;> simp [Node.weight_withChildren]

theorem replaceChild_map_name_mk (cs : List Node) (t : String) (k : Kind)
    (a : Alloc) (w : Option Rat) (cs2 : List Node) :
    (replaceChild cs t (Node.mk t k a w cs2)).map Node.name
      = cs.map Node.name :=
  replaceChild_map_name rfl

theorem findChild_replaceChild_mk {cs : List Node} {t : String} {c : Node}
    (k : Kind) (a : Alloc) (w : Option Rat) (cs2 : List Node)
    (h : findChild cs t = some c) :
    findChild (replaceChild cs t (Node.mk t k a w cs2)) t
      = some (Node.mk t k a w cs2) :=
  findChild_replaceChild_self h rfl

theorem replaceChild_replaceChild_mk (cs : List Node) (t : String)
    (k : Kind) (a : Alloc) (w : Option Rat) (cs2 : List Node) (c'' : Node) :
    replaceChild (replaceChild cs t (Node.mk t k a w cs2)) t c''
      = replaceChild cs t c'' :=
  replaceChild_replaceChild cs t _ c'' rfl

theorem applyRes_kept (cs : List Node) (t : String) (c' : Node) :
    applyRes cs t (RemRes.kept c') = replaceChild cs t c' := rfl

theorem applyRes_collapsed_leaf (cs : List Node) (t : String) {c' : Node}
    (h : ¬c'.kind = Kind.internalK) :
    applyRes cs t (RemRes.collapsed c') = replaceChild cs t c' := by
  simp only [applyRes]
  rw [if_neg h]

theorem findChild_addChild_mk {cs : List Node} {t : String} (k : Kind)
    (a : Alloc) (w : Option Rat) (cs2 : List Node)
    (h : findChild cs t = none) :
    findChild (addChild cs (Node.mk t k a w cs2)) t
      = some (Node.mk t k a w cs2) :=
  findChild_addChild_self h rfl

theorem nodeAt_cons (n : Node) (t : String) (ts : List String) :
    nodeAt n (t :: ts) = (match findChild n.children t with
      | some c => nodeAt c ts
      | none => none) := rfl

theorem addAux_cons (pre : List String) (n : Node) (t : String)
    (ts : List String) :
    addAux pre n (t :: ts) = (match findChild n.children t with
      | none =>
        (n.withChildren (addChild n.children (mkChain t ts)),
         pre ++ t :: ts, none)
      | some c =>
        if c.isLeaf = true ∧ ts ≠ [] then
          (n.withChildren (addChild (eraseChild n.children t)
            (match ts with
             | [] => Node.mk t Kind.internalK c.alloc c.weight
                 (addChild c.children (Node.mk "." c.kind c.alloc none []))
             | t' :: ts' => (Node.mk t Kind.internalK c.alloc c.weight
                 (addChild c.children
                   (Node.mk "." c.kind c.alloc none []))).withChildren
                 (addChild (Node.mk t Kind.internalK c.alloc c.weight
                   (addChild c.children
                     (Node.mk "." c.kind c.alloc none []))).children
                   (mkChain t' ts')))),
           pre ++ t :: ts, some (pre ++ [t], pre ++ [t, "."]))
        else
          (n.withChildren (replaceChild n.children t
            (addAux (pre ++ [t]) c ts).1),
           (addAux (pre ++ [t]) c ts).2.1,
           (addAux (pre ++ [t]) c ts).2.2)) := rfl

theorem perm_singleton_name {cs : List Node} {ds : List Node}
    (hp : (cs.map Node.name).Perm (ds.map Node.name))
    (h1 : ds ≠ []) (h2 : ds.map Node.name ≠ ["."]) :
    cs ≠ [] ∧ cs.map Node.name ≠ ["."] := by
  constructor
  · intro hnil
    rw [hnil] at hp
    have : ds.map Node.name = [] := hp.symm.eq_nil
    exact h1 (List.map_eq_nil.1 this)
  · intro hdot
    rw [hdot] at hp
    exact h2 (List.singleton_perm.1 hp).symm

/-- The heart of the round-trip property: after `add` has modified an
internal node along a non-empty token list, walking `remove` back down the
new client's address undoes the change up to the order of the one sibling
list that case (b) rewrites, deletes exactly the freshly created nodes,
and re-registers exactly the client that case (b) re-registered. -/
theorem addRemove_cancel :
    ∀ (toks : List String) (pre : List String) (n : Node) (t : String)
      (ts : List String),
      toks = t :: ts →
      (∀ x ∈ toks, x ≠ ".") →
      (n.children.map Node.name).Nodup →
      kidsOK n.children = true →
      WalkOK n toks →
      ∃ tail c1 cres rb,
        (addAux pre n toks).2.1 = pre ++ t :: tail ∧
        (∃ lf, nodeAt (addAux pre n toks).1 (t :: tail) = some lf ∧
          lf.isLeaf = true ∧ lf.alloc = Alloc.empty) ∧
        findChild (addAux pre n toks).1.children t = some c1 ∧
        removeAux 0 (pre ++ [t]) c1 tail = some (cres, rb) ∧
        sortKids (canonKids (applyRes (addAux pre n toks).1.children t cres))
          = sortKids (canonKids n.children) ∧
        ((applyRes (addAux pre n toks).1.children t cres).map Node.name).Perm
          (n.children.map Node.name) ∧
        rb = (match (addAux pre n toks).2.2 with
              | none => [] | some kv => [(kv.1, kv.1)]) ∧
        (∀ kv, (addAux pre n toks).2.2 = some kv →
          ∃ q m, kv.1 = pre ++ q ∧ kv.2 = kv.1 ++ ["."] ∧ q ≠ [] ∧
            (∀ x ∈ q, x ≠ ".") ∧
            nodeAt n q = some m ∧ m.isLeaf = true) := by
  intro toks
  induction toks with
  | nil => intro pre n t ts h; exact absurd h (by simp)
  | cons t0 ts0 ih =>
    intro pre n t ts heq hdots hnodup hkids hwalk
    obtain ⟨rfl, rfl⟩ : t = t0 ∧ ts = ts0 := by
      cases heq
      exact ⟨rfl, rfl⟩
    cases hf : findChild n.children t with
    | none =>
      have haux : addAux pre n (t :: ts)
          = (n.withChildren (addChild n.children (mkChain t ts)),
             pre ++ t :: ts, none) := by
        unfold addAux
        rw [hf]
      rw [haux]
      refine ⟨ts, mkChain t ts, .deleted, [], rfl, ?_, ?_, ?_, ?_, ?_, rfl, ?_⟩
      · simp only [nodeAt, Node.children_withChildren]
        rw [findChild_addChild_self hf (mkChain_name t ts)]
        exact chain_nodeAt ts t
      · rw [Node.children_withChildren]
        exact findChild_addChild_self hf (mkChain_name t ts)
      · exact chain_removes ts t (pre ++ [t])
      · rw [Node.children_withChildren]
        simp only [applyRes]
        rw [eraseChild_addChild hf (mkChain_name t ts)]
      · rw [Node.children_withChildren]
        simp only [applyRes]
        rw [eraseChild_addChild hf (mkChain_name t ts)]
      · intro kv hkv
        exact absurd hkv (by simp)
    | some c =>
      have hcn := findChild_name hf
      have htc := kidsOK_mem hkids _ (findChild_mem hf)
      have hw := walkok_some hwalk hf
      cases c with
      | mk cn ck ca cw ccs =>
      simp only [Node.name_mk] at hcn
      obtain rfl := hcn.symm
      obtain ⟨hTdot, hTint, hTleaf, hTnd, hTkids⟩ := treeOK_parts htc
      by_cases hck : ck = Kind.internalK
      · -- the matching child is internal: descend (or insert the virtual
        -- leaf right beneath it when the tokens are exhausted there)
        have hcf : (Node.mk t ck ca cw ccs).isLeaf = false := by
          simp [Node.isLeaf, hck]
        have haux : addAux pre n (t :: ts)
            = (n.withChildren (replaceChild n.children t
                (addAux (pre ++ [t]) (Node.mk t ck ca cw ccs) ts).1),
               (addAux (pre ++ [t]) (Node.mk t ck ca cw ccs) ts).2.1,
               (addAux (pre ++ [t]) (Node.mk t ck ca cw ccs) ts).2.2) := by
          rw [addAux_cons, hf]
          dsimp only
          rw [if_neg (by simp [hcf])]
        rw [haux]
        subst hck
        obtain ⟨hTne, hTnd2⟩ := hTint rfl
        cases ts with
        | nil =>
          obtain ⟨-, hdotn⟩ := hw.2 hcf
          simp only [Node.children_mk] at hdotn
          have hin : addAux (pre ++ [t]) (Node.mk t Kind.internalK ca cw ccs) []
              = (Node.mk t Kind.internalK ca cw
                  (ccs ++ [Node.mk "." Kind.inactiveLeaf Alloc.empty none []]),
                 (pre ++ [t]) ++ ["."], none) := by
            show ((Node.mk t Kind.internalK ca cw ccs).withChildren
                (addChild ccs (Node.mk "." Kind.inactiveLeaf Alloc.empty none [])),
               (pre ++ [t]) ++ ["."], none) = _
            rw [@addChild_inactive ccs
              (Node.mk "." Kind.inactiveLeaf Alloc.empty none []) rfl]
            rfl
          rw [hin]
          dsimp only
          have hfd : findChild
              (ccs ++ [Node.mk "." Kind.inactiveLeaf Alloc.empty none []]) "."
              = some (Node.mk "." Kind.inactiveLeaf Alloc.empty none []) := by
            rw [findChild_append_none _ _ _ hdotn]
            simp [findChild]
          refine ⟨["."],
            Node.mk t Kind.internalK ca cw
              (ccs ++ [Node.mk "." Kind.inactiveLeaf Alloc.empty none []]),
            .kept (Node.mk t Kind.internalK ca cw ccs), [],
            by simp, ?_, ?_, ?_, ?_, ?_, rfl, ?_⟩
          · refine ⟨Node.mk "." Kind.inactiveLeaf Alloc.empty none [],
              ?_, rfl, rfl⟩
            rw [nodeAt_cons, Node.children_withChildren,
              findChild_replaceChild_mk _ _ _ _ hf]
            dsimp only
            rw [nodeAt_cons, Node.children_mk, hfd]
            rfl
          · rw [Node.children_withChildren]
            exact findChild_replaceChild_mk _ _ _ _ hf
          · rw [removeAux_cons]
            rw [show (Node.mk t Kind.internalK ca cw
                (ccs ++ [Node.mk "." Kind.inactiveLeaf Alloc.empty none []])).children
                = ccs ++ [Node.mk "." Kind.inactiveLeaf Alloc.empty none []]
              from rfl]
            rw [hfd]
            simp only [Option.bind_eq_bind, Option.some_bind]
            rw [removeAux_nil, resolveN_nil]
            simp only [Option.map_some', Option.some_bind, Option.toList_none,
              List.append_nil, Node.name_mk, Node.kind_mk, Node.alloc_mk,
              Node.weight_mk, Node.children_mk, Alloc.subAll_zero]
            rw [show applyRes
                (ccs ++ [Node.mk "." Kind.inactiveLeaf Alloc.empty none []]) "."
                RemRes.deleted = ccs by
              simp only [applyRes]
              exact eraseChild_append_of_none hdotn rfl]
            rw [show resolveN (pre ++ [t]) (Node.mk t Kind.internalK ca cw ccs)
                = some (.kept (Node.mk t Kind.internalK ca cw ccs), none) from
              resolveN_kept _ _ hTne hTnd2]
            rfl
          · rw [Node.children_withChildren]
            simp only [applyRes]
            rw [replaceChild_replaceChild_mk, replaceChild_self hf]
          · rw [Node.children_withChildren]
            simp only [applyRes]
            rw [replaceChild_replaceChild_mk, replaceChild_self hf]
          · intro kv hkv
            exact absurd hkv (by simp)
        | cons t2 ts2 =>
          have hwc : WalkOK (Node.mk t Kind.internalK ca cw ccs) (t2 :: ts2) :=
            hw.2 hcf
          have hdots2 : ∀ x ∈ t2 :: ts2, x ≠ "." := by
            intro x hx
            exact hdots x (List.mem_cons_of_mem t hx)
          obtain ⟨tailc, c1c, cresc, rbc, hA1, ⟨lf, hlf1, hlf2, hlf3⟩,
            hA2, hA3, hA4, hA4b, hA5, hA6⟩ :=
            ih (pre ++ [t]) (Node.mk t Kind.internalK ca cw ccs) t2 ts2 rfl
              hdots2 hTnd hTkids hwc
          have hr1name : (addAux (pre ++ [t])
              (Node.mk t Kind.internalK ca cw ccs) (t2 :: ts2)).1.name = t :=
            addAux_name _ _ _
          have hr1kind : (addAux (pre ++ [t])
              (Node.mk t Kind.internalK ca cw ccs) (t2 :: ts2)).1.kind
              = Kind.internalK :=
            addAux_kind _ _ _
          have hr1alloc : (addAux (pre ++ [t])
              (Node.mk t Kind.internalK ca cw ccs) (t2 :: ts2)).1.alloc = ca :=
            addAux_alloc _ _ _
          have hr1weight : (addAux (pre ++ [t])
              (Node.mk t Kind.internalK ca cw ccs) (t2 :: ts2)).1.weight = cw :=
            addAux_weight _ _ _
          have hXcond := perm_singleton_name hA4b hTne hTnd2
          refine ⟨t2 :: tailc,
            (addAux (pre ++ [t])
              (Node.mk t Kind.internalK ca cw ccs) (t2 :: ts2)).1,
            .kept (Node.mk t Kind.internalK ca cw
              (applyRes (addAux (pre ++ [t])
                (Node.mk t Kind.internalK ca cw ccs) (t2 :: ts2)).1.children
                t2 cresc)),
            rbc, ?_, ?_, ?_, ?_, ?_, ?_, ?_, ?_⟩
          · rw [hA1]
            simp
          · refine ⟨lf, ?_, hlf2, hlf3⟩
            show nodeAt (n.withChildren (replaceChild n.children t
              (addAux (pre ++ [t])
                (Node.mk t Kind.internalK ca cw ccs) (t2 :: ts2)).1))
              (t :: t2 :: tailc) = some lf
            rw [nodeAt_cons, Node.children_withChildren,
              findChild_replaceChild_self hf hr1name]
            exact hlf1
          · rw [Node.children_withChildren]
            exact findChild_replaceChild_self hf hr1name
          · rw [removeAux_cons, hA2]
            simp only [Option.bind_eq_bind, Option.some_bind]
            rw [hA3]
            simp only [Option.some_bind]
            rw [hr1name, hr1kind, hr1alloc, hr1weight, Alloc.subAll_zero]
            rw [resolveN_kept (pre ++ [t])
              (Node.mk t Kind.internalK ca cw
                (applyRes (addAux (pre ++ [t])
                  (Node.mk t Kind.internalK ca cw ccs) (t2 :: ts2)).1.children
                  t2 cresc)) hXcond.1 hXcond.2]
            simp
          · rw [Node.children_withChildren, applyRes_kept]
            rw [replaceChild_replaceChild _ _ _ _ hr1name]
            have hcanon : canonN (Node.mk t Kind.internalK ca cw
                (applyRes (addAux (pre ++ [t])
                  (Node.mk t Kind.internalK ca cw ccs) (t2 :: ts2)).1.children
                  t2 cresc))
                = canonN (Node.mk t Kind.internalK ca cw ccs) := by
              simp only [canonN]
              rw [hA4]
              rfl
            rw [canonKids_replace _ hf hcanon]
          · rw [Node.children_withChildren, applyRes_kept]
            rw [replaceChild_replaceChild _ _ _ _ hr1name,
              replaceChild_map_name_mk]
          · exact hA5
          · intro kv hkv
            obtain ⟨q, m, hq1, hq2, hqne, hqdots, hq3, hq4⟩ := hA6 kv hkv
            refine ⟨t :: q, m, ?_, hq2, by simp, ?_, ?_, hq4⟩
            · rw [hq1]
              simp
            · intro x hx
              rcases List.mem_cons.1 hx with rfl | hx2
              · exact hdots x (by simp)
              · exact hqdots x hx2
            · rw [nodeAt_cons, hf]
              exact hq3
      · -- the matching child is an existing leaf: case (b), split it
        obtain rfl : ccs = [] := hTleaf hck
        have hleaf : (Node.mk t ck ca cw []).isLeaf = true := by
          simp [Node.isLeaf, hck]
        have hts : ts ≠ [] := hw.1 hleaf
        cases ts with
        | nil => exact absurd rfl hts
        | cons t' ts' =>
          have ht' : t' ≠ "." := hdots t' (by simp)
          have haux : addAux pre n (t :: t' :: ts')
              = (n.withChildren (addChild (eraseChild n.children t)
                  (Node.mk t Kind.internalK ca cw
                    (addChild (addChild [] (Node.mk "." ck ca none []))
                      (mkChain t' ts')))),
                 pre ++ t :: t' :: ts',
                 some (pre ++ [t], pre ++ [t, "."])) := by
            rw [addAux_cons, hf]
            dsimp only
            rw [if_pos ⟨hleaf, by simp⟩]
            rfl
          rw [haux]
          have hecn : findChild (eraseChild n.children t) t = none :=
            findChild_eraseChild_none t hnodup
          have hfc2 : findChild (addChild (eraseChild n.children t)
              (Node.mk t Kind.internalK ca cw
                (addChild (addChild [] (Node.mk "." ck ca none []))
                  (mkChain t' ts')))) t
              = some (Node.mk t Kind.internalK ca cw
                  (addChild (addChild [] (Node.mk "." ck ca none []))
                    (mkChain t' ts'))) :=
            findChild_addChild_mk _ _ _ _ hecn
          have hperm : ((Node.mk t ck ca cw [])
              :: eraseChild n.children t).Perm n.children :=
            (perm_cons_eraseChild hf).symm
          have happ : applyRes (addChild (eraseChild n.children t)
              (Node.mk t Kind.internalK ca cw
                (addChild (addChild [] (Node.mk "." ck ca none []))
                  (mkChain t' ts')))) t
              (RemRes.collapsed (Node.mk t ck ca cw []))
              = (Node.mk t ck ca cw []) :: eraseChild n.children t := by
            rw [applyRes_collapsed_leaf _ _
              (show ¬(Node.mk t ck ca cw []).kind = Kind.internalK from hck)]
            rw [addChild_not_inactive (by simp)]
            simp [replaceChild]
          obtain ⟨lf, hl1, hl2, hl3⟩ := chain_nodeAt ts' t'
          refine ⟨t' :: ts',
            Node.mk t Kind.internalK ca cw
              (addChild (addChild [] (Node.mk "." ck ca none []))
                (mkChain t' ts')),
            .collapsed (Node.mk t ck ca cw []),
            [(pre ++ [t], pre ++ [t])],
            rfl, ?_, ?_, ?_, ?_, ?_, rfl, ?_⟩
          · refine ⟨lf, ?_, hl2, hl3⟩
            rw [nodeAt_cons, Node.children_withChildren, hfc2]
            dsimp only
            rw [nodeAt_cons]
            rw [show findChild (Node.mk t Kind.internalK ca cw
                (addChild (addChild [] (Node.mk "." ck ca none []))
                  (mkChain t' ts'))).children t'
                = some (mkChain t' ts') by
              rw [Node.children_mk, addChild_nil]
              exact findChild_addChild_self
                (by simp [findChild, List.find?_cons, Ne.symm ht'])
                (mkChain_name t' ts')]
            exact hl1
          · rw [Node.children_withChildren]
            exact hfc2
          · exact conv_collapses t t' ts' ck ca cw hck ht' (pre ++ [t])
          · rw [Node.children_withChildren, happ]
            refine sortKids_eq_of_perm ?_ ?_
            · rw [canonKids_eq_map, canonKids_eq_map]
              exact hperm.map canonN
            · rw [canonKids_map_name]
              exact ((hperm.map Node.name).nodup_iff).2 hnodup
          · rw [Node.children_withChildren, happ]
            exact hperm.map Node.name
          · intro kv hkv
            obtain rfl : (pre ++ [t], pre ++ [t, "."]) = kv :=
              Option.some.inj hkv
            refine ⟨[t], Node.mk t ck ca cw [], rfl, by simp, by simp, ?_,
              ?_, hleaf⟩
            · intro x hx
              rw [List.mem_singleton] at hx
              subst hx
              exact hdots x (by simp)
            · rw [nodeAt_cons, hf]
              rfl

theorem lookupA_cons {κ α : Type} [DecidableEq κ] (e : κ × α)
    (l : List (κ × α)) (k : κ) :
    lookupA (e :: l) k = if e.1 = k then some e.2 else lookupA l k := by
  unfold lookupA
  by_cases he : e.1 = k
  · rw [List.find?_cons_of_pos _ (by simpa using he), if_pos he]
    rfl
  · rw [List.find?_cons_of_neg _ (by simpa using he), if_neg he]

theorem setA_setA {κ α : Type} [DecidableEq κ]
    (l : List (κ × α)) (k : κ) (v w : α) :
    setA (setA l k v) k w = setA l k w := by
  induction l with
  | nil => simp [setA]
  | cons e rest ih =>
    by_cases he : e.1 = k
    · simp [setA, he]
    · simp [setA, he, ih]

theorem leafAddrs_leaf {n : Node} (h : ¬n.kind = Kind.internalK) :
    leafAddrs n = [[]] := by
  cases n with
  | mk nm k a w cs =>
    simp only [Node.kind_mk] at h
    simp only [leafAddrs]
    rw [if_neg h]

theorem leafAddrs_internal {n : Node} (h : n.kind = Kind.internalK) :
    leafAddrs n = leafAddrsKids n.children := by
  cases n with
  | mk nm k a w cs =>
    simp only [Node.kind_mk] at h
    simp only [leafAddrs, Node.children_mk]
    rw [if_pos h]

theorem mem_leafAddrsKids {cs : List Node} {c : Node} {a : List String}
    (hc : c ∈ cs) (ha : a ∈ leafAddrs c) :
    (c.name :: a) ∈ leafAddrsKids cs := by
  induction cs with
  | nil => simp at hc
  | cons d rest ih =>
    rw [show leafAddrsKids (d :: rest)
        = (leafAddrs d).map (fun a => d.name :: a) ++ leafAddrsKids rest
      from rfl]
    rcases List.mem_cons.1 hc with rfl | hr
    · exact List.mem_append.2 (Or.inl (List.mem_map.2 ⟨a, ha, rfl⟩))
    · exact List.mem_append.2 (Or.inr (ih hr))

theorem leafAddrsKids_ne_nil {cs : List Node} {a : List String}
    (h : a ∈ leafAddrsKids cs) : a ≠ [] := by
  induction cs with
  | nil => simp [leafAddrsKids] at h
  | cons d rest ih =>
    rw [show leafAddrsKids (d :: rest)
        = (leafAddrs d).map (fun a => d.name :: a) ++ leafAddrsKids rest
      from rfl] at h
    rcases List.mem_append.1 h with h1 | h2
    · obtain ⟨b, -, rfl⟩ := List.mem_map.1 h1
      simp
    · exact ih h2

theorem stripDot_no_dot {a : List String} (h : ∀ x ∈ a, x ≠ ".") :
    stripDot a = a := by
  unfold stripDot
  cases hl : a.getLast? with
  | none => simp
  | some x =>
    rw [if_neg]
    intro hx
    exact h x (List.mem_of_mem_getLast? hl) (Option.some.inj hx)

theorem stripDot_cons_cons (t b : String) (l : List String) :
    stripDot (t :: b :: l) = t :: stripDot (b :: l) := by
  unfold stripDot
  rw [List.getLast?_cons_cons]
  by_cases hd : (b :: l).getLast? = some "."
  · rw [if_pos hd, if_pos hd, List.dropLast_cons₂]
  · rw [if_neg hd, if_neg hd]

theorem rootOK_parts {n : Node} (h : rootOK n = true) :
    n.kind = Kind.internalK ∧ (n.children.map Node.name).Nodup ∧
    "." ∉ n.children.map Node.name ∧ kidsOK n.children = true := by
  cases n with
  | mk nm k a w cs =>
    unfold rootOK at h
    rw [Bool.and_eq_true, Bool.and_eq_true, Bool.and_eq_true,
      Bool.and_eq_true] at h
    obtain ⟨⟨⟨⟨h1, h2⟩, h3⟩, h4⟩, h5⟩ := h
    exact ⟨of_decide_eq_true h2, of_decide_eq_true h3,
      of_decide_eq_true h4, h5⟩

theorem invOK_parts {s : SState} (h : invOK s = true) :
    rootOK s.root = true ∧ allocOK s.root = true ∧ clientsOK s = true := by
  unfold invOK at h
  rw [Bool.and_eq_true, Bool.and_eq_true] at h
  exact ⟨h.1.1, h.1.2, h.2⟩

theorem clientsOK_parts {s : SState} (h : clientsOK s = true) :
    (s.clients.map Prod.fst).Nodup ∧
    (∀ e ∈ s.clients, validPath e.1 ∧ e.1 = stripDot e.2 ∧
      ∃ m, nodeAt s.root e.2 = some m ∧ m.isLeaf = true) ∧
    (∀ a ∈ leafAddrs s.root, (stripDot a, a) ∈ s.clients) := by
  unfold clientsOK at h
  rw [Bool.and_eq_true, Bool.and_eq_true] at h
  obtain ⟨⟨h1, h2⟩, h3⟩ := h
  refine ⟨of_decide_eq_true h1, ?_, ?_⟩
  · intro e he
    have h4 := List.all_eq_true.1 h2 e he
    rw [Bool.and_eq_true, Bool.and_eq_true] at h4
    obtain ⟨⟨hv, hs⟩, hn⟩ := h4
    refine ⟨of_decide_eq_true hv, of_decide_eq_true hs, ?_⟩
    cases hm : nodeAt s.root e.2 with
    | none =>
      rw [hm] at hn
      exact absurd hn (by simp)
    | some m =>
      rw [hm] at hn
      exact ⟨m, rfl, hn⟩
  · intro a ha
    exact of_decide_eq_true (List.all_eq_true.1 h3 a ha)

theorem treeOK_kidsOK {c : Node} (h : treeOK c = true) :
    kidsOK c.children = true := by
  cases c with
  | mk nm k a w cs => exact (treeOK_parts h).2.2.2.2

theorem treeOK_dotleaf {c : Node} (h : treeOK c = true) (hn : c.name = ".") :
    ¬c.kind = Kind.internalK := by
  cases c with
  | mk nm k a w cs =>
    simp only [Node.name_mk] at hn
    exact (treeOK_parts h).1 hn

/-- Where the `add` walk can go wrong, a registered client must already
exist: either the walk facts `WalkOK` hold along `toks` below an internal
node `n`, or some leaf of `n` has `clientPath()` exactly `toks`. -/
theorem walkok_or_leaf : ∀ (toks : List String) (n : Node),
    n.kind = Kind.internalK → kidsOK n.children = true →
    (∀ x ∈ toks, x ≠ ".") →
    WalkOK n toks ∨ ∃ a, a ∈ leafAddrs n ∧ stripDot a = toks := by
  intro toks
  induction toks with
  | nil =>
    intro n hk hkids _
    cases hd : findChild n.children "." with
    | none => exact Or.inl ⟨hk, hd⟩
    | some d =>
      right
      have hdc := findChild_mem hd
      have hdn := findChild_name hd
      have hdleaf : ¬d.kind = Kind.internalK :=
        treeOK_dotleaf (kidsOK_mem hkids _ hdc) hdn
      refine ⟨["."], ?_, by decide⟩
      rw [leafAddrs_internal hk]
      have h0 : ([] : List String) ∈ leafAddrs d := by
        rw [leafAddrs_leaf hdleaf]
        simp
      have h2 := mem_leafAddrsKids hdc h0
      rwa [hdn] at h2
  | cons t ts ih =>
    intro n hk hkids hdots
    cases hf : findChild n.children t with
    | none =>
      left
      unfold WalkOK
      rw [hf]
      trivial
    | some c =>
      have hcc := findChild_mem hf
      have hcn := findChild_name hf
      have htc := kidsOK_mem hkids _ hcc
      by_cases hck : c.kind = Kind.internalK
      · rcases ih c hck (treeOK_kidsOK htc)
          (fun x hx => hdots x (List.mem_cons_of_mem t hx)) with
          hw | ⟨a, ha, hst⟩
        · left
          unfold WalkOK
          rw [hf]
          constructor
          · intro hl
            simp [Node.isLeaf, hck] at hl
          · intro _
            exact hw
        · right
          refine ⟨t :: a, ?_, ?_⟩
          · rw [leafAddrs_internal hk]
            have h2 := mem_leafAddrsKids hcc ha
            rwa [hcn] at h2
          · have hane : a ≠ [] := by
              rw [leafAddrs_internal hck] at ha
              exact leafAddrsKids_ne_nil ha
            cases a with
            | nil => exact absurd rfl hane
            | cons b l => rw [stripDot_cons_cons, hst]
      · by_cases hts : ts = []
        · right
          subst hts
          refine ⟨[t], ?_, ?_⟩
          · rw [leafAddrs_internal hk]
            have h0 : ([] : List String) ∈ leafAddrs c := by
              rw [leafAddrs_leaf hck]
              simp
            have h2 := mem_leafAddrsKids hcc h0
            rwa [hcn] at h2
          · refine stripDot_no_dot ?_
            intro x hx
            rw [List.mem_singleton] at hx
            subst hx
            exact hdots x (by simp)
        · left
          unfold WalkOK
          rw [hf]
          refine ⟨fun _ => hts, fun hl => absurd hl ?_⟩
          simp [Node.isLeaf, hck]

/-- A leaf reached by walking an address from an internal node is one of
its registered leaf addresses. -/
theorem nodeAt_leafAddrs : ∀ (a : List String) (n : Node),
    kidsOK n.children = true → n.kind = Kind.internalK →
    ∀ m, nodeAt n a = some m → m.isLeaf = true → a ∈ leafAddrs n := by
  intro a
  induction a with
  | nil =>
    intro n hkids hk m hm hleaf
    rw [show nodeAt n [] = some n from rfl] at hm
    cases Option.some.inj hm
    simp [Node.isLeaf, hk] at hleaf
  | cons t ts ih =>
    intro n hkids hk m hm hleaf
    rw [nodeAt_cons] at hm
    cases hf : findChild n.children t with
    | none =>
      rw [hf] at hm
      exact absurd hm (by simp)
    | some c =>
      rw [hf] at hm
      change nodeAt c ts = some m at hm
      have hcc := findChild_mem hf
      have hcn := findChild_name hf
      have htc := kidsOK_mem hkids _ hcc
      by_cases hck : c.kind = Kind.internalK
      · have h2 := mem_leafAddrsKids hcc
          (ih c (treeOK_kidsOK htc) hck m hm hleaf)
        rw [leafAddrs_internal hk]
        rwa [hcn] at h2
      · have hcs : c.children = [] := by
          cases c with
          | mk nm k al w cs => exact (treeOK_parts htc).2.2.1 hck
        cases ts with
        | nil =>
          rw [leafAddrs_internal hk]
          have h0 : ([] : List String) ∈ leafAddrs c := by
            rw [leafAddrs_leaf hck]
            simp
          have h2 := mem_leafAddrsKids hcc h0
          rwa [hcn] at h2
        | cons u us =>
          rw [nodeAt_cons, hcs] at hm
          exact absurd hm (by simp [findChild])

/-- On an invariant-satisfying state, the `add` walk for an unregistered
valid path satisfies the walk facts. -/
theorem walkok_of_clients (s : SState) (p : List String)
    (hinv : invOK s = true) (hvalid : validPath p)
    (habs : lookupA s.clients p = none) : WalkOK s.root p := by
  obtain ⟨hroot, -, hcl⟩ := invOK_parts hinv
  obtain ⟨hk, -, -, hkids⟩ := rootOK_parts hroot
  rcases walkok_or_leaf p s.root hk hkids (fun x hx => (hvalid.2 x hx).1) with
    hw | ⟨a, ha, hst⟩
  · exact hw
  · obtain ⟨-, -, hcomp⟩ := clientsOK_parts hcl
    have hmem := hcomp a ha
    rw [hst] at hmem
    have := lookupA_isSome_of_mem hmem
    rw [habs] at this
    exact absurd this (by simp)

/-- `add(p)` immediately followed by `remove(p)`, on any state satisfying
the maintained invariant with `p` valid and unregistered: both calls
succeed, the tree is restored up to the order of the one sibling list that
case (b) rewrites, and the indexes and totals are restored exactly. -/
theorem addRemove_roundtrip_inv (s : SState) (p : List String)
    (hinv : invOK s = true) (hvalid : validPath p)
    (habs : lookupA s.clients p = none) :
    ∃ s1 s2, addClient s p = some s1 ∧ removeClient s1 p = some s2 ∧
      canonN s2.root = canonN s.root ∧ s2.clients = s.clients ∧
      s2.weights = s.weights ∧ s2.totalRes = s.totalRes ∧
      s2.totalTotals = s.totalTotals := by
  have hw := walkok_of_clients s p hinv hvalid habs
  obtain ⟨hroot, -, hcl⟩ := invOK_parts hinv
  obtain ⟨hk, hnodup, hnodot, hkids⟩ := rootOK_parts hroot
  obtain ⟨hkeys, -, hcomp⟩ := clientsOK_parts hcl
  obtain ⟨root0, cls, wts, tr, tt⟩ := s
  obtain ⟨rn, rk, ra, rw2, rcs⟩ := root0
  simp only [Node.kind_mk, Node.children_mk] at hk hnodup hnodot hkids
  subst hk
  cases p with
  | nil => exact absurd rfl hvalid.1
  | cons t ts =>
    obtain ⟨tail, c1, cres, rb, hA1, ⟨lf, hlf1, hlf2, hlf3⟩,
      hA2, hA3, hA4, hA4b, hA5, hA6⟩ :=
      addRemove_cancel (t :: ts) [] (Node.mk rn Kind.internalK ra rw2 rcs)
        t ts rfl (fun x hx => (hvalid.2 x hx).1) hnodup hkids hw
    simp only [List.nil_append] at hA1 hA3
    cases hrb : (addAux [] (Node.mk rn Kind.internalK ra rw2 rcs)
        (t :: ts)).2.2 with
    | none =>
      have hadd : addClient (SState.mk (Node.mk rn Kind.internalK ra rw2 rcs)
          cls wts tr tt) (t :: ts)
          = some (SState.mk
              (addAux [] (Node.mk rn Kind.internalK ra rw2 rcs) (t :: ts)).1
              (setA cls (t :: ts) (t :: tail)) wts tr tt) := by
        unfold addClient
        rw [show lookupA (SState.mk (Node.mk rn Kind.internalK ra rw2 rcs)
            cls wts tr tt).clients (t :: ts) = none from habs]
        dsimp only
        rw [hrb, hA1]
      rw [hrb] at hA5
      simp only at hA5
      subst hA5
      have hAname : (addAux [] (Node.mk rn Kind.internalK ra rw2 rcs)
          (t :: ts)).1.name = rn := addAux_name _ _ _
      have hAkind : (addAux [] (Node.mk rn Kind.internalK ra rw2 rcs)
          (t :: ts)).1.kind = Kind.internalK := addAux_kind _ _ _
      have hAalloc : (addAux [] (Node.mk rn Kind.internalK ra rw2 rcs)
          (t :: ts)).1.alloc = ra := addAux_alloc _ _ _
      have hAweight : (addAux [] (Node.mk rn Kind.internalK ra rw2 rcs)
          (t :: ts)).1.weight = rw2 := addAux_weight _ _ _
      have hrem : removeClient (SState.mk
          (addAux [] (Node.mk rn Kind.internalK ra rw2 rcs) (t :: ts)).1
          (setA cls (t :: ts) (t :: tail)) wts tr tt) (t :: ts)
          = some (SState.mk
              (Node.mk rn Kind.internalK ra rw2
                (applyRes (addAux [] (Node.mk rn Kind.internalK ra rw2 rcs)
                  (t :: ts)).1.children t cres))
              cls wts tr tt) := by
        unfold removeClient
        rw [lookupA_setA_self]
        simp only [Option.bind_eq_bind, Option.some_bind]
        rw [hlf1]
        simp only [Option.some_bind]
        rw [if_pos hlf2, hlf3]
        rw [hA2]
        simp only [Option.bind_eq_bind, Option.some_bind]
        rw [show (Alloc.empty.resources : Multiset Rsrc) = 0 from rfl] at *
        rw [hA3]
        simp only [Option.some_bind]
        rw [hAname, hAkind, hAalloc, hAweight, Alloc.subAll_zero]
        rw [setA_append_of_none _ habs, eraseA_append_of_none _ habs]
        rfl
      refine ⟨_, _, hadd, hrem, ?_, rfl, rfl, rfl, rfl⟩
      simp only [canonN]
      rw [hA4]
      rfl
    | some kv =>
      rw [hrb] at hA5
      simp only at hA5
      subst hA5
      obtain ⟨q, m, hq1, hq2, hqne, hqdots, hq3, hq4⟩ := hA6 kv hrb
      simp only [List.nil_append] at hq1
      have hqleaf : q ∈ leafAddrs (Node.mk rn Kind.internalK ra rw2 rcs) :=
        nodeAt_leafAddrs q _ hkids rfl m hq3 hq4
      have hmemq := hcomp q hqleaf
      rw [stripDot_no_dot hqdots] at hmemq
      have hlook : lookupA cls q = some q :=
        lookupA_eq_of_mem_nodup hkeys hmemq
      have hpq : (t :: ts) ≠ q := by
        intro he
        rw [he] at habs
        rw [show lookupA (SState.mk (Node.mk rn Kind.internalK ra rw2 rcs)
            cls wts tr tt).clients q = lookupA cls q from rfl] at habs
        rw [habs] at hlook
        exact absurd hlook (by simp)
      have hcl1 : lookupA (setA cls kv.1 kv.2) (t :: ts) = none := by
        rw [lookupA_setA_ne _ _ _ _ (by rw [hq1]; exact hpq)]
        exact habs
      have hadd : addClient (SState.mk (Node.mk rn Kind.internalK ra rw2 rcs)
          cls wts tr tt) (t :: ts)
          = some (SState.mk
              (addAux [] (Node.mk rn Kind.internalK ra rw2 rcs) (t :: ts)).1
              (setA (setA cls kv.1 kv.2) (t :: ts) (t :: tail))
              wts tr tt) := by
        unfold addClient
        rw [show lookupA (SState.mk (Node.mk rn Kind.internalK ra rw2 rcs)
            cls wts tr tt).clients (t :: ts) = none from habs]
        dsimp only
        rw [hrb, hA1]
      have hAname : (addAux [] (Node.mk rn Kind.internalK ra rw2 rcs)
          (t :: ts)).1.name = rn := addAux_name _ _ _
      have hAkind : (addAux [] (Node.mk rn Kind.internalK ra rw2 rcs)
          (t :: ts)).1.kind = Kind.internalK := addAux_kind _ _ _
      have hAalloc : (addAux [] (Node.mk rn Kind.internalK ra rw2 rcs)
          (t :: ts)).1.alloc = ra := addAux_alloc _ _ _
      have hAweight : (addAux [] (Node.mk rn Kind.internalK ra rw2 rcs)
          (t :: ts)).1.weight = rw2 := addAux_weight _ _ _
      have hrem : removeClient (SState.mk
          (addAux [] (Node.mk rn Kind.internalK ra rw2 rcs) (t :: ts)).1
          (setA (setA cls kv.1 kv.2) (t :: ts) (t :: tail)) wts tr tt)
          (t :: ts)
          = some (SState.mk
              (Node.mk rn Kind.internalK ra rw2
                (applyRes (addAux [] (Node.mk rn Kind.internalK ra rw2 rcs)
                  (t :: ts)).1.children t cres))
              cls wts tr tt) := by
        unfold removeClient
        rw [lookupA_setA_self]
        simp only [Option.bind_eq_bind, Option.some_bind]
        rw [hlf1]
        simp only [Option.some_bind]
        rw [if_pos hlf2, hlf3]
        rw [hA2]
        simp only [Option.bind_eq_bind, Option.some_bind]
        rw [show (Alloc.empty.resources : Multiset Rsrc) = 0 from rfl] at *
        rw [hA3]
        simp only [Option.some_bind]
        rw [hAname, hAkind, hAalloc, hAweight, Alloc.subAll_zero]
        rw [setA_append_of_none _ hcl1, eraseA_append_of_none _ hcl1]
        rw [show List.foldl (fun m e => setA m e.1 e.2)
            (setA cls kv.1 kv.2) [(kv.1, kv.1)]
            = setA (setA cls kv.1 kv.2) kv.1 kv.1 from rfl]
        rw [setA_setA]
        rw [setA_self_of_lookup (by rw [hq1]; exact hlook)]
      refine ⟨_, _, hadd, hrem, ?_, rfl, rfl, rfl, rfl⟩
      simp only [canonN]
      rw [hA4]
      rfl

theorem Sim.name_eq {ra : Alloc → Alloc → Prop} {n n' : Node}
    (h : Sim ra n n') : n'.name = n.name := by
  cases h
  rfl

theorem Sim.kind_iff {ra : Alloc → Alloc → Prop} {n n' : Node}
    (h : Sim ra n n') :
    (n.kind = Kind.internalK ↔ n'.kind = Kind.internalK) := by
  cases h with
  | mk cs' hk hra hkids hperm => exact hk

theorem Sim.isLeaf_eq {ra : Alloc → Alloc → Prop} {n n' : Node}
    (h : Sim ra n n') : n'.isLeaf = n.isLeaf := by
  cases h with
  | mk cs' hk hra hkids hperm =>
    simp only [Node.isLeaf, Node.kind_mk]
    rw [decide_eq_decide]
    exact not_congr hk.symm

theorem Sim.alloc_rel {ra : Alloc → Alloc → Prop} {n n' : Node}
    (h : Sim ra n n') : ra n.alloc n'.alloc := by
  cases h with
  | mk cs' hk hra hkids hperm => exact hra

theorem SimKids.names {ra : Alloc → Alloc → Prop} : ∀ {cs cs' : List Node},
    SimKids ra cs cs' → cs'.map Node.name = cs.map Node.name := by
  intro cs
  induction cs with
  | nil =>
    intro cs' h
    cases h
    rfl
  | cons c rest ih =>
    intro cs' h
    cases h with
    | cons hs hk => simp [ih hk, hs.name_eq]

theorem Sim.children_names {ra : Alloc → Alloc → Prop} {n n' : Node}
    (h : Sim ra n n') :
    (n'.children.map Node.name).Perm (n.children.map Node.name) := by
  cases h with
  | mk cs' hk hra hkids hperm =>
    have hp := (hperm.map Node.name).symm
    rw [hkids.names] at hp
    exact hp

mutual
theorem sim_refl {ra : Alloc → Alloc → Prop} (hra : ∀ a, ra a a) :
    ∀ n : Node, Sim ra n n
  | .mk nm k a w cs =>
    .mk cs Iff.rfl (hra a) (simKids_refl hra cs) (List.Perm.refl cs)

theorem simKids_refl {ra : Alloc → Alloc → Prop} (hra : ∀ a, ra a a) :
    ∀ cs : List Node, SimKids ra cs cs
  | [] => .nil
  | c :: cs => .cons (sim_refl hra c) (simKids_refl hra cs)
end

theorem SimKids.mem_left {ra : Alloc → Alloc → Prop} : ∀ {cs cs' : List Node},
    SimKids ra cs cs' → ∀ {c : Node}, c ∈ cs → ∃ c' ∈ cs', Sim ra c c' := by
  intro cs
  induction cs with
  | nil =>
    intro cs' h c hc
    simp at hc
  | cons d rest ih =>
    intro cs' h c hc
    cases h with
    | cons hs hk =>
      rcases List.mem_cons.1 hc with rfl | h2
      · exact ⟨_, by simp, hs⟩
      · obtain ⟨c', hc', hsc⟩ := ih hk h2
        exact ⟨c', by simp [hc'], hsc⟩

theorem SimKids.mem_right {ra : Alloc → Alloc → Prop} : ∀ {cs cs' : List Node},
    SimKids ra cs cs' → ∀ {c' : Node}, c' ∈ cs' → ∃ c ∈ cs, Sim ra c c' := by
  intro cs
  induction cs with
  | nil =>
    intro cs' h c' hc
    cases h
    simp at hc
  | cons d rest ih =>
    intro cs' h c' hc
    cases h with
    | cons hs hk =>
      rcases List.mem_cons.1 hc with rfl | h2
      · exact ⟨_, by simp, hs⟩
      · obtain ⟨c, hcm, hsc⟩ := ih hk h2
        exact ⟨c, by simp [hcm], hsc⟩

theorem kidsOK_build : ∀ {cs : List Node},
    (∀ c ∈ cs, treeOK c = true) → kidsOK cs = true := by
  intro cs
  induction cs with
  | nil => intro _; rfl
  | cons c rest ih =>
    intro h
    rw [show kidsOK (c :: rest) = (treeOK c && kidsOK rest) from rfl,
      Bool.and_eq_true]
    exact ⟨h c (by simp), ih (fun x hx => h x (by simp [hx]))⟩

theorem treeOK_build {nm : String} {k : Kind} {a : Alloc} {w : Option Rat}
    {cs : List Node}
    (h1 : nm = "." → ¬k = Kind.internalK)
    (h2 : k = Kind.internalK → cs ≠ [] ∧ cs.map Node.name ≠ ["."])
    (h3 : ¬k = Kind.internalK → cs = [])
    (h4 : (cs.map Node.name).Nodup) (h5 : kidsOK cs = true) :
    treeOK (Node.mk nm k a w cs) = true := by
  unfold treeOK
  rw [Bool.and_eq_true, Bool.and_eq_true, Bool.and_eq_true]
  refine ⟨⟨⟨decide_eq_true h1, ?_⟩, decide_eq_true h4⟩, h5⟩
  cases k with
  | internalK =>
    obtain ⟨ha, hb⟩ := h2 rfl
    rw [Bool.and_eq_true]
    constructor
    · simp [ha]
    · exact decide_eq_true hb
  | activeLeaf => simp [h3 (by simp)]
  | inactiveLeaf => simp [h3 (by simp)]

mutual
theorem sim_treeOK {ra : Alloc → Alloc → Prop} :
    ∀ (n : Node) (n' : Node), Sim ra n n' → treeOK n = true →
      treeOK n' = true
  | .mk nm k a w cs, n', hsim, h => by
    cases hsim with
    | mk cs' hk hra hkids hperm =>
      obtain ⟨h1, h2, h3, h4, h5⟩ := treeOK_parts h
      have hnames : _ = _ := hkids.names
      have hok : ∀ c' ∈ cs', treeOK c' = true :=
        simKids_treeOK cs cs' hkids (kidsOK_mem h5)
      refine treeOK_build (fun hd => (h1 hd).imp (fun hkk => hk.2 hkk)) ?_ ?_ ?_
        (kidsOK_build (fun c' hc' => hok c' (hperm.symm.subset hc')))
      · intro hk'
        have hnp := (hperm.map Node.name).symm
        rw [hnames] at hnp
        exact perm_singleton_name hnp (h2 (hk.2 hk')).1 (h2 (hk.2 hk')).2
      · intro hk'
        have hcs : cs = [] := h3 (fun hkk => hk' (hk.1 hkk))
        subst hcs
        cases hkids
        exact hperm.symm.eq_nil
      · have hnp := (hperm.map Node.name).symm
        rw [hnames] at hnp
        exact hnp.nodup_iff.2 h4

theorem simKids_treeOK {ra : Alloc → Alloc → Prop} :
    ∀ (cs : List Node) (cs' : List Node), SimKids ra cs cs' →
      (∀ c ∈ cs, treeOK c = true) → ∀ c' ∈ cs', treeOK c' = true
  | [], _, .nil, _ => by
    intro c' hc'
    simp at hc'
  | c :: cs2, _, .cons hs hk2, hall => by
    intro c' hc'
    rcases List.mem_cons.1 hc' with rfl | h2
    · exact sim_treeOK c _ hs (hall c (by simp))
    · exact simKids_treeOK cs2 _ hk2 (fun x hx => hall x (by simp [hx])) c' h2
end

theorem allocOK_parts {nm : String} {k : Kind} {a : Alloc} {w : Option Rat}
    {cs : List Node} (h : allocOK (Node.mk nm k a w cs) = true) :
    a.totals = scalarSum a.resources ∧
    (k = Kind.internalK → a.resources = sumKidsRes cs) ∧
    kidsAllocOK cs = true := by
  unfold allocOK at h
  rw [Bool.and_eq_true, Bool.and_eq_true] at h
  obtain ⟨⟨h1, h2⟩, h3⟩ := h
  refine ⟨of_decide_eq_true h1, ?_, h3⟩
  intro hk
  rw [if_pos hk] at h2
  exact of_decide_eq_true h2

theorem allocOK_build {nm : String} {k : Kind} {a : Alloc} {w : Option Rat}
    {cs : List Node}
    (h1 : a.totals = scalarSum a.resources)
    (h2 : k = Kind.internalK → a.resources = sumKidsRes cs)
    (h3 : kidsAllocOK cs = true) :
    allocOK (Node.mk nm k a w cs) = true := by
  unfold allocOK
  rw [Bool.and_eq_true, Bool.and_eq_true]
  refine ⟨⟨decide_eq_true h1, ?_⟩, h3⟩
  by_cases hk : k = Kind.internalK
  · rw [if_pos hk]
    exact decide_eq_true (h2 hk)
  · rw [if_neg hk]

theorem kidsAllocOK_mem : ∀ {cs : List Node}, kidsAllocOK cs = true →
    ∀ c ∈ cs, allocOK c = true := by
  intro cs
  induction cs with
  | nil =>
    intro _ c hc
    simp at hc
  | cons d rest ih =>
    intro h c hc
    rw [show kidsAllocOK (d :: rest) = (allocOK d && kidsAllocOK rest) from rfl,
      Bool.and_eq_true] at h
    rcases List.mem_cons.1 hc with rfl | h2
    · exact h.1
    · exact ih h.2 c h2

theorem kidsAllocOK_build : ∀ {cs : List Node},
    (∀ c ∈ cs, allocOK c = true) → kidsAllocOK cs = true := by
  intro cs
  induction cs with
  | nil => intro _; rfl
  | cons c rest ih =>
    intro h
    rw [show kidsAllocOK (c :: rest) = (allocOK c && kidsAllocOK rest) from rfl,
      Bool.and_eq_true]
    exact ⟨h c (by simp), ih (fun x hx => h x (by simp [hx]))⟩

theorem simKids_allocres {cs cs' : List Node} : SimKids Eq cs cs' →
    cs'.map (fun c => c.alloc.resources) = cs.map (fun c => c.alloc.resources) := by
  intro h
  induction cs generalizing cs' with
  | nil =>
    cases h
    rfl
  | cons c rest ih =>
    cases h with
    | cons hs hk =>
      have ha : _ = _ := hs.alloc_rel
      simp [ih hk, ha.symm]

mutual
theorem sim_allocOK : ∀ (n n' : Node), Sim Eq n n' → allocOK n = true →
    allocOK n' = true
  | .mk nm k a w cs, n', hsim, h => by
    cases hsim with
    | mk cs' hk hra hkids hperm =>
      obtain rfl := hra
      obtain ⟨h1, h2, h3⟩ := allocOK_parts h
      refine allocOK_build h1 ?_ (kidsAllocOK_build (fun c' hc' =>
        simKids_allocOK cs cs' hkids (kidsAllocOK_mem h3) c'
          (hperm.symm.subset hc')))
      intro hk'
      rw [h2 (hk.2 hk')]
      unfold sumKidsRes
      rw [List.Perm.sum_eq ((hperm.map (fun c => c.alloc.resources)).symm)]
      rw [simKids_allocres hkids]

theorem simKids_allocOK : ∀ (cs cs' : List Node), SimKids Eq cs cs' →
    (∀ c ∈ cs, allocOK c = true) → ∀ c' ∈ cs', allocOK c' = true
  | [], _, .nil, _ => by
    intro c' hc'
    simp at hc'
  | c :: cs2, _, .cons hs hk2, hall => by
    intro c' hc'
    rcases List.mem_cons.1 hc' with rfl | h2
    · exact sim_allocOK c _ hs (hall c (by simp))
    · exact simKids_allocOK cs2 _ hk2 (fun x hx => hall x (by simp [hx])) c' h2
end

theorem sim_rootOK {ra : Alloc → Alloc → Prop} {n n' : Node}
    (hsim : Sim ra n n') (h : rootOK n = true) : rootOK n' = true := by
  cases n with
  | mk nm k a w cs =>
    cases hsim with
    | mk cs' hk hra hkids hperm =>
      unfold rootOK at h ⊢
      rw [Bool.and_eq_true, Bool.and_eq_true, Bool.and_eq_true,
        Bool.and_eq_true] at h
      obtain ⟨⟨⟨⟨h1, h2⟩, h3⟩, h4⟩, h5⟩ := h
      rw [Bool.and_eq_true, Bool.and_eq_true, Bool.and_eq_true,
        Bool.and_eq_true]
      have hnp := (hperm.map Node.name).symm
      rw [hkids.names] at hnp
      refine ⟨⟨⟨⟨h1, ?_⟩, ?_⟩, ?_⟩, ?_⟩
      · rw [decide_eq_true_eq] at h2 ⊢
        exact hk.1 h2
      · exact decide_eq_true (hnp.nodup_iff.2 (of_decide_eq_true h3))
      · rw [decide_eq_true_eq] at h4 ⊢
        intro hmem
        exact h4 (hnp.subset hmem)
      · exact kidsOK_build (fun c' hc' =>
          simKids_treeOK cs cs' hkids (kidsOK_mem h5) c'
            (hperm.symm.subset hc'))

theorem findChild_of_nodup_mem : ∀ {cs : List Node} {t : String} {c : Node},
    (cs.map Node.name).Nodup → c ∈ cs → c.name = t →
    findChild cs t = some c := by
  intro cs
  induction cs with
  | nil =>
    intro t c _ hc _
    simp at hc
  | cons d rest ih =>
    intro t c hnd hc hname
    rw [List.map_cons, List.nodup_cons] at hnd
    rcases List.mem_cons.1 hc with rfl | h2
    · unfold findChild
      rw [List.find?_cons_of_pos _ (by simpa using hname)]
    · have hd : d.name ≠ t := by
        intro he
        exact hnd.1 (he ▸ hname ▸ List.mem_map.2 ⟨c, h2, rfl⟩)
      unfold findChild
      rw [List.find?_cons_of_neg _ (by simpa using hd)]
      exact ih hnd.2 h2 hname

theorem sim_nodeAt {ra : Alloc → Alloc → Prop} :
    ∀ (a : List String) (n n' : Node), Sim ra n n' →
    (n.children.map Node.name).Nodup → kidsOK n.children = true →
    ∀ m, nodeAt n a = some m → ∃ m', nodeAt n' a = some m' ∧ Sim ra m m' := by
  intro a
  induction a with
  | nil =>
    intro n n' hsim _ _ m hm
    rw [show nodeAt n [] = some n from rfl] at hm
    cases Option.some.inj hm
    exact ⟨n', rfl, hsim⟩
  | cons t ts ih =>
    intro n n' hsim hnd hkids m hm
    rw [nodeAt_cons] at hm
    cases hf : findChild n.children t with
    | none =>
      rw [hf] at hm
      exact absurd hm (by simp)
    | some c =>
      rw [hf] at hm
      change nodeAt c ts = some m at hm
      have htc := kidsOK_mem hkids _ (findChild_mem hf)
      have hcknd : (c.children.map Node.name).Nodup := by
        cases c with
        | mk nm2 k2 a2 w2 cs2 => exact (treeOK_parts htc).2.2.2.1
      have hckids : kidsOK c.children = true := treeOK_kidsOK htc
      cases n with
      | mk nm k a0 w cs =>
        cases hsim with
        | mk cs' hk hra hkids2 hperm =>
          simp only [Node.children_mk] at hf hnd
          obtain ⟨c', hc'm, hsc⟩ := hkids2.mem_left (findChild_mem hf)
          have hnp : _ := (hperm.map Node.name).symm
          rw [hkids2.names] at hnp
          have hf' : findChild _ t = some c' :=
            findChild_of_nodup_mem (hnp.nodup_iff.2 hnd)
              (hperm.subset hc'm) (hsc.name_eq.trans (findChild_name hf))
          obtain ⟨m', hm', hsm⟩ := ih c c' hsc hcknd hckids m hm
          refine ⟨m', ?_, hsm⟩
          rw [nodeAt_cons]
          simp only [Node.children_mk]
          rw [hf']
          exact hm'

theorem mem_leafAddrsKids_iff {cs : List Node} {a : List String} :
    a ∈ leafAddrsKids cs ↔
    ∃ c ∈ cs, ∃ sub, a = c.name :: sub ∧ sub ∈ leafAddrs c := by
  induction cs with
  | nil => simp [leafAddrsKids]
  | cons d rest ih =>
    rw [show leafAddrsKids (d :: rest)
        = (leafAddrs d).map (fun a => d.name :: a) ++ leafAddrsKids rest
      from rfl]
    simp only [List.mem_append, List.mem_map, ih, List.mem_cons]
    constructor
    · rintro (⟨sub, hs, rfl⟩ | ⟨c, hc, sub, rfl, hs⟩)
      · exact ⟨d, Or.inl rfl, sub, rfl, hs⟩
      · exact ⟨c, Or.inr hc, sub, rfl, hs⟩
    · rintro ⟨c, hc | hc, sub, rfl, hs⟩
      · exact Or.inl ⟨sub, hc ▸ hs, by rw [hc]⟩
      · exact Or.inr ⟨c, hc, sub, rfl, hs⟩

theorem leafAddrsKids_perm_mem {cs cs2 : List Node} (hp : cs.Perm cs2)
    (a : List String) :
    a ∈ leafAddrsKids cs ↔ a ∈ leafAddrsKids cs2 := by
  rw [mem_leafAddrsKids_iff, mem_leafAddrsKids_iff]
  constructor <;> rintro ⟨c, hc, sub, rfl, hs⟩
  · exact ⟨c, hp.subset hc, sub, rfl, hs⟩
  · exact ⟨c, hp.symm.subset hc, sub, rfl, hs⟩

mutual
theorem sim_leafAddrs {ra : Alloc → Alloc → Prop} :
    ∀ (n n' : Node), Sim ra n n' →
    ∀ a, a ∈ leafAddrs n' ↔ a ∈ leafAddrs n
  | .mk nm k a0 w cs, n', hsim, a => by
    cases hsim with
    | mk cs' hk hra hkids hperm =>
      by_cases hkk : k = Kind.internalK
      · rw [leafAddrs_internal (show (Node.mk nm _ _ _ _).kind
            = Kind.internalK from hk.1 hkk),
          leafAddrs_internal (show (Node.mk nm k a0 w cs).kind
            = Kind.internalK from hkk)]
        rw [show (Node.mk nm k a0 w cs).children = cs from rfl]
        rw [show (Node.mk nm _ _ _ _).children = _ from Node.children_mk _ _ _ _ _]
        rw [leafAddrsKids_perm_mem hperm.symm a]
        exact simKids_leafAddrs cs cs' hkids a
      · rw [leafAddrs_leaf (show ¬(Node.mk nm _ _ _ _).kind
            = Kind.internalK from fun hkk2 => hkk (hk.2 hkk2)),
          leafAddrs_leaf (show ¬(Node.mk nm k a0 w cs).kind
            = Kind.internalK from hkk)]

theorem simKids_leafAddrs {ra : Alloc → Alloc → Prop} :
    ∀ (cs cs' : List Node), SimKids ra cs cs' →
    ∀ a, a ∈ leafAddrsKids cs' ↔ a ∈ leafAddrsKids cs
  | [], _, .nil, a => Iff.rfl
  | c :: rest, _, .cons hs hk, a => by
    rw [show leafAddrsKids (c :: rest)
        = (leafAddrs c).map (fun x => c.name :: x) ++ leafAddrsKids rest
      from rfl]
    rw [show leafAddrsKids (_ :: _)
        = (leafAddrs _).map (fun x => _ :: x) ++ leafAddrsKids _ from rfl]
    simp only [List.mem_append, List.mem_map]
    constructor
    · rintro (⟨sub, hsub, rfl⟩ | h2)
      · exact Or.inl ⟨sub, (sim_leafAddrs c _ hs sub).1 hsub,
          by rw [hs.name_eq]⟩
      · exact Or.inr ((simKids_leafAddrs rest _ hk a).1 h2)
    · rintro (⟨sub, hsub, rfl⟩ | h2)
      · exact Or.inl ⟨sub, (sim_leafAddrs c _ hs sub).2 hsub,
          by rw [hs.name_eq]⟩
      · exact Or.inr ((simKids_leafAddrs rest _ hk a).2 h2)
end

theorem clientsOK_build {root : Node} {cls : List (List String × List String)}
    {wts : List (List String × Rat)} {tr : Multiset Rsrc} {tt : Nat}
    (h1 : (cls.map Prod.fst).Nodup)
    (h2 : ∀ e ∈ cls, validPath e.1 ∧ e.1 = stripDot e.2 ∧
      ∃ m, nodeAt root e.2 = some m ∧ m.isLeaf = true)
    (h3 : ∀ a ∈ leafAddrs root, (stripDot a, a) ∈ cls) :
    clientsOK (SState.mk root cls wts tr tt) = true := by
  unfold clientsOK
  rw [Bool.and_eq_true, Bool.and_eq_true]
  refine ⟨⟨decide_eq_true h1, ?_⟩, ?_⟩
  · rw [List.all_eq_true]
    intro e he
    obtain ⟨hv, hs, m, hm, hleaf⟩ := h2 e he
    rw [Bool.and_eq_true, Bool.and_eq_true]
    refine ⟨⟨decide_eq_true hv, decide_eq_true hs⟩, ?_⟩
    rw [show (SState.mk root cls wts tr tt).root = root from rfl, hm]
    exact hleaf
  · rw [List.all_eq_true]
    intro a ha
    exact decide_eq_true (h3 a ha)

theorem sim_clientsOK {ra : Alloc → Alloc → Prop} {root root' : Node}
    {cls : List (List String × List String)}
    {wts wts' : List (List String × Rat)} {tr tr' : Multiset Rsrc}
    {tt tt' : Nat}
    (hsim : Sim ra root root')
    (hnd : (root.children.map Node.name).Nodup)
    (hkids : kidsOK root.children = true)
    (h : clientsOK (SState.mk root cls wts tr tt) = true) :
    clientsOK (SState.mk root' cls wts' tr' tt') = true := by
  obtain ⟨h1, h2, h3⟩ := clientsOK_parts h
  refine clientsOK_build h1 ?_ ?_
  · intro e he
    obtain ⟨hv, hs, m, hm, hleaf⟩ := h2 e he
    obtain ⟨m', hm', hsm⟩ := sim_nodeAt e.2 root root' hsim hnd hkids m hm
    exact ⟨hv, hs, m', hm', by rw [hsm.isLeaf_eq]; exact hleaf⟩
  · intro a ha
    exact h3 a ((sim_leafAddrs root root' hsim a).1 ha)

theorem addChild_perm_cons (cs : List Node) (x : Node) :
    (addChild cs x).Perm (x :: cs) := by
  unfold addChild
  split
  · exact List.perm_append_singleton x cs
  · exact List.Perm.refl _

theorem replaceChild_perm_cons : ∀ {cs : List Node} {t : String} {c x : Node},
    findChild cs t = some c →
    (replaceChild cs t x).Perm (x :: eraseChild cs t) := by
  intro cs
  induction cs with
  | nil =>
    intro t c x h
    simp [findChild] at h
  | cons d rest ih =>
    intro t c x h
    unfold findChild at h
    rw [List.find?_cons] at h
    cases hd : decide (d.name = t)
    · rw [hd] at h
      rw [show replaceChild (d :: rest) t x = d :: replaceChild rest t x by
        simp [replaceChild, of_decide_eq_false hd]]
      rw [show eraseChild (d :: rest) t = d :: eraseChild rest t by
        simp [eraseChild, of_decide_eq_false hd]]
      exact (List.Perm.cons d (ih h)).trans (List.Perm.swap _ _ _)
    · rw [hd] at h
      rw [show replaceChild (d :: rest) t x = x :: rest by
        simp [replaceChild, of_decide_eq_true hd]]
      rw [show eraseChild (d :: rest) t = rest by
        simp [eraseChild, of_decide_eq_true hd]]

theorem simKids_replaceChild {ra : Alloc → Alloc → Prop} (hra : ∀ a, ra a a) :
    ∀ {cs : List Node} {t : String} {c x : Node},
    findChild cs t = some c → Sim ra c x →
    SimKids ra cs (replaceChild cs t x) := by
  intro cs
  induction cs with
  | nil =>
    intro t c x h _
    simp [findChild] at h
  | cons d rest ih =>
    intro t c x h hs
    unfold findChild at h
    rw [List.find?_cons] at h
    cases hd : decide (d.name = t)
    · rw [hd] at h
      rw [show replaceChild (d :: rest) t x = d :: replaceChild rest t x by
        simp [replaceChild, of_decide_eq_false hd]]
      exact .cons (sim_refl hra d) (ih h hs)
    · rw [hd] at h
      cases h
      rw [show replaceChild (d :: rest) t x = x :: rest by
        simp [replaceChild, of_decide_eq_true hd]]
      exact .cons hs (simKids_refl hra rest)

theorem setWeightAt_sim (w : Rat) : ∀ (addr : List String) (n : Node),
    Sim Eq n (setWeightAt w n addr)
  | [], .mk nm k a w0 cs =>
    .mk cs Iff.rfl rfl (simKids_refl (fun _ => rfl) cs) (List.Perm.refl cs)
  | t :: rest, n => by
    unfold setWeightAt
    cases hf : findChild n.children t with
    | none => exact sim_refl (fun _ => rfl) n
    | some c =>
      cases n with
      | mk nm k a w0 cs =>
        simp only [Node.children_mk] at hf
        exact .mk _ Iff.rfl rfl
          (simKids_replaceChild (fun _ => rfl) hf (setWeightAt_sim w rest c))
          (List.Perm.refl _)

theorem mapAlong_sim (f : Alloc → Alloc) : ∀ (addr : List String) (n : Node),
    Sim (fun _ _ => True) n (mapAlong f n addr)
  | [], .mk nm k a w0 cs =>
    .mk cs Iff.rfl trivial (simKids_refl (fun _ => trivial) cs)
      (List.Perm.refl cs)
  | t :: rest, n => by
    unfold mapAlong
    cases hf : findChild n.children t with
    | none => exact sim_refl (fun _ => trivial) n
    | some c =>
      cases n with
      | mk nm k a w0 cs =>
        simp only [Node.children_mk] at hf
        exact .mk _ Iff.rfl trivial
          (simKids_replaceChild (fun _ => trivial) hf
            (mapAlong_sim f rest c))
          (List.Perm.refl _)

theorem flipAt_sim (k : Kind) (hkl : ¬k = Kind.internalK) :
    ∀ (addr : List String) (n : Node),
    (∀ m, nodeAt n addr = some m → m.isLeaf = true) →
    Sim Eq n (flipAt k n addr)
  | [], n, _ => sim_refl (fun _ => rfl) n
  | [t], n, hleaf => by
    unfold flipAt
    cases hf : findChild n.children t with
    | none => exact sim_refl (fun _ => rfl) n
    | some c =>
      have hcleaf : c.isLeaf = true := by
        refine hleaf c ?_
        rw [nodeAt_cons, hf]
        rfl
      cases n with
      | mk nm k0 a w0 cs =>
        simp only [Node.children_mk] at hf
        have hsc : Sim Eq c (Node.mk c.name k c.alloc c.weight c.children) := by
          cases c with
          | mk cn ck ca cw ccs =>
            simp only [Node.isLeaf, Node.kind_mk, decide_eq_true_eq] at hcleaf
            exact .mk ccs
              (by
                constructor
                · intro h
                  exact absurd h hcleaf
                · intro h
                  exact absurd h hkl)
              rfl (simKids_refl (fun _ => rfl) ccs) (List.Perm.refl ccs)
        exact .mk _ Iff.rfl rfl
          (simKids_replaceChild (fun _ => rfl) hf hsc)
          ((replaceChild_perm_cons hf).trans
            (addChild_perm_cons (eraseChild cs t) _).symm)
  | t :: t2 :: rest, n, hleaf => by
    unfold flipAt
    cases hf : findChild n.children t with
    | none => exact sim_refl (fun _ => rfl) n
    | some c =>
      cases n with
      | mk nm k0 a w0 cs =>
        simp only [Node.children_mk] at hf
        refine .mk _ Iff.rfl rfl
          (simKids_replaceChild (fun _ => rfl) hf
            (flipAt_sim k hkl (t2 :: rest) c ?_))
          (List.Perm.refl _)
        intro m hm
        refine hleaf m ?_
        rw [nodeAt_cons]
        simp only [Node.children_mk]
        rw [hf]
        exact hm

theorem range_filterMap_getElem {α : Type} : ∀ (l : List α),
    (List.range l.length).filterMap (fun i => l[i]?) = l := by
  intro l
  induction l with
  | nil => rfl
  | cons x xs ih =>
    rw [show (x :: xs).length = xs.length + 1 from rfl,
      List.range_succ_eq_map]
    rw [List.filterMap_cons]
    rw [show ((x :: xs)[0]? : Option α) = some x by simp]
    rw [List.filterMap_map]
    rw [show ((fun i => (x :: xs)[i]?) ∘ Nat.succ) = (fun i => xs[i]?) by
      funext i
      simp]
    rw [ih]

theorem applyPerm_perm {α : Type} {pi : List Nat} {l : List α}
    (hp : pi.Perm (List.range l.length)) : (applyPerm pi l).Perm l := by
  unfold applyPerm
  have h1 := hp.filterMap (fun i => l[i]?)
  rw [range_filterMap_getElem] at h1
  exact h1

mutual
theorem shuffleNode_sim (sh : List String → List Rat → List Nat)
    (wt : List (List String × Rat)) (hsh : ValidSh sh) :
    ∀ (pre : List String) (n : Node), Sim Eq n (shuffleNode sh wt pre n)
  | pre, .mk nm k a w cs => by
    unfold shuffleNode
    by_cases hk : k = Kind.internalK
    · rw [if_pos hk]
      dsimp only
      have hsplit := List.takeWhile_append_dropWhile
        (fun c => !(c.kind == Kind.inactiveLeaf)) (shuffleKids sh wt pre cs)
      have hperm1 : (applyPerm (sh pre (((shuffleKids sh wt pre cs).takeWhile
            (fun c => !(c.kind == Kind.inactiveLeaf))).map
              (fun c => getWeightPure wt (pre ++ [c.name]) c)))
          ((shuffleKids sh wt pre cs).takeWhile
            (fun c => !(c.kind == Kind.inactiveLeaf)))).Perm
          ((shuffleKids sh wt pre cs).takeWhile
            (fun c => !(c.kind == Kind.inactiveLeaf))) := by
        refine applyPerm_perm ?_
        have h2 := hsh pre (((shuffleKids sh wt pre cs).takeWhile
          (fun c => !(c.kind == Kind.inactiveLeaf))).map
            (fun c => getWeightPure wt (pre ++ [c.name]) c))
        rwa [List.length_map] at h2
      refine .mk (shuffleKids sh wt pre cs) Iff.rfl rfl
        (shuffleKids_sim sh wt hsh pre cs) ?_
      have hgoal := (hperm1.append_right ((shuffleKids sh wt pre cs).dropWhile
        (fun c => !(c.kind == Kind.inactiveLeaf)))).symm
      rw [hsplit] at hgoal
      exact hgoal
    · rw [if_neg hk]
      exact sim_refl (fun _ => rfl) _

theorem shuffleKids_sim (sh : List String → List Rat → List Nat)
    (wt : List (List String × Rat)) (hsh : ValidSh sh) :
    ∀ (pre : List String) (cs : List Node),
      SimKids Eq cs (shuffleKids sh wt pre cs)
  | pre, [] => .nil
  | pre, c :: cs => by
    unfold shuffleKids
    by_cases hc : (c.kind == Kind.inactiveLeaf) = true
    · rw [if_pos hc]
      exact simKids_refl (fun _ => rfl) _
    · rw [if_neg hc]
      exact .cons (shuffleNode_sim sh wt hsh (pre ++ [c.name]) c)
        (shuffleKids_sim sh wt hsh pre cs)
end

theorem scalarSum_tagSlave (u : Nat) (rs : Multiset Rsrc) :
    scalarSum (tagSlave u rs) = scalarSum rs := by
  unfold scalarSum tagSlave
  rw [Multiset.map_map]
  congr 1

theorem scalarSum_add (a b : Multiset Rsrc) :
    scalarSum (a + b) = scalarSum a + scalarSum b := by
  simp [scalarSum]

theorem scalarSum_mono {a b : Multiset Rsrc} (h : a ≤ b) :
    scalarSum a ≤ scalarSum b := by
  obtain ⟨c, rfl⟩ := Multiset.le_iff_exists_add.1 h
  rw [scalarSum_add]
  exact Nat.le_add_right _ _

theorem scalarSum_sub {a b : Multiset Rsrc} (h : b ≤ a) :
    scalarSum (a - b) = scalarSum a - scalarSum b := by
  have h2 : a - b + b = a := tsub_add_cancel_of_le h
  have h3 := scalarSum_add (a - b) b
  rw [h2] at h3
  omega

theorem sumKidsRes_cons (d : Node) (l : List Node) :
    sumKidsRes (d :: l) = d.alloc.resources + sumKidsRes l := by
  simp [sumKidsRes]

theorem mem_replaceChild : ∀ {cs : List Node} {t : String} {x c' : Node},
    c' ∈ replaceChild cs t x → c' = x ∨ c' ∈ cs := by
  intro cs
  induction cs with
  | nil =>
    intro t x c' h
    simp [replaceChild] at h
  | cons d rest ih =>
    intro t x c' h
    unfold replaceChild at h
    split at h
    · rcases List.mem_cons.1 h with rfl | h2
      · exact Or.inl rfl
      · exact Or.inr (by simp [h2])
    · rcases List.mem_cons.1 h with rfl | h2
      · exact Or.inr (by simp)
      · rcases ih h2 with h3 | h3
        · exact Or.inl h3
        · exact Or.inr (by simp [h3])

theorem sumKidsRes_replace : ∀ {cs : List Node} {t : String} {c x : Node},
    findChild cs t = some c →
    sumKidsRes (replaceChild cs t x) + c.alloc.resources
      = sumKidsRes cs + x.alloc.resources := by
  intro cs
  induction cs with
  | nil =>
    intro t c x h
    simp [findChild] at h
  | cons d rest ih =>
    intro t c x h
    unfold findChild at h
    rw [List.find?_cons] at h
    cases hd : decide (d.name = t)
    · rw [hd] at h
      rw [show replaceChild (d :: rest) t x = d :: replaceChild rest t x by
        simp [replaceChild, of_decide_eq_false hd]]
      rw [sumKidsRes_cons, sumKidsRes_cons]
      rw [add_assoc, add_assoc, ih h]
    · rw [hd] at h
      cases h
      rw [show replaceChild (d :: rest) t x = x :: rest by
        simp [replaceChild, of_decide_eq_true hd]]
      rw [sumKidsRes_cons, sumKidsRes_cons]
      simp [add_comm, add_left_comm, add_assoc]

theorem alloc_dominance : ∀ (addr : List String) (n : Node),
    allocOK n = true → kidsOK n.children = true →
    (addr ≠ [] → n.kind = Kind.internalK) →
    ∀ leaf, nodeAt n addr = some leaf →
    leaf.alloc.resources ≤ n.alloc.resources := by
  intro addr
  induction addr with
  | nil =>
    intro n _ _ _ leaf hm
    rw [show nodeAt n [] = some n from rfl] at hm
    cases Option.some.inj hm
    exact le_refl _
  | cons t ts ih =>
    intro n hao hkids hint leaf hm
    rw [nodeAt_cons] at hm
    cases hf : findChild n.children t with
    | none =>
      rw [hf] at hm
      exact absurd hm (by simp)
    | some c =>
      rw [hf] at hm
      change nodeAt c ts = some leaf at hm
      have htc := kidsOK_mem hkids _ (findChild_mem hf)
      cases n with
      | mk nm k a w cs =>
        simp only [Node.children_mk] at hf hkids
        obtain ⟨h1, h2, h3⟩ := allocOK_parts hao
        have hac := kidsAllocOK_mem h3 _ (findChild_mem hf)
        have hckids := treeOK_kidsOK htc
        have hcint : ts ≠ [] → c.kind = Kind.internalK := by
          intro hne
          by_contra hcin
          have hcs : c.children = [] := by
            cases c with
            | mk cn ck ca cw ccs => exact (treeOK_parts htc).2.2.1 hcin
          cases ts with
          | nil => exact hne rfl
          | cons u us =>
            rw [nodeAt_cons, hcs] at hm
            exact absurd hm (by simp [findChild])
        have hle1 : leaf.alloc.resources ≤ c.alloc.resources :=
          ih c hac hckids hcint leaf hm
        have hle2 : c.alloc.resources ≤ (Node.mk nm k a w cs).alloc.resources := by
          rw [Node.alloc_mk, h2 (hint (by simp))]
          unfold sumKidsRes
          exact List.single_le_sum (fun x _ => Multiset.zero_le x) _
            (List.mem_map.2 ⟨c, findChild_mem hf, rfl⟩)
        exact le_trans hle1 hle2

theorem mapAlong_allocOK (P M : Multiset Rsrc) :
    ∀ (addr : List String) (n : Node),
    allocOK n = true → kidsOK n.children = true →
    (addr ≠ [] → n.kind = Kind.internalK) →
    ∀ leaf, nodeAt n addr = some leaf → leaf.isLeaf = true →
    M ≤ leaf.alloc.resources →
    allocOK (mapAlong (fun a => Alloc.mk (a.resources - M + P)
      (a.totals - scalarSum M + scalarSum P)) n addr) = true ∧
    (mapAlong (fun a => Alloc.mk (a.resources - M + P)
      (a.totals - scalarSum M + scalarSum P)) n addr).alloc
      = Alloc.mk (n.alloc.resources - M + P)
        (n.alloc.totals - scalarSum M + scalarSum P) := by
  intro addr
  induction addr with
  | nil =>
    intro n hao hkids _ leaf hm hleaf hM
    rw [show nodeAt n [] = some n from rfl] at hm
    cases Option.some.inj hm
    cases n with
    | mk nm k a w cs =>
      simp only [Node.alloc_mk] at hM ⊢
      simp only [Node.isLeaf, Node.kind_mk, decide_eq_true_eq] at hleaf
      obtain ⟨h1, h2, h3⟩ := allocOK_parts hao
      constructor
      · refine allocOK_build ?_ ?_ h3
        · show a.totals - scalarSum M + scalarSum P
            = scalarSum (a.resources - M + P)
          rw [scalarSum_add, scalarSum_sub hM, h1]
        · intro hk
          exact absurd hk hleaf
      · rfl
  | cons t ts ih =>
    intro n hao hkids hint leaf hm hleaf hM
    rw [nodeAt_cons] at hm
    cases hf : findChild n.children t with
    | none =>
      rw [hf] at hm
      exact absurd hm (by simp)
    | some c =>
      rw [hf] at hm
      change nodeAt c ts = some leaf at hm
      have htc := kidsOK_mem hkids _ (findChild_mem hf)
      have hcint : ts ≠ [] → c.kind = Kind.internalK := by
        intro hne
        by_contra hcin
        have hcs : c.children = [] := by
          cases c with
          | mk cn ck ca cw ccs => exact (treeOK_parts htc).2.2.1 hcin
        cases ts with
        | nil => exact hne rfl
        | cons u us =>
          rw [nodeAt_cons, hcs] at hm
          exact absurd hm (by simp [findChild])
      cases n with
      | mk nm k a w cs =>
        simp only [Node.children_mk] at hf hkids
        obtain ⟨h1, h2, h3⟩ := allocOK_parts hao
        have hkint : k = Kind.internalK := hint (by simp)
        have hres : a.resources = sumKidsRes cs := h2 hkint
        have hcao := kidsAllocOK_mem h3 _ (findChild_mem hf)
        have hckids := treeOK_kidsOK htc
        obtain ⟨iha, ihb⟩ := ih c hcao hckids hcint leaf hm hleaf hM
        have hMc : M ≤ c.alloc.resources :=
          le_trans hM (alloc_dominance ts c hcao hckids hcint leaf hm)
        have hcle : c.alloc.resources ≤ sumKidsRes cs :=
          List.single_le_sum (fun x _ => Multiset.zero_le x) _
            (List.mem_map.2 ⟨c, findChild_mem hf, rfl⟩)
        have hMa : M ≤ a.resources := by
          rw [hres]
          exact le_trans hMc hcle
        unfold mapAlong
        simp only [Node.children_mk, Node.name_mk, Node.kind_mk,
          Node.alloc_mk, Node.weight_mk]
        rw [hf]
        constructor
        · refine allocOK_build ?_ ?_ ?_
          · show a.totals - scalarSum M + scalarSum P
              = scalarSum (a.resources - M + P)
            rw [scalarSum_add, scalarSum_sub hMa, h1]
          · intro _
            show a.resources - M + P = sumKidsRes (replaceChild cs t _)
            have hrep : sumKidsRes (replaceChild cs t (mapAlong (fun a =>
                  Alloc.mk (a.resources - M + P)
                    (a.totals - scalarSum M + scalarSum P)) c ts))
                + c.alloc.resources
                = sumKidsRes cs + (mapAlong (fun a =>
                  Alloc.mk (a.resources - M + P)
                    (a.totals - scalarSum M + scalarSum P))
                    c ts).alloc.resources :=
              sumKidsRes_replace hf
            have hXres : (mapAlong (fun a => Alloc.mk (a.resources - M + P)
                (a.totals - scalarSum M + scalarSum P)) c ts).alloc.resources
                = c.alloc.resources - M + P := by
              rw [ihb]
            rw [hXres] at hrep
            have hgoal : sumKidsRes cs + (c.alloc.resources - M + P)
                = (sumKidsRes cs - M + P) + c.alloc.resources := by
              rw [← add_assoc]
              rw [show sumKidsRes cs + (c.alloc.resources - M)
                  = sumKidsRes cs + c.alloc.resources - M from
                (add_tsub_assoc_of_le hMc _).symm]
              rw [show sumKidsRes cs + c.alloc.resources - M
                  = sumKidsRes cs - M + c.alloc.resources from
                (tsub_add_eq_add_tsub (hres ▸ hMa)).symm]
              rw [add_right_comm]
            rw [hgoal] at hrep
            have := add_right_cancel hrep
            rw [hres, this]
          · refine kidsAllocOK_build ?_
            intro c' hc'
            rcases mem_replaceChild hc' with rfl | h2m
            · exact iha
            · exact kidsAllocOK_mem h3 _ h2m
        · rfl

theorem invOK_fields (r : Node) (c : List (List String × List String))
    (w1 w2 : List (List String × Rat)) (t1 t3 : Multiset Rsrc)
    (t2 t4 : Nat) :
    invOK (SState.mk r c w1 t1 t2) = invOK (SState.mk r c w2 t3 t4) := rfl

theorem inv_sim_eq {root root' : Node}
    {cls : List (List String × List String)}
    {wts wts' : List (List String × Rat)} {tr tr' : Multiset Rsrc}
    {tt tt' : Nat}
    (hsim : Sim Eq root root')
    (hinv : invOK (SState.mk root cls wts tr tt) = true) :
    invOK (SState.mk root' cls wts' tr' tt') = true := by
  obtain ⟨hr, ha, hc⟩ := invOK_parts hinv
  obtain ⟨-, hnd, -, hkids⟩ := rootOK_parts hr
  unfold invOK
  rw [Bool.and_eq_true, Bool.and_eq_true]
  exact ⟨⟨sim_rootOK hsim hr, sim_allocOK _ _ hsim ha⟩,
    sim_clientsOK hsim hnd hkids hc⟩

theorem inv_sim_true {root root' : Node}
    {cls : List (List String × List String)}
    {wts wts' : List (List String × Rat)} {tr tr' : Multiset Rsrc}
    {tt tt' : Nat}
    (hsim : Sim (fun _ _ => True) root root')
    (hao : allocOK root' = true)
    (hinv : invOK (SState.mk root cls wts tr tt) = true) :
    invOK (SState.mk root' cls wts' tr' tt') = true := by
  obtain ⟨hr, -, hc⟩ := invOK_parts hinv
  obtain ⟨-, hnd, -, hkids⟩ := rootOK_parts hr
  unfold invOK
  rw [Bool.and_eq_true, Bool.and_eq_true]
  exact ⟨⟨sim_rootOK hsim hr, hao⟩, sim_clientsOK hsim hnd hkids hc⟩

theorem activateS_inv {s s' : SState} {p : List String}
    (h : activateS s p = some s') (hinv : invOK s = true) :
    invOK s' = true := by
  obtain ⟨root0, cls, wts, tr, tt⟩ := s
  unfold activateS at h
  cases hl : lookupA cls p with
  | none =>
    rw [show lookupA (SState.mk root0 cls wts tr tt).clients p
      = lookupA cls p from rfl, hl] at h
    exact absurd h (by simp)
  | some addr =>
    rw [show lookupA (SState.mk root0 cls wts tr tt).clients p
      = lookupA cls p from rfl, hl] at h
    simp only [Option.bind_eq_bind, Option.some_bind] at h
    cases hn : nodeAt root0 addr with
    | none =>
      rw [show nodeAt (SState.mk root0 cls wts tr tt).root addr
        = nodeAt root0 addr from rfl, hn] at h
      exact absurd h (by simp)
    | some c =>
      rw [show nodeAt (SState.mk root0 cls wts tr tt).root addr
        = nodeAt root0 addr from rfl, hn] at h
      simp only [Option.some_bind] at h
      by_cases hleaf : c.isLeaf = true
      · rw [if_pos hleaf] at h
        by_cases hk : c.kind = Kind.inactiveLeaf
        · rw [if_pos hk] at h
          cases Option.some.inj h
          refine inv_sim_eq (flipAt_sim Kind.activeLeaf (by simp) addr root0
            ?_) hinv
          intro m hm
          rw [hn] at hm
          cases Option.some.inj hm
          exact hleaf
        · rw [if_neg hk] at h
          cases Option.some.inj h
          exact hinv
      · rw [if_neg hleaf] at h
        exact absurd h (by simp)

theorem deactivateS_inv {s s' : SState} {p : List String}
    (h : deactivateS s p = some s') (hinv : invOK s = true) :
    invOK s' = true := by
  obtain ⟨root0, cls, wts, tr, tt⟩ := s
  unfold deactivateS at h
  cases hl : lookupA cls p with
  | none =>
    rw [show lookupA (SState.mk root0 cls wts tr tt).clients p
      = lookupA cls p from rfl, hl] at h
    exact absurd h (by simp)
  | some addr =>
    rw [show lookupA (SState.mk root0 cls wts tr tt).clients p
      = lookupA cls p from rfl, hl] at h
    simp only [Option.bind_eq_bind, Option.some_bind] at h
    cases hn : nodeAt root0 addr with
    | none =>
      rw [show nodeAt (SState.mk root0 cls wts tr tt).root addr
        = nodeAt root0 addr from rfl, hn] at h
      exact absurd h (by simp)
    | some c =>
      rw [show nodeAt (SState.mk root0 cls wts tr tt).root addr
        = nodeAt root0 addr from rfl, hn] at h
      simp only [Option.some_bind] at h
      by_cases hleaf : c.isLeaf = true
      · rw [if_pos hleaf] at h
        by_cases hk : c.kind = Kind.activeLeaf
        · rw [if_pos hk] at h
          cases Option.some.inj h
          refine inv_sim_eq (flipAt_sim Kind.inactiveLeaf (by simp) addr root0
            ?_) hinv
          intro m hm
          rw [hn] at hm
          cases Option.some.inj hm
          exact hleaf
        · rw [if_neg hk] at h
          cases Option.some.inj h
          exact hinv
      · rw [if_neg hleaf] at h
        exact absurd h (by simp)

theorem updateWeightS_inv {s : SState} {p : List String} {w : Rat}
    (hinv : invOK s = true) : invOK (updateWeightS s p w) = true := by
  obtain ⟨root0, cls, wts, tr, tt⟩ := s
  unfold updateWeightS
  cases hl : lookupA cls p with
  | none =>
    show invOK (SState.mk root0 cls (setA wts p w) tr tt) = true
    rw [invOK_fields root0 cls (setA wts p w) wts tr tr tt tt]
    exact hinv
  | some addr =>
    show invOK (SState.mk (setWeightAt w root0
      (if addr.getLast? = some "." then addr.dropLast else addr))
      cls (setA wts p w) tr tt) = true
    exact inv_sim_eq (setWeightAt_sim w _ root0) hinv

theorem addTotal_inv {s : SState} {u : Nat} {rs : Multiset Rsrc}
    (hinv : invOK s = true) : invOK (addTotal s u rs) = true := by
  obtain ⟨root0, cls, wts, tr, tt⟩ := s
  unfold addTotal
  by_cases h0 : rs = 0
  · rw [if_pos h0]
    exact hinv
  · rw [if_neg h0]
    rw [invOK_fields root0 cls wts wts _ tr _ tt]
    exact hinv

theorem removeTotal_inv {s s' : SState} {u : Nat} {rs : Multiset Rsrc}
    (h : removeTotal s u rs = some s') (hinv : invOK s = true) :
    invOK s' = true := by
  obtain ⟨root0, cls, wts, tr, tt⟩ := s
  unfold removeTotal at h
  by_cases h0 : rs = 0
  · rw [if_pos h0] at h
    cases Option.some.inj h
    exact hinv
  · rw [if_neg h0] at h
    dsimp only at h
    by_cases hc : atSlave u tr ≠ 0 ∧ tagSlave u rs ≤ tr
    · rw [if_pos hc] at h
      by_cases hq : scalarSum (rs.filter (fun r => !r.shared))
          + scalarSum ((rs.filter (fun r => r.shared)).filter
            (fun r => ¬ ({ r with slave := u } ∈ tr - tagSlave u rs))) ≤ tt
      · rw [if_pos hq] at h
        cases Option.some.inj h
        rw [invOK_fields root0 cls wts wts _ tr _ tt]
        exact hinv
      · rw [if_neg hq] at h
        exact absurd h (by simp)
    · rw [if_neg hc] at h
      exact absurd h (by simp)

theorem sortS_inv {s : SState} {sh : List String → List Rat → List Nat}
    (hsh : ValidSh sh) (hinv : invOK s = true) :
    invOK (sortS sh s).1 = true := by
  obtain ⟨root0, cls, wts, tr, tt⟩ := s
  unfold sortS
  exact inv_sim_eq (shuffleNode_sim sh wts hsh [] root0) hinv

theorem mapAlong_congr {f g : Alloc → Alloc} (hfg : ∀ a, f a = g a) :
    ∀ (addr : List String) (n : Node), mapAlong f n addr = mapAlong g n addr
  | [], n => by
    unfold mapAlong
    rw [hfg]
  | t :: rest, n => by
    unfold mapAlong
    cases hf : findChild n.children t with
    | none => rfl
    | some c =>
      show Node.mk n.name n.kind (f n.alloc) n.weight
          (replaceChild n.children t (mapAlong f c rest))
        = Node.mk n.name n.kind (g n.alloc) n.weight
          (replaceChild n.children t (mapAlong g c rest))
      rw [hfg, mapAlong_congr hfg rest c]

theorem allocatedS_inv {s s' : SState} {p : List String} {u : Nat}
    {rs : Multiset Rsrc} (h : allocatedS s p u rs = some s')
    (hinv : invOK s = true) : invOK s' = true := by
  obtain ⟨root0, cls, wts, tr, tt⟩ := s
  unfold allocatedS at h
  cases hl : lookupA cls p with
  | none =>
    rw [show lookupA (SState.mk root0 cls wts tr tt).clients p
      = lookupA cls p from rfl, hl] at h
    exact absurd h (by simp)
  | some addr =>
    rw [show lookupA (SState.mk root0 cls wts tr tt).clients p
      = lookupA cls p from rfl, hl] at h
    simp only [Option.bind_eq_bind, Option.some_bind] at h
    cases hn : nodeAt root0 addr with
    | none =>
      rw [show nodeAt (SState.mk root0 cls wts tr tt).root addr
        = nodeAt root0 addr from rfl, hn] at h
      exact absurd h (by simp)
    | some leaf =>
      rw [show nodeAt (SState.mk root0 cls wts tr tt).root addr
        = nodeAt root0 addr from rfl, hn] at h
      simp only [Option.some_bind] at h
      by_cases hleaf : leaf.isLeaf = true
      · rw [if_pos hleaf] at h
        cases Option.some.inj h
        obtain ⟨hr, ha, hc⟩ := invOK_parts hinv
        obtain ⟨hrk, hnd, hndot, hkids⟩ := rootOK_parts hr
        have hcongr : mapAlong (fun a => a.add u rs) root0 addr
            = mapAlong (fun a => Alloc.mk (a.resources - 0 + tagSlave u rs)
              (a.totals - scalarSum 0 + scalarSum (tagSlave u rs)))
              root0 addr := by
          refine mapAlong_congr ?_ addr root0
          intro a
          simp [Alloc.add, scalarSum_tagSlave, scalarSum_zero]
        refine inv_sim_true (mapAlong_sim _ addr root0) ?_ hinv
        rw [hcongr]
        exact (mapAlong_allocOK (tagSlave u rs) 0 addr root0 ha hkids
          (fun _ => hrk) leaf hn hleaf (Multiset.zero_le _)).1
      · rw [if_neg hleaf] at h
        exact absurd h (by simp)

theorem unallocatedS_inv {s s' : SState} {p : List String} {u : Nat}
    {rs : Multiset Rsrc} (h : unallocatedS s p u rs = some s')
    (hinv : invOK s = true) : invOK s' = true := by
  obtain ⟨root0, cls, wts, tr, tt⟩ := s
  unfold unallocatedS at h
  cases hl : lookupA cls p with
  | none =>
    rw [show lookupA (SState.mk root0 cls wts tr tt).clients p
      = lookupA cls p from rfl, hl] at h
    exact absurd h (by simp)
  | some addr =>
    rw [show lookupA (SState.mk root0 cls wts tr tt).clients p
      = lookupA cls p from rfl, hl] at h
    simp only [Option.bind_eq_bind, Option.some_bind] at h
    cases hn : nodeAt root0 addr with
    | none =>
      rw [show nodeAt (SState.mk root0 cls wts tr tt).root addr
        = nodeAt root0 addr from rfl, hn] at h
      exact absurd h (by simp)
    | some leaf =>
      rw [show nodeAt (SState.mk root0 cls wts tr tt).root addr
        = nodeAt root0 addr from rfl, hn] at h
      simp only [Option.some_bind] at h
      by_cases hg : leaf.isLeaf = true ∧ atSlave u leaf.alloc.resources ≠ 0 ∧
          tagSlave u rs ≤ leaf.alloc.resources
      · rw [if_pos hg] at h
        cases Option.some.inj h
        obtain ⟨hr, ha, hc⟩ := invOK_parts hinv
        obtain ⟨hrk, hnd, hndot, hkids⟩ := rootOK_parts hr
        have hcongr : mapAlong (fun a => a.sub u rs) root0 addr
            = mapAlong (fun a => Alloc.mk (a.resources - tagSlave u rs + 0)
              (a.totals - scalarSum (tagSlave u rs) + scalarSum 0))
              root0 addr := by
          refine mapAlong_congr ?_ addr root0
          intro a
          simp [Alloc.sub, scalarSum_tagSlave, scalarSum_zero]
        refine inv_sim_true (mapAlong_sim _ addr root0) ?_ hinv
        rw [hcongr]
        exact (mapAlong_allocOK 0 (tagSlave u rs) addr root0 ha hkids
          (fun _ => hrk) leaf hn hg.1 hg.2.2).1
      · rw [if_neg hg] at h
        exact absurd h (by simp)

theorem updateS_inv {s s' : SState} {p : List String} {u : Nat}
    {oldR newR : Multiset Rsrc} (h : updateS s p u oldR newR = some s')
    (hinv : invOK s = true) : invOK s' = true := by
  obtain ⟨root0, cls, wts, tr, tt⟩ := s
  unfold updateS at h
  cases hl : lookupA cls p with
  | none =>
    rw [show lookupA (SState.mk root0 cls wts tr tt).clients p
      = lookupA cls p from rfl, hl] at h
    exact absurd h (by simp)
  | some addr =>
    rw [show lookupA (SState.mk root0 cls wts tr tt).clients p
      = lookupA cls p from rfl, hl] at h
    simp only [Option.bind_eq_bind, Option.some_bind] at h
    cases hn : nodeAt root0 addr with
    | none =>
      rw [show nodeAt (SState.mk root0 cls wts tr tt).root addr
        = nodeAt root0 addr from rfl, hn] at h
      exact absurd h (by simp)
    | some leaf =>
      rw [show nodeAt (SState.mk root0 cls wts tr tt).root addr
        = nodeAt root0 addr from rfl, hn] at h
      simp only [Option.some_bind] at h
      by_cases hg : leaf.isLeaf = true ∧ atSlave u leaf.alloc.resources ≠ 0 ∧
          tagSlave u oldR ≤ leaf.alloc.resources
      · rw [if_pos hg] at h
        cases Option.some.inj h
        obtain ⟨hr, ha, hc⟩ := invOK_parts hinv
        obtain ⟨hrk, hnd, hndot, hkids⟩ := rootOK_parts hr
        have hcongr : mapAlong (fun a => a.updateR u oldR newR) root0 addr
            = mapAlong (fun a =>
              Alloc.mk (a.resources - tagSlave u oldR + tagSlave u newR)
                (a.totals - scalarSum (tagSlave u oldR)
                  + scalarSum (tagSlave u newR)))
              root0 addr := by
          refine mapAlong_congr ?_ addr root0
          intro a
          simp [Alloc.updateR, scalarSum_tagSlave]
        refine inv_sim_true (mapAlong_sim _ addr root0) ?_ hinv
        rw [hcongr]
        exact (mapAlong_allocOK (tagSlave u newR) (tagSlave u oldR) addr root0
          ha hkids (fun _ => hrk) leaf hn hg.1 hg.2.2).1
      · rw [if_neg hg] at h
        exact absurd h (by simp)

theorem sumKidsRes_perm {cs cs' : List Node} (hp : cs.Perm cs') :
    sumKidsRes cs = sumKidsRes cs' :=
  List.Perm.sum_eq (hp.map _)

theorem mkChain_alloc (t : String) (ts : List String) :
    (mkChain t ts).alloc = Alloc.empty := by
  cases ts <;> rfl

theorem mkChain_kind (t : String) (ts : List String) :
    (mkChain t ts).kind = (match ts with
      | [] => Kind.inactiveLeaf
      | _ :: _ => Kind.internalK) := by
  cases ts <;> rfl

theorem mkChain_treeOK : ∀ (ts : List String) (t : String), t ≠ "." →
    (∀ x ∈ ts, x ≠ ".") → treeOK (mkChain t ts) = true
  | [], t, ht, _ => by
    unfold mkChain
    refine treeOK_build (fun h => absurd h ht) (fun h => by cases h) ?_
      (by simp) rfl
    intro _
    rfl
  | t' :: ts', t, ht, hdots => by
    unfold mkChain
    refine treeOK_build (fun h => absurd h ht) ?_ (fun h => absurd rfl h)
      (by simp) ?_
    · intro _
      refine ⟨by simp, ?_⟩
      simp [mkChain_name]
      exact hdots t' (by simp)
    · rw [show kidsOK [mkChain t' ts']
        = (treeOK (mkChain t' ts') && kidsOK []) from rfl, Bool.and_eq_true]
      exact ⟨mkChain_treeOK ts' t' (hdots t' (by simp))
        (fun x hx => hdots x (by simp [hx])), rfl⟩

theorem mkChain_allocOK : ∀ (ts : List String) (t : String),
    allocOK (mkChain t ts) = true
  | [], t => by
    unfold mkChain
    exact allocOK_build rfl (fun h => by cases h) rfl
  | t' :: ts', t => by
    unfold mkChain
    refine allocOK_build rfl ?_ ?_
    · intro _
      show (Alloc.empty.resources : Multiset Rsrc)
        = sumKidsRes [mkChain t' ts']
      rw [show sumKidsRes [mkChain t' ts']
        = (mkChain t' ts').alloc.resources + sumKidsRes [] from rfl]
      rw [mkChain_alloc]
      rfl
    · rw [show kidsAllocOK [mkChain t' ts']
        = (allocOK (mkChain t' ts') && kidsAllocOK []) from rfl,
        Bool.and_eq_true]
      exact ⟨mkChain_allocOK ts' t', rfl⟩

theorem not_mem_names_of_findChild_none {cs : List Node} {t : String}
    (h : findChild cs t = none) : t ∉ cs.map Node.name := by
  intro hmem
  obtain ⟨c, hc, hname⟩ := List.mem_map.1 hmem
  exact findChild_not_mem_name h c hc hname

theorem addChild_names_perm (cs : List Node) (x : Node) :
    ((addChild cs x).map Node.name).Perm (x.name :: cs.map Node.name) :=
  (addChild_perm_cons cs x).map Node.name

theorem mem_eraseChild : ∀ {cs : List Node} {t : String} {c' : Node},
    c' ∈ eraseChild cs t → c' ∈ cs := by
  intro cs
  induction cs with
  | nil =>
    intro t c' h
    simp [eraseChild] at h
  | cons d rest ih =>
    intro t c' h
    unfold eraseChild at h
    split at h
    · exact List.mem_cons_of_mem d h
    · rcases List.mem_cons.1 h with rfl | h2
      · exact List.mem_cons_self _ _
      · exact List.mem_cons_of_mem d (ih h2)

theorem sumKidsRes_append (l1 l2 : List Node) :
    sumKidsRes (l1 ++ l2) = sumKidsRes l1 + sumKidsRes l2 := by
  simp [sumKidsRes]

theorem treeOK_build2 {n : Node}
    (h1 : n.name = "." → ¬n.kind = Kind.internalK)
    (h2 : n.kind = Kind.internalK →
      n.children ≠ [] ∧ n.children.map Node.name ≠ ["."])
    (h3 : ¬n.kind = Kind.internalK → n.children = [])
    (h4 : (n.children.map Node.name).Nodup)
    (h5 : kidsOK n.children = true) : treeOK n = true := by
  cases n with
  | mk nm k a w cs => exact treeOK_build h1 h2 h3 h4 h5

theorem allocOK_build2 {n : Node}
    (h1 : n.alloc.totals = scalarSum n.alloc.resources)
    (h2 : n.kind = Kind.internalK →
      n.alloc.resources = sumKidsRes n.children)
    (h3 : kidsAllocOK n.children = true) : allocOK n = true := by
  cases n with
  | mk nm k a w cs => exact allocOK_build h1 h2 h3

theorem perm_names_ne {l1 l2 : List String} (hp : l1.Perm l2)
    (h1 : l2 ≠ []) (h2 : l2 ≠ ["."]) : l1 ≠ [] ∧ l1 ≠ ["."] := by
  constructor
  · intro h
    rw [h] at hp
    exact h1 hp.nil_eq.symm
  · intro h
    rw [h] at hp
    exact h2 (List.singleton_perm.1 hp).symm

/-- `add`'s walk preserves the structural and accounting invariants of the
transformed node: well-formed children, duplicate-free names extended by at
most the consumed head token, unchanged allocation sums. -/
theorem addAux_inv :
    ∀ (toks : List String) (pre : List String) (n : Node) (t : String)
      (ts : List String),
      toks = t :: ts →
      (∀ x ∈ toks, x ≠ ".") →
      WalkOK n toks →
      (n.children.map Node.name).Nodup →
      kidsOK n.children = true →
      allocOK n = true →
      kidsOK (addAux pre n toks).1.children = true ∧
      (((addAux pre n toks).1.children.map Node.name)).Nodup ∧
      (((addAux pre n toks).1.children.map Node.name).Perm
         (n.children.map Node.name) ∨
       ((addAux pre n toks).1.children.map Node.name).Perm
         (t :: n.children.map Node.name)) ∧
      allocOK (addAux pre n toks).1 = true ∧
      sumKidsRes (addAux pre n toks).1.children = sumKidsRes n.children := by
  intro toks
  induction toks with
  | nil =>
    intro pre n t ts h
    exact absurd h (by simp)
  | cons t0 ts0 ih =>
    intro pre n t ts heq hdots hwalk hnodup hkids hao
    obtain ⟨rfl, rfl⟩ : t = t0 ∧ ts = ts0 := by
      cases heq
      exact ⟨rfl, rfl⟩
    have ht : t ≠ "." := hdots t (by simp)
    cases n with
    | mk nm k a w cs =>
    simp only [Node.children_mk] at hnodup hkids ⊢
    obtain ⟨hac, hasum, hakids⟩ := allocOK_parts hao
    cases hf : findChild cs t with
    | none =>
      have haux : addAux pre (Node.mk nm k a w cs) (t :: ts)
          = ((Node.mk nm k a w cs).withChildren
              (addChild cs (mkChain t ts)), pre ++ t :: ts, none) := by
        rw [addAux_cons]
        simp only [Node.children_mk]
        rw [hf]
      rw [haux]
      simp only [Node.withChildren_mk, Node.children_mk]
      have hnp := addChild_names_perm cs (mkChain t ts)
      rw [mkChain_name] at hnp
      have htOK : treeOK (mkChain t ts) = true :=
        mkChain_treeOK ts t ht (fun x hx => hdots x (by simp [hx]))
      have hsum : sumKidsRes (addChild cs (mkChain t ts)) = sumKidsRes cs := by
        refine (sumKidsRes_perm (addChild_perm_cons cs (mkChain t ts))).trans ?_
        rw [sumKidsRes_cons, mkChain_alloc]
        show (Alloc.empty.resources : Multiset Rsrc) + sumKidsRes cs
          = sumKidsRes cs
        rw [show (Alloc.empty.resources : Multiset Rsrc) = 0 from rfl,
          zero_add]
      refine ⟨?_, ?_, Or.inr hnp, ?_, hsum⟩
      · refine kidsOK_build ?_
        intro c' hc'
        rcases List.mem_cons.1
            ((addChild_perm_cons cs (mkChain t ts)).subset hc') with rfl | h2
        · exact htOK
        · exact kidsOK_mem hkids _ h2
      · refine hnp.nodup_iff.2 ?_
        rw [List.nodup_cons]
        exact ⟨not_mem_names_of_findChild_none hf, hnodup⟩
      · refine allocOK_build hac ?_ ?_
        · intro hk
          rw [hasum hk]
          exact hsum.symm
        · refine kidsAllocOK_build ?_
          intro c' hc'
          rcases List.mem_cons.1
              ((addChild_perm_cons cs (mkChain t ts)).subset hc') with rfl | h2
          · exact mkChain_allocOK ts t
          · exact kidsAllocOK_mem hakids _ h2
    | some c =>
      have hcn := findChild_name hf
      have htc := kidsOK_mem hkids _ (findChild_mem hf)
      have hcac := kidsAllocOK_mem hakids _ (findChild_mem hf)
      have hw := walkok_some hwalk hf
      cases c with
      | mk cn ck ca cw ccs =>
      simp only [Node.name_mk] at hcn
      obtain rfl := hcn.symm
      obtain ⟨hTdot, hTint, hTleaf, hTnd, hTkids⟩ := treeOK_parts htc
      obtain ⟨hcact, hcasum, hcakids⟩ := allocOK_parts hcac
      by_cases hck : ck = Kind.internalK
      · have hcf : (Node.mk t ck ca cw ccs).isLeaf = false := by
          simp [Node.isLeaf, hck]
        have haux : addAux pre (Node.mk nm k a w cs) (t :: ts)
            = ((Node.mk nm k a w cs).withChildren (replaceChild cs t
                (addAux (pre ++ [t]) (Node.mk t ck ca cw ccs) ts).1),
               (addAux (pre ++ [t]) (Node.mk t ck ca cw ccs) ts).2.1,
               (addAux (pre ++ [t]) (Node.mk t ck ca cw ccs) ts).2.2) := by
          rw [addAux_cons]
          simp only [Node.children_mk]
          rw [hf]
          dsimp only
          rw [if_neg (by simp [hcf])]
        rw [haux]
        simp only [Node.withChildren_mk, Node.children_mk]
        subst hck
        obtain ⟨hTne, hTnd2⟩ := hTint rfl
        have hreplace : ∀ (x : Node), x.alloc = ca →
            sumKidsRes (replaceChild cs t x) = sumKidsRes cs := by
          intro x hxa
          have hrep : sumKidsRes (replaceChild cs t x)
              + (Node.mk t Kind.internalK ca cw ccs).alloc.resources
              = sumKidsRes cs + x.alloc.resources := sumKidsRes_replace hf
          rw [hxa] at hrep
          exact add_right_cancel hrep
        cases ts with
        | nil =>
          obtain ⟨-, hdotn⟩ := hw.2 hcf
          simp only [Node.children_mk] at hdotn
          have hin : addAux (pre ++ [t])
              (Node.mk t Kind.internalK ca cw ccs) []
              = (Node.mk t Kind.internalK ca cw
                  (ccs ++ [Node.mk "." Kind.inactiveLeaf Alloc.empty none []]),
                 (pre ++ [t]) ++ ["."], none) := by
            show ((Node.mk t Kind.internalK ca cw ccs).withChildren
                (addChild ccs (Node.mk "." Kind.inactiveLeaf Alloc.empty
                  none [])),
               (pre ++ [t]) ++ ["."], none) = _
            rw [@addChild_inactive ccs
              (Node.mk "." Kind.inactiveLeaf Alloc.empty none []) rfl]
            rfl
          rw [hin]
          have hctree : treeOK (Node.mk t Kind.internalK ca cw
              (ccs ++ [Node.mk "." Kind.inactiveLeaf Alloc.empty none []]))
              = true := by
            refine treeOK_build (fun hd => absurd hd ht) ?_
              (fun hd => absurd rfl hd) ?_ ?_
            · intro _
              refine ⟨by simp, ?_⟩
              rw [List.map_append]
              intro hcontra
              have hlen := congrArg List.length hcontra
              rw [List.length_append] at hlen
              simp at hlen
              exact hTne hlen
            · rw [List.map_append, List.nodup_append]
              refine ⟨hTnd, by simp, ?_⟩
              intro x hx hx2
              simp only [List.map_cons, List.map_nil, List.mem_singleton,
                Node.name_mk] at hx2
              subst hx2
              exact not_mem_names_of_findChild_none hdotn hx
            · refine kidsOK_build ?_
              intro c' hc'
              rcases List.mem_append.1 hc' with h2 | h2
              · exact kidsOK_mem hTkids _ h2
              · rw [List.mem_singleton] at h2
                subst h2
                rfl
          have hcalloc : allocOK (Node.mk t Kind.internalK ca cw
              (ccs ++ [Node.mk "." Kind.inactiveLeaf Alloc.empty none []]))
              = true := by
            refine allocOK_build hcact ?_ ?_
            · intro _
              rw [sumKidsRes_append, hcasum rfl]
              rw [show sumKidsRes [Node.mk "." Kind.inactiveLeaf Alloc.empty
                none []] = 0 from rfl, add_zero]
            · refine kidsAllocOK_build ?_
              intro c' hc'
              rcases List.mem_append.1 hc' with h2 | h2
              · exact kidsAllocOK_mem hcakids _ h2
              · rw [List.mem_singleton] at h2
                subst h2
                rfl
          refine ⟨?_, ?_, Or.inl (by rw [replaceChild_map_name_mk]), ?_, ?_⟩
          · refine kidsOK_build ?_
            intro c' hc'
            rcases mem_replaceChild hc' with rfl | h2
            · exact hctree
            · exact kidsOK_mem hkids _ h2
          · rw [replaceChild_map_name_mk]
            exact hnodup
          · refine allocOK_build hac ?_ ?_
            · intro hk2
              rw [hasum hk2, hreplace (Node.mk t Kind.internalK ca cw
                (ccs ++ [Node.mk "." Kind.inactiveLeaf Alloc.empty none []]))
                rfl]
            · refine kidsAllocOK_build ?_
              intro c' hc'
              rcases mem_replaceChild hc' with rfl | h2
              · exact hcalloc
              · exact kidsAllocOK_mem hakids _ h2
          · exact hreplace (Node.mk t Kind.internalK ca cw
              (ccs ++ [Node.mk "." Kind.inactiveLeaf Alloc.empty none []]))
              rfl
        | cons t2 ts2 =>
          have hdots2 : ∀ x ∈ t2 :: ts2, x ≠ "." := by
            intro x hx
            exact hdots x (List.mem_cons_of_mem t hx)
          obtain ⟨ih1, ih2, ih3, ih4, ih5⟩ :=
            ih (pre ++ [t]) (Node.mk t Kind.internalK ca cw ccs) t2 ts2 rfl
              hdots2 (hw.2 hcf) hTnd hTkids hcac
          have hr1name : (addAux (pre ++ [t])
              (Node.mk t Kind.internalK ca cw ccs) (t2 :: ts2)).1.name = t :=
            addAux_name _ _ _
          have hr1kind : (addAux (pre ++ [t])
              (Node.mk t Kind.internalK ca cw ccs) (t2 :: ts2)).1.kind
              = Kind.internalK := addAux_kind _ _ _
          have hr1alloc : (addAux (pre ++ [t])
              (Node.mk t Kind.internalK ca cw ccs) (t2 :: ts2)).1.alloc = ca :=
            addAux_alloc _ _ _
          have hnefacts : (addAux (pre ++ [t])
              (Node.mk t Kind.internalK ca cw ccs)
                (t2 :: ts2)).1.children.map Node.name ≠ [] ∧
              (addAux (pre ++ [t]) (Node.mk t Kind.internalK ca cw ccs)
                (t2 :: ts2)).1.children.map Node.name ≠ ["."] := by
            rcases ih3 with hp | hp
            · refine perm_names_ne hp ?_ hTnd2
              intro hnil
              exact hTne (List.map_eq_nil.1 hnil)
            · refine perm_names_ne hp (by simp) ?_
              intro hcontra
              have hlen := congrArg List.length hcontra
              simp at hlen
              exact hTne hlen
          have hctree : treeOK (addAux (pre ++ [t])
              (Node.mk t Kind.internalK ca cw ccs) (t2 :: ts2)).1 = true := by
            refine treeOK_build2 (fun hd => absurd (hr1name ▸ hd) ht) ?_
              (fun hd => absurd hr1kind hd) ih2 ih1
            intro _
            refine ⟨?_, hnefacts.2⟩
            intro hnil
            exact hnefacts.1 (by rw [hnil]; rfl)
          have hcalloc : allocOK (addAux (pre ++ [t])
              (Node.mk t Kind.internalK ca cw ccs) (t2 :: ts2)).1 = true :=
            ih4
          refine ⟨?_, ?_, Or.inl (by rw [replaceChild_map_name hr1name]), ?_,
            hreplace _ hr1alloc⟩
          · refine kidsOK_build ?_
            intro c' hc'
            rcases mem_replaceChild hc' with rfl | h2
            · exact hctree
            · exact kidsOK_mem hkids _ h2
          · rw [replaceChild_map_name hr1name]
            exact hnodup
          · refine allocOK_build hac ?_ ?_
            · intro hk2
              rw [hasum hk2, hreplace _ hr1alloc]
            · refine kidsAllocOK_build ?_
              intro c' hc'
              rcases mem_replaceChild hc' with rfl | h2
              · exact hcalloc
              · exact kidsAllocOK_mem hakids _ h2
      · obtain rfl : ccs = [] := hTleaf hck
        have hleaf : (Node.mk t ck ca cw []).isLeaf = true := by
          simp [Node.isLeaf, hck]
        have hts : ts ≠ [] := hw.1 hleaf
        cases ts with
        | nil => exact absurd rfl hts
        | cons t' ts' =>
          have ht' : t' ≠ "." := hdots t' (by simp)
          have haux : addAux pre (Node.mk nm k a w cs) (t :: t' :: ts')
              = ((Node.mk nm k a w cs).withChildren
                  (addChild (eraseChild cs t)
                    (Node.mk t Kind.internalK ca cw
                      (addChild (addChild [] (Node.mk "." ck ca none []))
                        (mkChain t' ts')))),
                 pre ++ t :: t' :: ts',
                 some (pre ++ [t], pre ++ [t, "."])) := by
            rw [addAux_cons]
            simp only [Node.children_mk]
            rw [hf]
            dsimp only
            rw [if_pos ⟨hleaf, by simp⟩]
            rfl
          rw [haux]
          simp only [Node.withChildren_mk, Node.children_mk]
          have hknp : ((addChild [Node.mk "." ck ca none []]
              (mkChain t' ts')).map Node.name).Perm [t', "."] := by
            have h0 := addChild_names_perm [Node.mk "." ck ca none []]
              (mkChain t' ts')
            rw [mkChain_name] at h0
            simpa using h0
          have hknefacts := perm_names_ne hknp (by simp) (by
            intro hcontra
            have := congrArg List.length hcontra
            simp at this)
          have hconvOK : treeOK (Node.mk t Kind.internalK ca cw
              (addChild (addChild [] (Node.mk "." ck ca none []))
                (mkChain t' ts'))) = true := by
            rw [addChild_nil]
            refine treeOK_build (fun hd => absurd hd ht) ?_
              (fun hd => absurd rfl hd) ?_ ?_
            · intro _
              refine ⟨?_, hknefacts.2⟩
              intro hnil
              exact hknefacts.1 (by rw [hnil]; rfl)
            · refine hknp.nodup_iff.2 ?_
              simp [ht']
            · refine kidsOK_build ?_
              intro c' hc'
              rcases List.mem_cons.1 ((addChild_perm_cons _ _).subset hc')
                  with rfl | h2
              · exact mkChain_treeOK ts' t' ht'
                  (fun x hx => hdots x (by simp [hx]))
              · rw [List.mem_singleton] at h2
                subst h2
                refine treeOK_build (fun _ => hck) (fun hd => absurd hd hck)
                  (fun _ => rfl) (by simp) rfl
          have hconvAlloc : allocOK (Node.mk t Kind.internalK ca cw
              (addChild (addChild [] (Node.mk "." ck ca none []))
                (mkChain t' ts'))) = true := by
            rw [addChild_nil]
            refine allocOK_build hcact ?_ ?_
            · intro _
              refine Eq.symm ((sumKidsRes_perm (addChild_perm_cons _ _)).trans
                ?_)
              rw [sumKidsRes_cons, mkChain_alloc, sumKidsRes_cons,
                show sumKidsRes ([] : List Node) = 0 from rfl]
              show (Alloc.empty.resources : Multiset Rsrc)
                + (ca.resources + 0) = ca.resources
              rw [show (Alloc.empty.resources : Multiset Rsrc) = 0 from rfl]
              simp
            · refine kidsAllocOK_build ?_
              intro c' hc'
              rcases List.mem_cons.1 ((addChild_perm_cons _ _).subset hc')
                  with rfl | h2
              · exact mkChain_allocOK ts' t'
              · rw [List.mem_singleton] at h2
                subst h2
                exact allocOK_build hcact (fun hd => absurd hd hck) rfl
          have hnamesperm : ((addChild (eraseChild cs t)
              (Node.mk t Kind.internalK ca cw
                (addChild (addChild [] (Node.mk "." ck ca none []))
                  (mkChain t' ts')))).map Node.name).Perm
              (cs.map Node.name) := by
            refine (addChild_names_perm _ _).trans ?_
            have h2 := (perm_cons_eraseChild hf).symm.map Node.name
            simpa using h2
          have hsum2 : sumKidsRes (addChild (eraseChild cs t)
              (Node.mk t Kind.internalK ca cw
                (addChild (addChild [] (Node.mk "." ck ca none []))
                  (mkChain t' ts')))) = sumKidsRes cs := by
            refine (sumKidsRes_perm (addChild_perm_cons _ _)).trans ?_
            rw [sumKidsRes_cons]
            have h3 := sumKidsRes_perm (perm_cons_eraseChild hf)
            rw [sumKidsRes_cons] at h3
            rw [h3]
            rfl
          refine ⟨?_, ?_, Or.inl hnamesperm, ?_, hsum2⟩
          · refine kidsOK_build ?_
            intro c' hc'
            rcases List.mem_cons.1 ((addChild_perm_cons _ _).subset hc')
                with rfl | h2
            · exact hconvOK
            · exact kidsOK_mem hkids _ (mem_eraseChild h2)
          · exact hnamesperm.nodup_iff.2 hnodup
          · refine allocOK_build hac ?_ ?_
            · intro hk2
              rw [hasum hk2]
              exact hsum2.symm
            · refine kidsAllocOK_build ?_
              intro c' hc'
              rcases List.mem_cons.1 ((addChild_perm_cons _ _).subset hc')
                  with rfl | h2
              · exact hconvAlloc
              · exact kidsAllocOK_mem hakids _ (mem_eraseChild h2)

theorem leafAddrsKids_cons_mem (y : Node) (es : List Node)
    (a : List String) :
    a ∈ leafAddrsKids (y :: es) ↔
    (∃ sub, a = y.name :: sub ∧ sub ∈ leafAddrs y) ∨
    a ∈ leafAddrsKids es := by
  rw [show leafAddrsKids (y :: es)
    = (leafAddrs y).map (fun x => y.name :: x) ++ leafAddrsKids es from rfl]
  simp only [List.mem_append, List.mem_map]
  constructor
  · rintro (⟨sub, hs, rfl⟩ | h2)
    · exact Or.inl ⟨sub, rfl, hs⟩
    · exact Or.inr h2
  · rintro (⟨sub, rfl, hs⟩ | h2)
    · exact Or.inl ⟨sub, hs, rfl⟩
    · exact Or.inr h2

theorem mkChain_leafAddrs : ∀ (ts : List String) (t : String),
    leafAddrs (mkChain t ts) = [ts]
  | [], t => by
    unfold mkChain
    rw [leafAddrs_leaf (by simp)]
  | t' :: ts', t => by
    unfold mkChain
    rw [leafAddrs_internal (by simp)]
    rw [show (Node.mk t Kind.internalK Alloc.empty none
      [mkChain t' ts']).children = [mkChain t' ts'] from rfl]
    rw [show leafAddrsKids [mkChain t' ts']
      = (leafAddrs (mkChain t' ts')).map
          (fun x => (mkChain t' ts').name :: x) ++ leafAddrsKids [] from rfl]
    rw [mkChain_leafAddrs ts' t', mkChain_name]
    rfl

theorem eraseChild_names_of_nodup : ∀ {cs : List Node} {t : String},
    (cs.map Node.name).Nodup → ∀ c'' ∈ eraseChild cs t, c''.name ≠ t := by
  intro cs
  induction cs with
  | nil =>
    intro t _ c'' hc''
    simp [eraseChild] at hc''
  | cons d rest ih =>
    intro t hnd c'' hc''
    rw [List.map_cons, List.nodup_cons] at hnd
    unfold eraseChild at hc''
    split at hc''
    · rename_i hd
      intro he
      exact hnd.1 (hd ▸ he ▸ List.mem_map.2 ⟨c'', hc'', rfl⟩)
    · rename_i hd
      rcases List.mem_cons.1 hc'' with rfl | h2
      · exact hd
      · exact ih hnd.2 c'' h2

theorem stripDot_append_dot (q : List String) :
    stripDot (q ++ ["."]) = q := by
  unfold stripDot
  rw [List.getLast?_concat]
  rw [if_pos rfl]
  rw [List.dropLast_concat]

theorem leafAddrs_nodeAt : ∀ (a : List String) (n : Node),
    n.kind = Kind.internalK → (n.children.map Node.name).Nodup →
    kidsOK n.children = true → a ∈ leafAddrs n →
    ∃ m, nodeAt n a = some m ∧ m.isLeaf = true := by
  intro a
  induction a with
  | nil =>
    intro n hk _ _ hmem
    rw [leafAddrs_internal hk, mem_leafAddrsKids_iff] at hmem
    obtain ⟨c, -, sub, hcontra, -⟩ := hmem
    exact absurd hcontra (by simp)
  | cons u a' ih =>
    intro n hk hnd hkids hmem
    rw [leafAddrs_internal hk, mem_leafAddrsKids_iff] at hmem
    obtain ⟨c, hcm, sub, heq, hs⟩ := hmem
    cases heq
    have htc := kidsOK_mem hkids _ hcm
    have hfc : findChild n.children c.name = some c :=
      findChild_of_nodup_mem hnd hcm rfl
    by_cases hck : c.kind = Kind.internalK
    · have hcnd : (c.children.map Node.name).Nodup := by
        cases c with
        | mk cn ck2 ca2 cw2 ccs2 => exact (treeOK_parts htc).2.2.2.1
      obtain ⟨m, hm, hml⟩ := ih c hck hcnd (treeOK_kidsOK htc) hs
      refine ⟨m, ?_, hml⟩
      rw [nodeAt_cons, hfc]
      exact hm
    · rw [leafAddrs_leaf hck] at hs
      rw [List.mem_singleton] at hs
      subst hs
      refine ⟨c, ?_, by simp [Node.isLeaf, hck]⟩
      rw [nodeAt_cons, hfc]
      rfl

theorem mem_setA_self {κ α : Type} [DecidableEq κ]
    (l : List (κ × α)) (k : κ) (v : α) : (k, v) ∈ setA l k v := by
  induction l with
  | nil => simp [setA]
  | cons e rest ih =>
    unfold setA
    split
    · simp
    · simp [ih]

theorem mem_setA_of_ne {κ α : Type} [DecidableEq κ]
    {l : List (κ × α)} {k : κ} {v : α} (k' : κ) (v' : α)
    (h : (k, v) ∈ l) (hne : k ≠ k') : (k, v) ∈ setA l k' v' := by
  induction l with
  | nil => simp at h
  | cons e rest ih =>
    unfold setA
    split
    · rename_i he
      rcases List.mem_cons.1 h with rfl | h2
      · exact absurd he hne
      · simp [h2]
    · rcases List.mem_cons.1 h with rfl | h2
      · simp
      · simp [ih h2]

theorem mem_setA_elim {κ α : Type} [DecidableEq κ]
    {l : List (κ × α)} {k k' : κ} {v v' : α}
    (h : (k, v) ∈ setA l k' v') : (k = k' ∧ v = v') ∨ (k, v) ∈ l := by
  induction l with
  | nil =>
    simp [setA] at h
    exact Or.inl h
  | cons e rest ih =>
    unfold setA at h
    split at h
    · rcases List.mem_cons.1 h with he | h2
      · cases he
        exact Or.inl ⟨rfl, rfl⟩
      · exact Or.inr (by simp [h2])
    · rcases List.mem_cons.1 h with rfl | h2
      · exact Or.inr (by simp)
      · rcases ih h2 with h3 | h3
        · exact Or.inl h3
        · exact Or.inr (by simp [h3])

theorem setA_keys_subset {κ α : Type} [DecidableEq κ]
    (l : List (κ × α)) (k : κ) (v : α) {x : κ}
    (h : x ∈ (setA l k v).map Prod.fst) :
    x ∈ l.map Prod.fst ∨ x = k := by
  induction l with
  | nil =>
    simp [setA] at h
    exact Or.inr h
  | cons e rest ih =>
    unfold setA at h
    split at h
    · rename_i he
      rcases List.mem_cons.1 h with rfl | h2
      · exact Or.inr rfl
      · exact Or.inl (by simp [h2])
    · rcases List.mem_cons.1 h with rfl | h2
      · exact Or.inl (by simp)
      · rcases ih h2 with h3 | h3
        · exact Or.inl (by simp [h3])
        · exact Or.inr h3

theorem setA_keys_nodup {κ α : Type} [DecidableEq κ]
    {l : List (κ × α)} (k : κ) (v : α)
    (h : (l.map Prod.fst).Nodup) : ((setA l k v).map Prod.fst).Nodup := by
  induction l with
  | nil => simp [setA]
  | cons e rest ih =>
    rw [List.map_cons, List.nodup_cons] at h
    unfold setA
    split
    · rename_i he
      rw [List.map_cons, List.nodup_cons]
      exact ⟨he ▸ h.1, h.2⟩
    · rw [List.map_cons, List.nodup_cons]
      refine ⟨?_, ih h.2⟩
      intro hmem
      rcases setA_keys_subset rest k v hmem with h3 | h3
      · exact h.1 h3
      · rename_i he
        exact he (h3 ▸ rfl)

theorem leafAddrsKids_append (l1 l2 : List Node) :
    leafAddrsKids (l1 ++ l2) = leafAddrsKids l1 ++ leafAddrsKids l2 := by
  induction l1 with
  | nil => rfl
  | cons c rest ih =>
    rw [List.cons_append]
    rw [show leafAddrsKids (c :: (rest ++ l2))
      = (leafAddrs c).map (fun x => c.name :: x) ++ leafAddrsKids (rest ++ l2)
      from rfl]
    rw [show leafAddrsKids (c :: rest)
      = (leafAddrs c).map (fun x => c.name :: x) ++ leafAddrsKids rest
      from rfl]
    rw [ih, List.append_assoc]

/-- Address bookkeeping of `add`'s walk: the new client's relative address,
the relative re-registration of a split client, and the exact
characterization of the transformed node's leaf addresses. -/
theorem addAux_addrs :
    ∀ (toks : List String) (pre : List String) (n : Node) (t : String)
      (ts : List String),
      toks = t :: ts →
      (∀ x ∈ toks, x ≠ ".") →
      WalkOK n toks →
      (n.children.map Node.name).Nodup →
      kidsOK n.children = true →
      n.kind = Kind.internalK →
      ∃ rel rb,
        (addAux pre n toks).2.1 = pre ++ rel ∧
        stripDot rel = toks ∧
        (addAux pre n toks).2.2
          = rb.map (fun q => (pre ++ q, pre ++ q ++ ["."])) ∧
        (∀ q, rb = some q → q ≠ [] ∧ (∀ x ∈ q, x ≠ ".") ∧
          q ∈ leafAddrs n) ∧
        (∀ a, a ∈ leafAddrs (addAux pre n toks).1 ↔
          (a ∈ leafAddrs n ∧ (∀ q, rb = some q → a ≠ q)) ∨ a = rel ∨
          (∃ q, rb = some q ∧ a = q ++ ["."])) := by
  intro toks
  induction toks with
  | nil =>
    intro pre n t ts h
    exact absurd h (by simp)
  | cons t0 ts0 ih =>
    intro pre n t ts heq hdots hwalk hnodup hkids hkint
    obtain ⟨rfl, rfl⟩ : t = t0 ∧ ts = ts0 := by
      cases heq
      exact ⟨rfl, rfl⟩
    have ht : t ≠ "." := hdots t (by simp)
    cases n with
    | mk nm k a w cs =>
    simp only [Node.children_mk] at hnodup hkids ⊢
    simp only [Node.kind_mk] at hkint
    subst hkint
    cases hf : findChild cs t with
    | none =>
      have haux : addAux pre (Node.mk nm Kind.internalK a w cs) (t :: ts)
          = ((Node.mk nm Kind.internalK a w cs).withChildren
              (addChild cs (mkChain t ts)), pre ++ t :: ts, none) := by
        rw [addAux_cons]
        simp only [Node.children_mk]
        rw [hf]
      rw [haux]
      simp only [Node.withChildren_mk, Node.children_mk]
      refine ⟨t :: ts, none, rfl,
        stripDot_no_dot hdots, rfl, by simp, ?_⟩
      intro abound
      rw [leafAddrs_internal (by simp),
        leafAddrs_internal (by simp)]
      rw [show (Node.mk nm Kind.internalK a w
        (addChild cs (mkChain t ts))).children
        = addChild cs (mkChain t ts) from rfl]
      rw [show (Node.mk nm Kind.internalK a w cs).children = cs from rfl]
      rw [leafAddrsKids_perm_mem (addChild_perm_cons cs (mkChain t ts))
        abound]
      rw [leafAddrsKids_cons_mem]
      rw [mkChain_name, mkChain_leafAddrs]
      simp only [List.mem_singleton]
      constructor
      · rintro (⟨sub, rfl, rfl⟩ | h2)
        · exact Or.inr (Or.inl rfl)
        · exact Or.inl ⟨h2, by simp⟩
      · rintro (⟨h2, -⟩ | rfl | ⟨q, hq, -⟩)
        · exact Or.inr h2
        · exact Or.inl ⟨ts, rfl, rfl⟩
        · cases hq
    | some c =>
      have hcn := findChild_name hf
      have htc := kidsOK_mem hkids _ (findChild_mem hf)
      have hw := walkok_some hwalk hf
      cases c with
      | mk cn ck ca cw ccs =>
      simp only [Node.name_mk] at hcn
      obtain rfl := hcn.symm
      obtain ⟨hTdot, hTint, hTleaf, hTnd, hTkids⟩ := treeOK_parts htc
      have holdmem : ∀ a, a ∈ leafAddrsKids cs ↔
          (∃ sub, a = t :: sub ∧
            sub ∈ leafAddrs (Node.mk t ck ca cw ccs)) ∨
          (a ∈ leafAddrsKids (eraseChild cs t)) := by
        intro a
        rw [leafAddrsKids_perm_mem (perm_cons_eraseChild hf) a,
          leafAddrsKids_cons_mem]
        rfl
      have herasehead : ∀ a, a ∈ leafAddrsKids (eraseChild cs t) →
          ∀ sub, a ≠ t :: sub := by
        intro a ha sub heq
        rw [mem_leafAddrsKids_iff] at ha
        obtain ⟨c'', hc'', sub2, rfl, -⟩ := ha
        have := eraseChild_names_of_nodup hnodup c'' hc''
        rw [List.cons.injEq] at heq
        exact this heq.1
      by_cases hck : ck = Kind.internalK
      · have hcf : (Node.mk t ck ca cw ccs).isLeaf = false := by
          simp [Node.isLeaf, hck]
        have haux : addAux pre (Node.mk nm Kind.internalK a w cs) (t :: ts)
            = ((Node.mk nm Kind.internalK a w cs).withChildren
                (replaceChild cs t
                  (addAux (pre ++ [t]) (Node.mk t ck ca cw ccs) ts).1),
               (addAux (pre ++ [t]) (Node.mk t ck ca cw ccs) ts).2.1,
               (addAux (pre ++ [t]) (Node.mk t ck ca cw ccs) ts).2.2) := by
          rw [addAux_cons]
          simp only [Node.children_mk]
          rw [hf]
          dsimp only
          rw [if_neg (by simp [hcf])]
        rw [haux]
        simp only [Node.withChildren_mk, Node.children_mk]
        subst hck
        obtain ⟨hTne, hTnd2⟩ := hTint rfl
        have hnewmem : ∀ (x : Node), x.name = t → ∀ a,
            a ∈ leafAddrsKids (replaceChild cs t x) ↔
            (∃ sub, a = t :: sub ∧ sub ∈ leafAddrs x) ∨
            (a ∈ leafAddrsKids (eraseChild cs t)) := by
          intro x hxn a
          rw [leafAddrsKids_perm_mem (replaceChild_perm_cons hf) a,
            leafAddrsKids_cons_mem, hxn]
        cases ts with
        | nil =>
          obtain ⟨-, hdotn⟩ := hw.2 hcf
          simp only [Node.children_mk] at hdotn
          have hin : addAux (pre ++ [t])
              (Node.mk t Kind.internalK ca cw ccs) []
              = (Node.mk t Kind.internalK ca cw
                  (ccs ++ [Node.mk "." Kind.inactiveLeaf Alloc.empty none []]),
                 (pre ++ [t]) ++ ["."], none) := by
            show ((Node.mk t Kind.internalK ca cw ccs).withChildren
                (addChild ccs (Node.mk "." Kind.inactiveLeaf Alloc.empty
                  none [])),
               (pre ++ [t]) ++ ["."], none) = _
            rw [@addChild_inactive ccs
              (Node.mk "." Kind.inactiveLeaf Alloc.empty none []) rfl]
            rfl
          rw [hin]
          refine ⟨[t, "."], none, by simp, ?_, rfl, by simp, ?_⟩
          · rw [show ([t, "."] : List String) = [t] ++ ["."] from rfl,
              stripDot_append_dot]
          · intro abound
            rw [leafAddrs_internal (by simp),
              leafAddrs_internal (by simp)]
            rw [show (Node.mk nm Kind.internalK a w
              (replaceChild cs t (Node.mk t Kind.internalK ca cw
                (ccs ++ [Node.mk "." Kind.inactiveLeaf Alloc.empty
                  none []])))).children
              = replaceChild cs t (Node.mk t Kind.internalK ca cw
                  (ccs ++ [Node.mk "." Kind.inactiveLeaf Alloc.empty
                    none []])) from rfl]
            rw [show (Node.mk nm Kind.internalK a w cs).children = cs
              from rfl]
            rw [hnewmem (Node.mk t Kind.internalK ca cw
              (ccs ++ [Node.mk "." Kind.inactiveLeaf Alloc.empty none []]))
              rfl abound, holdmem abound]
            have hsubmem : ∀ sub,
                sub ∈ leafAddrs (Node.mk t Kind.internalK ca cw
                  (ccs ++ [Node.mk "." Kind.inactiveLeaf Alloc.empty
                    none []])) ↔
                sub ∈ leafAddrs (Node.mk t Kind.internalK ca cw ccs) ∨
                sub = ["."] := by
              intro sub
              rw [leafAddrs_internal (by simp), leafAddrs_internal (by simp)]
              rw [show (Node.mk t Kind.internalK ca cw
                (ccs ++ [Node.mk "." Kind.inactiveLeaf Alloc.empty
                  none []])).children = ccs ++ [Node.mk "." Kind.inactiveLeaf
                    Alloc.empty none []] from rfl]
              rw [show (Node.mk t Kind.internalK ca cw ccs).children = ccs
                from rfl]
              rw [leafAddrsKids_append]
              rw [List.mem_append]
              constructor
              · rintro (h2 | h2)
                · exact Or.inl h2
                · right
                  rw [show leafAddrsKids [Node.mk "." Kind.inactiveLeaf
                    Alloc.empty none []] = [["."]] from rfl] at h2
                  simpa using h2
              · rintro (h2 | rfl)
                · exact Or.inl h2
                · right
                  rw [show leafAddrsKids [Node.mk "." Kind.inactiveLeaf
                    Alloc.empty none []] = [["."]] from rfl]
                  simp
            constructor
            · rintro (⟨sub, rfl, hs⟩ | h2)
              · rcases (hsubmem sub).1 hs with h3 | rfl
                · exact Or.inl ⟨Or.inl ⟨sub, rfl, h3⟩, by simp⟩
                · exact Or.inr (Or.inl rfl)
              · exact Or.inl ⟨Or.inr h2, by simp⟩
            · rintro (⟨h2 | h2, -⟩ | rfl | ⟨q, hq, -⟩)
              · obtain ⟨sub, rfl, hs⟩ := h2
                exact Or.inl ⟨sub, rfl, (hsubmem sub).2 (Or.inl hs)⟩
              · exact Or.inr h2
              · exact Or.inl ⟨["."], rfl, (hsubmem ["."]).2 (Or.inr rfl)⟩
              · cases hq
        | cons t2 ts2 =>
          have hdots2 : ∀ x ∈ t2 :: ts2, x ≠ "." :=
            fun x hx => hdots x (List.mem_cons_of_mem t hx)
          obtain ⟨rel_c, rb_c, hA1c, hA2c, hA3c, hA4c, hA5c⟩ :=
            ih (pre ++ [t]) (Node.mk t Kind.internalK ca cw ccs) t2 ts2 rfl
              hdots2 (hw.2 hcf) hTnd hTkids rfl
          have hrelne : rel_c ≠ [] := by
            intro h0
            rw [h0] at hA2c
            exact absurd hA2c (by simp [stripDot])
          have hr1name : (addAux (pre ++ [t])
              (Node.mk t Kind.internalK ca cw ccs) (t2 :: ts2)).1.name = t :=
            addAux_name _ _ _
          refine ⟨t :: rel_c, rb_c.map (fun q => t :: q), ?_, ?_, ?_, ?_, ?_⟩
          · rw [hA1c]
            simp
          · cases rel_c with
            | nil => exact absurd rfl hrelne
            | cons b l =>
              rw [stripDot_cons_cons, hA2c]
          · rw [hA3c]
            cases rb_c with
            | none => rfl
            | some q => simp
          · intro q hq
            cases rb_c with
            | none => cases hq
            | some q_c =>
              simp only [Option.map_some'] at hq
              cases Option.some.inj hq
              obtain ⟨hq1, hq2, hq3⟩ := hA4c q_c rfl
              refine ⟨by simp, ?_, ?_⟩
              · intro x hx
                rcases List.mem_cons.1 hx with rfl | hx2
                · exact ht
                · exact hq2 x hx2
              · rw [leafAddrs_internal (by simp)]
                rw [show (Node.mk nm Kind.internalK a w cs).children = cs
                  from rfl]
                have := mem_leafAddrsKids (findChild_mem hf) hq3
                simpa using this
          · intro abound
            rw [leafAddrs_internal (by simp), leafAddrs_internal (by simp)]
            rw [show (Node.mk nm Kind.internalK a w
              (replaceChild cs t (addAux (pre ++ [t])
                (Node.mk t Kind.internalK ca cw ccs) (t2 :: ts2)).1)).children
              = replaceChild cs t (addAux (pre ++ [t])
                (Node.mk t Kind.internalK ca cw ccs) (t2 :: ts2)).1 from rfl]
            rw [show (Node.mk nm Kind.internalK a w cs).children = cs
              from rfl]
            rw [hnewmem ((addAux (pre ++ [t])
              (Node.mk t Kind.internalK ca cw ccs) (t2 :: ts2)).1)
              hr1name abound, holdmem abound]
            cases rb_c with
            | none =>
              simp only [Option.map_none']
              constructor
              · rintro (⟨sub, rfl, hs⟩ | h2)
                · rcases (hA5c sub).1 hs with ⟨h3, -⟩ | rfl | ⟨q, hq, -⟩
                  · exact Or.inl ⟨Or.inl ⟨sub, rfl, h3⟩, by simp⟩
                  · exact Or.inr (Or.inl rfl)
                  · cases hq
                · exact Or.inl ⟨Or.inr h2, by simp⟩
              · rintro (⟨h2 | h2, -⟩ | rfl | ⟨q, hq, -⟩)
                · obtain ⟨sub, rfl, hs⟩ := h2
                  exact Or.inl ⟨sub, rfl,
                    (hA5c sub).2 (Or.inl ⟨hs, by simp⟩)⟩
                · exact Or.inr h2
                · exact Or.inl ⟨rel_c, rfl, (hA5c rel_c).2 (Or.inr
                    (Or.inl rfl))⟩
                · cases hq
            | some q_c =>
              simp only [Option.map_some']
              constructor
              · rintro (⟨sub, rfl, hs⟩ | h2)
                · rcases (hA5c sub).1 hs with ⟨h3, h4⟩ | rfl | ⟨q, hq, rfl⟩
                  · refine Or.inl ⟨Or.inl ⟨sub, rfl, h3⟩, ?_⟩
                    intro q hq
                    cases Option.some.inj hq
                    intro hcon
                    exact h4 q_c rfl (List.cons.inj hcon).2
                  · exact Or.inr (Or.inl rfl)
                  · cases Option.some.inj hq
                    exact Or.inr (Or.inr ⟨t :: q_c, rfl, rfl⟩)
                · refine Or.inl ⟨Or.inr h2, ?_⟩
                  intro q hq
                  cases Option.some.inj hq
                  exact herasehead _ h2 q_c
              · rintro (⟨h2 | h2, h4⟩ | rfl | ⟨q, hq, rfl⟩)
                · obtain ⟨sub, rfl, hs⟩ := h2
                  refine Or.inl ⟨sub, rfl, (hA5c sub).2 (Or.inl ⟨hs, ?_⟩)⟩
                  intro q hq
                  cases hq
                  intro hcon
                  exact h4 (t :: q_c) rfl (by rw [hcon])
                · exact Or.inr h2
                · exact Or.inl ⟨rel_c, rfl, (hA5c rel_c).2 (Or.inr
                    (Or.inl rfl))⟩
                · cases Option.some.inj hq
                  exact Or.inl ⟨q_c ++ ["."], rfl, (hA5c (q_c ++ ["."])).2
                    (Or.inr (Or.inr ⟨q_c, rfl, rfl⟩))⟩
      · obtain rfl : ccs = [] := hTleaf hck
        have hleaf : (Node.mk t ck ca cw []).isLeaf = true := by
          simp [Node.isLeaf, hck]
        have hts : ts ≠ [] := hw.1 hleaf
        cases ts with
        | nil => exact absurd rfl hts
        | cons t' ts' =>
          have ht' : t' ≠ "." := hdots t' (by simp)
          have haux : addAux pre (Node.mk nm Kind.internalK a w cs)
              (t :: t' :: ts')
              = ((Node.mk nm Kind.internalK a w cs).withChildren
                  (addChild (eraseChild cs t)
                    (Node.mk t Kind.internalK ca cw
                      (addChild (addChild [] (Node.mk "." ck ca none []))
                        (mkChain t' ts')))),
                 pre ++ t :: t' :: ts',
                 some (pre ++ [t], pre ++ [t, "."])) := by
            rw [addAux_cons]
            simp only [Node.children_mk]
            rw [hf]
            dsimp only
            rw [if_pos ⟨hleaf, by simp⟩]
            rfl
          rw [haux]
          simp only [Node.withChildren_mk, Node.children_mk]
          have hconvla : ∀ sub, sub ∈ leafAddrs (Node.mk t Kind.internalK
              ca cw (addChild (addChild [] (Node.mk "." ck ca none []))
                (mkChain t' ts'))) ↔ sub = t' :: ts' ∨ sub = ["."] := by
            intro sub
            rw [leafAddrs_internal (by simp)]
            rw [show (Node.mk t Kind.internalK ca cw
              (addChild (addChild [] (Node.mk "." ck ca none []))
                (mkChain t' ts'))).children
              = addChild (addChild [] (Node.mk "." ck ca none []))
                (mkChain t' ts') from rfl]
            rw [addChild_nil]
            rw [leafAddrsKids_perm_mem
              (addChild_perm_cons [Node.mk "." ck ca none []]
                (mkChain t' ts')) sub]
            rw [leafAddrsKids_cons_mem, mkChain_name, mkChain_leafAddrs]
            rw [show leafAddrsKids [Node.mk "." ck ca none []]
              = (leafAddrs (Node.mk "." ck ca none [])).map
                  (fun x => (Node.mk "." ck ca none []).name :: x)
                ++ leafAddrsKids [] from rfl]
            rw [show leafAddrsKids ([] : List Node) = [] from rfl]
            rw [leafAddrs_leaf (show ¬(Node.mk "." ck ca none []).kind
              = Kind.internalK from hck)]
            simp only [List.mem_singleton, List.map_cons, List.map_nil,
              List.append_nil, Node.name_mk]
            constructor
            · rintro (⟨s2, rfl, rfl⟩ | h2)
              · exact Or.inl rfl
              · exact Or.inr h2
            · rintro (rfl | rfl)
              · exact Or.inl ⟨ts', rfl, rfl⟩
              · exact Or.inr (by simp)
          have hcla : ∀ sub, sub ∈ leafAddrs (Node.mk t ck ca cw []) ↔
              sub = [] := by
            intro sub
            rw [leafAddrs_leaf (show ¬(Node.mk t ck ca cw []).kind
              = Kind.internalK from hck)]
            simp
          refine ⟨t :: t' :: ts', some [t], rfl, stripDot_no_dot hdots,
            by simp, ?_, ?_⟩
          · intro q hq
            cases Option.some.inj hq
            refine ⟨by simp, ?_, ?_⟩
            · intro x hx
              rw [List.mem_singleton] at hx
              subst hx
              exact ht
            · rw [leafAddrs_internal (by simp)]
              rw [show (Node.mk nm Kind.internalK a w cs).children = cs
                from rfl]
              have h0 : ([] : List String)
                  ∈ leafAddrs (Node.mk t ck ca cw []) := by
                rw [leafAddrs_leaf (show ¬(Node.mk t ck ca cw []).kind
                  = Kind.internalK from hck)]
                simp
              have := mem_leafAddrsKids (findChild_mem hf) h0
              simpa using this
          · intro abound
            rw [leafAddrs_internal (by simp), leafAddrs_internal (by simp)]
            rw [show (Node.mk nm Kind.internalK a w
              (addChild (eraseChild cs t)
                (Node.mk t Kind.internalK ca cw
                  (addChild (addChild [] (Node.mk "." ck ca none []))
                    (mkChain t' ts'))))).children
              = addChild (eraseChild cs t)
                (Node.mk t Kind.internalK ca cw
                  (addChild (addChild [] (Node.mk "." ck ca none []))
                    (mkChain t' ts'))) from rfl]
            rw [show (Node.mk nm Kind.internalK a w cs).children = cs
              from rfl]
            rw [leafAddrsKids_perm_mem (addChild_perm_cons _ _) abound]
            rw [leafAddrsKids_cons_mem]
            rw [holdmem abound]
            simp only [Node.name_mk]
            constructor
            · rintro (⟨sub, rfl, hs⟩ | h2)
              · rcases (hconvla sub).1 hs with rfl | rfl
                · exact Or.inr (Or.inl rfl)
                · exact Or.inr (Or.inr ⟨[t], rfl, rfl⟩)
              · refine Or.inl ⟨Or.inr h2, ?_⟩
                intro q hq
                cases Option.some.inj hq
                exact herasehead _ h2 []
            · rintro (⟨h2 | h2, h4⟩ | rfl | ⟨q, hq, rfl⟩)
              · obtain ⟨sub, rfl, hs⟩ := h2
                rw [hcla] at hs
                subst hs
                exact absurd rfl (h4 [t] rfl)
              · exact Or.inr h2
              · exact Or.inl ⟨t' :: ts', rfl, (hconvla _).2 (Or.inl rfl)⟩
              · cases Option.some.inj hq
                exact Or.inl ⟨["."], rfl, (hconvla _).2 (Or.inr rfl)⟩

theorem rootOK_build {n : Node} (h1 : n.name = "")
    (h2 : n.kind = Kind.internalK)
    (h3 : (n.children.map Node.name).Nodup)
    (h4 : "." ∉ n.children.map Node.name)
    (h5 : kidsOK n.children = true) : rootOK n = true := by
  cases n with
  | mk nm k a w cs =>
    simp only [Node.name_mk, Node.kind_mk, Node.children_mk] at h1 h2 h3 h4 h5
    unfold rootOK
    rw [Bool.and_eq_true, Bool.and_eq_true, Bool.and_eq_true,
      Bool.and_eq_true]
    exact ⟨⟨⟨⟨decide_eq_true h1, decide_eq_true h2⟩, decide_eq_true h3⟩,
      decide_eq_true h4⟩, h5⟩

theorem mem_setA_ne_key {κ α : Type} [DecidableEq κ] :
    ∀ {l : List (κ × α)} {k' : κ} {v' : α} {e : κ × α},
    (l.map Prod.fst).Nodup → e ∈ setA l k' v' →
    e = (k', v') ∨ (e ∈ l ∧ e.1 ≠ k') := by
  intro l
  induction l with
  | nil =>
    intro k' v' e _ h
    simp [setA] at h
    exact Or.inl h
  | cons f rest ih =>
    intro k' v' e hnd h
    rw [List.map_cons, List.nodup_cons] at hnd
    unfold setA at h
    split at h
    · rename_i hf
      rcases List.mem_cons.1 h with rfl | h2
      · exact Or.inl rfl
      · refine Or.inr ⟨List.mem_cons_of_mem _ h2, ?_⟩
        intro hek
        apply hnd.1
        rw [hf, ← hek]
        exact List.mem_map.2 ⟨e, h2, rfl⟩
    · rename_i hf
      rcases List.mem_cons.1 h with rfl | h2
      · exact Or.inr ⟨List.mem_cons_self _ _, hf⟩
      · rcases ih hnd.2 h2 with h3 | ⟨h3, h4⟩
        · exact Or.inl h3
        · exact Or.inr ⟨List.mem_cons_of_mem _ h3, h4⟩

/-- Assemble the maintained invariant for the state `add` leaves behind:
a well-formed transformed root, a `clients` index already consistent with
its leaves minus the new client's, and the new binding written on top. -/
theorem invOK_of_addparts {A : Node}
    {cl1 : List (List String × List String)}
    {wts : List (List String × Rat)} {tr : Multiset Rsrc} {tt : Nat}
    {p rel : List String}
    (hvp : validPath p)
    (hAname : A.name = "") (hAkind : A.kind = Kind.internalK)
    (hAnodup : (A.children.map Node.name).Nodup)
    (hAnodot : "." ∉ A.children.map Node.name)
    (hAkids : kidsOK A.children = true)
    (hAalloc : allocOK A = true)
    (hrel : stripDot rel = p)
    (hrelmem : rel ∈ leafAddrs A)
    (hnd : (cl1.map Prod.fst).Nodup)
    (hlook : lookupA cl1 p = none)
    (hmem : ∀ e ∈ cl1, validPath e.1 ∧ e.1 = stripDot e.2 ∧
      e.2 ∈ leafAddrs A)
    (hcompl : ∀ a ∈ leafAddrs A, a ≠ rel → (stripDot a, a) ∈ cl1) :
    invOK (SState.mk A (setA cl1 p rel) wts tr tt) = true := by
  unfold invOK
  rw [Bool.and_eq_true, Bool.and_eq_true]
  refine ⟨⟨rootOK_build hAname hAkind hAnodup hAnodot hAkids, hAalloc⟩, ?_⟩
  refine clientsOK_build (setA_keys_nodup p rel hnd) ?_ ?_
  · intro e he
    obtain ⟨e1, e2⟩ := e
    rcases mem_setA_elim he with ⟨rfl, rfl⟩ | he2
    · exact ⟨hvp, hrel.symm,
        leafAddrs_nodeAt _ A hAkind hAnodup hAkids hrelmem⟩
    · obtain ⟨hv, hs, hm⟩ := hmem _ he2
      exact ⟨hv, hs, leafAddrs_nodeAt e2 A hAkind hAnodup hAkids hm⟩
  · intro a ha
    by_cases har : a = rel
    · subst har
      rw [hrel]
      exact mem_setA_self _ _ _
    · have hm2 := hcompl a ha har
      refine mem_setA_of_ne _ _ hm2 ?_
      intro heq
      have := lookupA_isSome_of_mem (heq ▸ hm2)
      rw [hlook] at this
      exact absurd this (by simp)

/-- `RandomSorter::add` preserves the maintained state invariant. -/
theorem addClient_inv {s s' : SState} {p : List String}
    (hinv : invOK s = true) (hvalid : validPath p)
    (hadd : addClient s p = some s') : invOK s' = true := by
  obtain ⟨hroot, halloc, hcl⟩ := invOK_parts hinv
  obtain ⟨hkeys, hentries, hcomp⟩ := clientsOK_parts hcl
  cases habs : lookupA s.clients p with
  | some v =>
    unfold addClient at hadd
    rw [habs] at hadd
    exact absurd hadd (by simp)
  | none =>
  have hw := walkok_of_clients s p hinv hvalid habs
  obtain ⟨hk, hnodup, hnodot, hkids⟩ := rootOK_parts hroot
  obtain ⟨root0, cls, wts, tr, tt⟩ := s
  obtain ⟨rn, rk, ra, rw2, rcs⟩ := root0
  simp only [Node.kind_mk, Node.children_mk] at hk hnodup hnodot hkids
  subst hk
  have hrn : rn = "" := by
    unfold rootOK at hroot
    rw [Bool.and_eq_true, Bool.and_eq_true, Bool.and_eq_true,
      Bool.and_eq_true] at hroot
    exact of_decide_eq_true hroot.1.1.1.1
  cases p with
  | nil => exact absurd rfl hvalid.1
  | cons t ts =>
  have hdots : ∀ x ∈ t :: ts, x ≠ "." := fun x hx => (hvalid.2 x hx).1
  have ht : t ≠ "." := hdots t (by simp)
  obtain ⟨hkidsN, hnodupN, hpermN, hallocN, -⟩ :=
    addAux_inv (t :: ts) [] (Node.mk rn Kind.internalK ra rw2 rcs) t ts rfl
      hdots hw hnodup hkids halloc
  obtain ⟨rel, rb, hA1, hA2, hA3, hA4, hA5⟩ :=
    addAux_addrs (t :: ts) [] (Node.mk rn Kind.internalK ra rw2 rcs) t ts rfl
      hdots hw hnodup hkids rfl
  simp only [List.nil_append] at hA1 hA3
  have hAname : (addAux [] (Node.mk rn Kind.internalK ra rw2 rcs)
      (t :: ts)).1.name = "" := by
    rw [addAux_name]
    exact hrn
  have hAkind : (addAux [] (Node.mk rn Kind.internalK ra rw2 rcs)
      (t :: ts)).1.kind = Kind.internalK := addAux_kind _ _ _
  have hAnodot : "." ∉ ((addAux [] (Node.mk rn Kind.internalK ra rw2 rcs)
      (t :: ts)).1.children.map Node.name) := by
    intro hmem
    rcases hpermN with hp | hp
    · exact hnodot (hp.mem_iff.1 hmem)
    · rcases List.mem_cons.1 (hp.mem_iff.1 hmem) with he | he
      · exact ht he.symm
      · exact hnodot he
  have hrelmem : rel ∈ leafAddrs (addAux []
      (Node.mk rn Kind.internalK ra rw2 rcs) (t :: ts)).1 :=
    (hA5 rel).2 (Or.inr (Or.inl rfl))
  have hclsleaf : ∀ e ∈ cls, validPath e.1 ∧ e.1 = stripDot e.2 ∧
      e.2 ∈ leafAddrs (Node.mk rn Kind.internalK ra rw2 rcs) := by
    intro e he
    obtain ⟨hv, hs, m, hm, hleaf⟩ := hentries e he
    exact ⟨hv, hs, nodeAt_leafAddrs e.2 _ hkids rfl m hm hleaf⟩
  cases rb with
  | none =>
    simp only [Option.map_none'] at hA3
    have haddeq : addClient (SState.mk (Node.mk rn Kind.internalK ra rw2 rcs)
        cls wts tr tt) (t :: ts)
        = some (SState.mk
            (addAux [] (Node.mk rn Kind.internalK ra rw2 rcs) (t :: ts)).1
            (setA cls (t :: ts) rel) wts tr tt) := by
      unfold addClient
      rw [show lookupA (SState.mk (Node.mk rn Kind.internalK ra rw2 rcs)
          cls wts tr tt).clients (t :: ts) = none from habs]
      dsimp only
      rw [hA3, hA1]
    rw [haddeq] at hadd
    cases Option.some.inj hadd
    refine invOK_of_addparts hvalid hAname hAkind hnodupN hAnodot hkidsN
      hallocN hA2 hrelmem hkeys habs ?_ ?_
    · intro e he
      obtain ⟨hv, hs, hm⟩ := hclsleaf e he
      refine ⟨hv, hs, (hA5 e.2).2 (Or.inl ⟨hm, ?_⟩)⟩
      intro q hq
      exact absurd hq (by simp)
    · intro a ha har
      rcases (hA5 a).1 ha with ⟨hold, -⟩ | hcase | ⟨q, hq, -⟩
      · exact hcomp a hold
      · exact absurd hcase har
      · exact absurd hq (by simp)
  | some q0 =>
    simp only [Option.map_some', List.nil_append] at hA3
    obtain ⟨hq0ne, hq0dots, hq0leaf⟩ := hA4 q0 rfl
    have hq0strip : stripDot q0 = q0 := stripDot_no_dot hq0dots
    have hmemq0 : (q0, q0) ∈ cls := by
      have := hcomp q0 hq0leaf
      rwa [hq0strip] at this
    have hq0valid : validPath q0 := (hentries _ hmemq0).1
    have hq0nep : q0 ≠ t :: ts := by
      intro he
      have := lookupA_isSome_of_mem (he ▸ hmemq0)
      rw [show lookupA cls (t :: ts)
        = lookupA (SState.mk (Node.mk rn Kind.internalK ra rw2 rcs)
            cls wts tr tt).clients (t :: ts) from rfl, habs] at this
      exact absurd this (by simp)
    have hlook1 : lookupA (setA cls q0 (q0 ++ ["."])) (t :: ts) = none := by
      rw [lookupA_setA_ne _ _ _ _ (fun he => hq0nep he.symm)]
      exact habs
    have haddeq : addClient (SState.mk (Node.mk rn Kind.internalK ra rw2 rcs)
        cls wts tr tt) (t :: ts)
        = some (SState.mk
            (addAux [] (Node.mk rn Kind.internalK ra rw2 rcs) (t :: ts)).1
            (setA (setA cls q0 (q0 ++ ["."])) (t :: ts) rel)
            wts tr tt) := by
      unfold addClient
      rw [show lookupA (SState.mk (Node.mk rn Kind.internalK ra rw2 rcs)
          cls wts tr tt).clients (t :: ts) = none from habs]
      dsimp only
      rw [hA3, hA1]
    rw [haddeq] at hadd
    cases Option.some.inj hadd
    refine invOK_of_addparts hvalid hAname hAkind hnodupN hAnodot hkidsN
      hallocN hA2 hrelmem (setA_keys_nodup q0 (q0 ++ ["."]) hkeys)
      hlook1 ?_ ?_
    · intro e he
      rcases mem_setA_ne_key hkeys he with rfl | ⟨he2, hne⟩
      · refine ⟨hq0valid, (stripDot_append_dot q0).symm,
          (hA5 (q0 ++ ["."])).2 (Or.inr (Or.inr ⟨q0, rfl, rfl⟩))⟩
      · obtain ⟨hv, hs, hm⟩ := hclsleaf e he2
        refine ⟨hv, hs, (hA5 e.2).2 (Or.inl ⟨hm, ?_⟩)⟩
        intro q hq
        cases Option.some.inj hq
        intro he3
        rw [he3, hq0strip] at hs
        exact hne hs
    · intro a ha har
      rcases (hA5 a).1 ha with ⟨hold, hcond⟩ | hcase | ⟨q, hq, rfl⟩
      · have haq0 : a ≠ q0 := hcond q0 rfl
        have hm2 := hcomp a hold
        refine mem_setA_of_ne _ _ hm2 ?_
        intro heq
        have h1 := lookupA_eq_of_mem_nodup hkeys (heq ▸ hm2)
        have h2 := lookupA_eq_of_mem_nodup hkeys hmemq0
        exact haq0 (Option.some.inj (h1.symm.trans h2))
      · exact absurd hcase har
      · cases Option.some.inj hq
        rw [stripDot_append_dot]
        exact mem_setA_self _ _ _

theorem eraseChild_perm : ∀ {cs : List Node} {t : String} {c : Node},
    findChild cs t = some c → cs.Perm (c :: eraseChild cs t) := by
  intro cs
  induction cs with
  | nil =>
    intro t c h
    exact absurd h (by simp [findChild])
  | cons d rest ih =>
    intro t c h
    unfold findChild at h
    by_cases hd : d.name = t
    · rw [List.find?_cons_of_pos _ (by simp [hd])] at h
      cases Option.some.inj h
      simp only [eraseChild, if_pos hd]
      exact List.Perm.refl _
    · rw [List.find?_cons_of_neg _ (by simp [hd])] at h
      simp only [eraseChild, if_neg hd]
      exact ((ih h).cons d).trans (List.Perm.swap c d _)

theorem replaceChild_perm_erase : ∀ {cs : List Node} {t : String} {c : Node}
    (x : Node), findChild cs t = some c →
    (replaceChild cs t x).Perm (x :: eraseChild cs t) := by
  intro cs
  induction cs with
  | nil =>
    intro t c x h
    exact absurd h (by simp [findChild])
  | cons d rest ih =>
    intro t c x h
    unfold findChild at h
    by_cases hd : d.name = t
    · simp only [replaceChild, eraseChild, if_pos hd]
      exact List.Perm.refl _
    · rw [List.find?_cons_of_neg _ (by simp [hd])] at h
      simp only [replaceChild, eraseChild, if_neg hd]
      exact ((ih x h).cons d).trans (List.Perm.swap x d _)

theorem sumKidsRes_erase {cs : List Node} {t : String} {c : Node}
    (hf : findChild cs t = some c) :
    sumKidsRes cs = c.alloc.resources + sumKidsRes (eraseChild cs t) := by
  rw [sumKidsRes_perm (eraseChild_perm hf), sumKidsRes_cons]

theorem mem_of_lookupA {κ α : Type} [DecidableEq κ]
    {l : List (κ × α)} {k : κ} {v : α}
    (h : lookupA l k = some v) : (k, v) ∈ l := by
  unfold lookupA at h
  cases hf : l.find? (fun e => decide (e.1 = k)) with
  | none =>
    rw [hf] at h
    exact absurd h (by simp)
  | some e =>
    rw [hf] at h
    have hm := List.mem_of_find?_eq_some hf
    have hp := List.find?_some hf
    simp only [Option.map_some'] at h
    have hk : e.1 = k := of_decide_eq_true hp
    have he : e = (k, v) := by
      cases e
      simp only at hk h
      rw [hk, Option.some.inj h]
    rwa [he] at hm

theorem leafAddrsKids_erase_head {cs : List Node} {t : String}
    (hnd : (cs.map Node.name).Nodup) :
    ∀ a ∈ leafAddrsKids (eraseChild cs t), ∀ sub, a ≠ t :: sub := by
  intro a ha sub heq
  rw [mem_leafAddrsKids_iff] at ha
  obtain ⟨c'', hc'', s2, heq2, -⟩ := ha
  rw [heq] at heq2
  exact eraseChild_names_of_nodup hnd c'' hc''
    (List.cons.inj heq2).1.symm

theorem eraseChild_eq_nil : ∀ {cs : List Node} {t : String} {c : Node},
    findChild cs t = some c → eraseChild cs t = [] → cs = [c] := by
  intro cs t c hf he
  cases cs with
  | nil => exact absurd hf (by simp [findChild])
  | cons d rest =>
    unfold findChild at hf
    by_cases hd : d.name = t
    · rw [List.find?_cons_of_pos _ (by simp [hd])] at hf
      cases Option.some.inj hf
      simp only [eraseChild, if_pos hd] at he
      rw [he]
    · simp only [eraseChild, if_neg hd] at he
      exact absurd he (by simp)

theorem resolveN_collapsed {pre : List String} {n c1 : Node}
    (hcs : n.children = [c1]) (h1 : c1.name = ".") (h2 : c1.isLeaf = true) :
    resolveN pre n
      = some (.collapsed (Node.mk n.name c1.kind n.alloc n.weight []),
          some (pre, pre)) := by
  unfold resolveN
  rw [hcs]
  dsimp only
  rw [if_pos h1, if_pos h2]

theorem applyRes_deleted (cs : List Node) (t : String) :
    applyRes cs t RemRes.deleted = eraseChild cs t := rfl

/-- The upward walk of `remove` below the root: the walk succeeds, reports
at most one collapse re-registration, preserves the structural and
accounting invariants of the transformed node, and its leaf addresses are
the old ones minus the removed client's, with a collapse replacing the
virtual `"."` leaf's address by the collapsed node's own. -/
theorem removeAux_inv :
    ∀ (rest : List String) (pre : List String) (c lf : Node)
      (la : Multiset Rsrc),
      treeOK c = true → allocOK c = true →
      nodeAt c rest = some lf → lf.isLeaf = true →
      la = lf.alloc.resources →
      ∃ fate rb,
        removeAux la pre c rest
          = some (fate,
              (Option.map (fun q => (pre ++ q, pre ++ q)) rb).toList) ∧
        (∀ q, rb = some q → (∀ x ∈ q, x ≠ ".") ∧ q ≠ stripDot rest ∧
          q ++ ["."] ∈ leafAddrs c ∧ q ++ ["."] ≠ rest) ∧
        ((fate = RemRes.deleted ∧ rb = none ∧ leafAddrs c = [rest] ∧
          c.alloc.resources = la) ∨
         (∃ c', (fate = RemRes.kept c' ∧ c'.kind = c.kind ∨
             fate = RemRes.collapsed c' ∧ ¬c'.kind = Kind.internalK ∧
               c'.children = []) ∧
           c'.name = c.name ∧ c'.alloc = c.alloc.subAll la ∧
           treeOK c' = true ∧ allocOK c' = true ∧
           (∀ a2, a2 ∈ leafAddrs c' ↔
             (a2 ∈ leafAddrs c ∧ a2 ≠ rest ∧
               (∀ q, rb = some q → a2 ≠ q ++ ["."])) ∨
             (∃ q, rb = some q ∧ a2 = q)))) := by
  intro rest
  induction rest with
  | nil =>
    intro pre c lf la htOK haOK hm hleaf hla
    rw [show nodeAt c [] = some c from rfl] at hm
    cases Option.some.inj hm
    have hck : ¬c.kind = Kind.internalK := by
      simpa [Node.isLeaf] using hleaf
    have hcs : c.children = [] := by
      cases c with
      | mk nm k a w cs => exact (treeOK_parts htOK).2.2.1 hck
    refine ⟨.deleted, none, ?_, ?_, Or.inl ⟨rfl, rfl, ?_, hla.symm⟩⟩
    · rw [removeAux_nil, resolveN_deleted pre c hcs]
      rfl
    · intro q hq
      exact absurd hq (by simp)
    · rw [leafAddrs_leaf hck]
  | cons t rest' ih =>
    intro pre c lf la htOK haOK hm hleaf hla
    cases c with
    | mk nm k a w cs =>
    rw [nodeAt_cons] at hm
    simp only [Node.children_mk] at hm
    cases hf : findChild cs t with
    | none =>
      rw [hf] at hm
      exact absurd hm (by simp)
    | some d =>
    rw [hf] at hm
    change nodeAt d rest' = some lf at hm
    have hdm := findChild_mem hf
    have hdn := findChild_name hf
    obtain ⟨hp1, hp2, hp3, hp4, hp5⟩ := treeOK_parts htOK
    have hk : k = Kind.internalK := by
      by_cases hkk : k = Kind.internalK
      · exact hkk
      · rw [hp3 hkk] at hdm
        exact absurd hdm (by simp)
    subst hk
    obtain ⟨ha1, ha2, ha3⟩ := allocOK_parts haOK
    have hares : a.resources = sumKidsRes cs := ha2 rfl
    have htd : treeOK d = true := kidsOK_mem hp5 _ hdm
    have had : allocOK d = true := kidsAllocOK_mem ha3 _ hdm
    have hdom : la ≤ d.alloc.resources := by
      rw [hla]
      refine alloc_dominance rest' d had (treeOK_kidsOK htd) ?_ lf hm
      intro hne
      cases hrest2 : rest' with
      | nil => exact absurd hrest2 hne
      | cons u us =>
        rw [hrest2, nodeAt_cons] at hm
        by_cases hdk : d.kind = Kind.internalK
        · exact hdk
        · have hdcs : d.children = [] := by
            cases d with
            | mk n2 k2 a2 w2 cs2 => exact (treeOK_parts htd).2.2.1 hdk
          rw [hdcs] at hm
          exact absurd hm (by simp [findChild])
    have hdres : d.alloc.resources ≤ a.resources := by
      rw [hares, sumKidsRes_erase hf]
      exact self_le_add_right _ _
    have hla_a : la ≤ a.resources := hdom.trans hdres
    have hla_cs : la ≤ sumKidsRes cs := hares ▸ hla_a
    have htot : (a.subAll la).totals = scalarSum (a.subAll la).resources := by
      show a.totals - scalarSum la = scalarSum (a.resources - la)
      rw [scalarSum_sub hla_a, ha1]
    obtain ⟨fated, rbd, heqd, hrbd, hcased⟩ :=
      ih (pre ++ [t]) d lf la htd had hm hleaf hla
    rcases hcased with ⟨hfate, hrbn, hlad, halad⟩ |
      ⟨d', hdisj, hdname, hdalloc, htd', had', hiffd⟩
    · -- the child subtree was entirely deleted
      subst hfate
      subst hrbn
      simp only [Option.map_none'] at heqd
      have heqd2 : removeAux la (pre ++ [t]) d rest'
          = some (RemRes.deleted, []) := heqd
      cases herase : eraseChild cs t with
      | nil =>
        have hcseq : cs = [d] := eraseChild_eq_nil hf herase
        refine ⟨.deleted, none, ?_, ?_, Or.inl ⟨rfl, rfl, ?_, ?_⟩⟩
        · rw [removeAux_cons]
          simp only [Node.children_mk, Node.name_mk, Node.kind_mk,
            Node.alloc_mk, Node.weight_mk]
          rw [hf]
          simp only [Option.bind_eq_bind, Option.some_bind]
          rw [heqd2]
          simp only [Option.some_bind]
          rw [applyRes_deleted, herase,
            resolveN_nil pre nm Kind.internalK (a.subAll la) w]
          rfl
        · intro q hq
          exact absurd hq (by simp)
        · rw [leafAddrs_internal (by simp)]
          simp only [Node.children_mk]
          rw [hcseq]
          rw [show leafAddrsKids [d]
            = (leafAddrs d).map (fun x => d.name :: x) ++ leafAddrsKids []
            from rfl]
          rw [hlad, hdn]
          rfl
        · show a.resources = la
          rw [hares, hcseq, sumKidsRes_cons, halad]
          show la + sumKidsRes [] = la
          show la + 0 = la
          rw [add_zero]
      | cons c1 rest2 =>
        by_cases hcol : rest2 = [] ∧ c1.name = "."
        · -- collapse: the only remaining child is the virtual "." leaf
          obtain ⟨rfl, hc1dot⟩ := hcol
          have hc1m : c1 ∈ cs := mem_eraseChild (herase ▸ List.mem_cons_self c1 [])
          have htc1 : treeOK c1 = true := kidsOK_mem hp5 _ hc1m
          have hc1k : ¬c1.kind = Kind.internalK := treeOK_dotleaf htc1 hc1dot
          have hc1leaf : c1.isLeaf = true := by
            simp [Node.isLeaf, hc1k]
          have htne : t ≠ "." := by
            intro hcon
            exact eraseChild_names_of_nodup hp4 c1
              (herase ▸ List.mem_cons_self c1 []) (hc1dot.trans hcon.symm)
          refine ⟨.collapsed (Node.mk nm c1.kind (a.subAll la) w []),
            some [], ?_, ?_, Or.inr ⟨Node.mk nm c1.kind (a.subAll la) w [],
              Or.inr ⟨rfl, by simpa using hc1k, by simp⟩,
              by simp, by simp, ?_, ?_, ?_⟩⟩
          · rw [removeAux_cons]
            simp only [Node.children_mk, Node.name_mk, Node.kind_mk,
              Node.alloc_mk, Node.weight_mk]
            rw [hf]
            simp only [Option.bind_eq_bind, Option.some_bind]
            rw [heqd2]
            simp only [Option.some_bind]
            rw [applyRes_deleted, herase]
            rw [resolveN_collapsed (show (Node.mk nm Kind.internalK
                (a.subAll la) w [c1]).children = [c1] from rfl) hc1dot hc1leaf]
            simp
          · intro q hq
            cases Option.some.inj hq
            refine ⟨by simp, ?_, ?_, ?_⟩
            · cases rest' with
              | nil =>
                rw [stripDot_no_dot (by simpa using htne)]
                simp
              | cons b l =>
                rw [stripDot_cons_cons]
                simp
            · show ["."] ∈ leafAddrs (Node.mk nm Kind.internalK a w cs)
              rw [leafAddrs_internal (by simp)]
              simp only [Node.children_mk]
              have h0 : ([] : List String) ∈ leafAddrs c1 := by
                rw [leafAddrs_leaf hc1k]
                simp
              have h2 := mem_leafAddrsKids hc1m h0
              rwa [hc1dot] at h2
            · intro hcon
              exact htne ((List.cons.inj hcon).1).symm
          · exact treeOK_build (fun _ => hc1k) (fun h => absurd h hc1k)
              (fun _ => rfl) (by simp) rfl
          · exact allocOK_build htot (fun h => absurd h hc1k) rfl
          · intro a2
            rw [leafAddrs_leaf (show ¬(Node.mk nm c1.kind (a.subAll la)
                w []).kind = Kind.internalK from hc1k)]
            rw [leafAddrs_internal (show (Node.mk nm Kind.internalK a w
                cs).kind = Kind.internalK from rfl)]
            simp only [Node.children_mk, List.mem_singleton]
            constructor
            · intro h2
              exact Or.inr ⟨[], rfl, h2⟩
            · rintro (⟨hmem, hner, hdotc⟩ | ⟨q, hq, rfl⟩)
              · rw [leafAddrsKids_perm_mem (eraseChild_perm hf) a2,
                  herase, leafAddrsKids_cons_mem, hdn] at hmem
                rcases hmem with ⟨sub, rfl, hsub⟩ | h3
                · rw [hlad, List.mem_singleton] at hsub
                  exact absurd (by rw [hsub]) hner
                · rw [leafAddrsKids_cons_mem, hc1dot] at h3
                  rcases h3 with ⟨sub, rfl, hsub⟩ | h4
                  · rw [leafAddrs_leaf hc1k, List.mem_singleton] at hsub
                    subst hsub
                    exact absurd rfl (hdotc [] rfl)
                  · exact absurd h4 (by simp [leafAddrsKids])
              · cases Option.some.inj hq
                rfl
        · -- the child was deleted but siblings remain: the node is kept
          have hne2 : eraseChild cs t ≠ [] := by
            rw [herase]
            simp
          have hnames2 : (eraseChild cs t).map Node.name ≠ ["."] := by
            rw [herase]
            intro hcon
            rw [List.map_cons] at hcon
            exact hcol ⟨List.map_eq_nil_iff.1 (List.cons.inj hcon).2,
              (List.cons.inj hcon).1⟩
          have hpm := (eraseChild_perm hf).map Node.name
          rw [List.map_cons] at hpm
          have hndE : ((eraseChild cs t).map Node.name).Nodup :=
            ((List.Perm.nodup_iff hpm).1 hp4).of_cons
          have hkidsE : kidsOK (eraseChild cs t) = true :=
            kidsOK_build (fun x hx => kidsOK_mem hp5 _ (mem_eraseChild hx))
          have hkaE : kidsAllocOK (eraseChild cs t) = true :=
            kidsAllocOK_build
              (fun x hx => kidsAllocOK_mem ha3 _ (mem_eraseChild hx))
          have hresE : (a.subAll la).resources
              = sumKidsRes (eraseChild cs t) := by
            show a.resources - la = sumKidsRes (eraseChild cs t)
            rw [hares, sumKidsRes_erase hf, halad, add_tsub_cancel_left]
          refine ⟨.kept (Node.mk nm Kind.internalK (a.subAll la) w
              (eraseChild cs t)), none, ?_, ?_,
            Or.inr ⟨Node.mk nm Kind.internalK (a.subAll la) w
              (eraseChild cs t), Or.inl ⟨rfl, rfl⟩, rfl, rfl, ?_, ?_, ?_⟩⟩
          · rw [removeAux_cons]
            simp only [Node.children_mk, Node.name_mk, Node.kind_mk,
              Node.alloc_mk, Node.weight_mk]
            rw [hf]
            simp only [Option.bind_eq_bind, Option.some_bind]
            rw [heqd2]
            simp only [Option.some_bind]
            rw [applyRes_deleted]
            rw [resolveN_kept pre (Node.mk nm Kind.internalK (a.subAll la) w
              (eraseChild cs t)) (by simpa using hne2)
              (by simpa using hnames2)]
            rfl
          · intro q hq
            exact absurd hq (by simp)
          · exact treeOK_build hp1 (fun _ => ⟨hne2, hnames2⟩)
              (fun h => absurd rfl h) hndE hkidsE
          · exact allocOK_build htot (fun _ => hresE) hkaE
          · intro a2
            rw [leafAddrs_internal (show (Node.mk nm Kind.internalK
                (a.subAll la) w (eraseChild cs t)).kind = Kind.internalK
                from rfl)]
            rw [leafAddrs_internal (show (Node.mk nm Kind.internalK a w
                cs).kind = Kind.internalK from rfl)]
            simp only [Node.children_mk]
            constructor
            · intro hE
              refine Or.inl ⟨?_, ?_, ?_⟩
              · rw [leafAddrsKids_perm_mem (eraseChild_perm hf) a2,
                  leafAddrsKids_cons_mem]
                exact Or.inr hE
              · exact leafAddrsKids_erase_head hp4 _ hE rest'
              · intro q hq
                exact absurd hq (by simp)
            · rintro (⟨hold, hner, -⟩ | ⟨q, hq, -⟩)
              · rw [leafAddrsKids_perm_mem (eraseChild_perm hf) a2,
                  leafAddrsKids_cons_mem, hdn] at hold
                rcases hold with ⟨sub, rfl, hsub⟩ | hE
                · rw [hlad, List.mem_singleton] at hsub
                  exact absurd (by rw [hsub]) hner
                · exact hE
              · exact absurd hq (by simp)
    · -- the child was kept or collapsed: replace it in place
      have hdnt : d'.name = t := hdname.trans hdn
      have happly : applyRes cs t fated = replaceChild cs t d' := by
        rcases hdisj with ⟨hfk, -⟩ | ⟨hfc, hkindn, -⟩
        · rw [hfk, applyRes_kept]
        · rw [hfc, applyRes_collapsed_leaf _ _ hkindn]
      have hnamesR : (replaceChild cs t d').map Node.name
          = cs.map Node.name := replaceChild_map_name hdnt
      have hcsne : cs ≠ [] := (hp2 rfl).1
      have hrne : replaceChild cs t d' ≠ [] := by
        intro hcon
        have := hnamesR
        rw [hcon] at this
        exact hcsne (List.map_eq_nil_iff.1 this.symm)
      have hrnames : (replaceChild cs t d').map Node.name ≠ ["."] := by
        rw [hnamesR]
        exact (hp2 rfl).2
      have hresR : (a.subAll la).resources
          = sumKidsRes (replaceChild cs t d') := by
        show a.resources - la = sumKidsRes (replaceChild cs t d')
        have hkey : sumKidsRes (replaceChild cs t d') + d.alloc.resources
            = sumKidsRes cs + d'.alloc.resources := sumKidsRes_replace hf
        have hdres' : d'.alloc.resources = d.alloc.resources - la := by
          rw [hdalloc]
          rfl
        rw [hdres'] at hkey
        have h2 : sumKidsRes cs + (d.alloc.resources - la)
            = (sumKidsRes cs - la) + d.alloc.resources := by
          rw [← add_tsub_assoc_of_le hdom, tsub_add_eq_add_tsub hla_cs]
        rw [h2] at hkey
        rw [hares]
        exact (add_right_cancel hkey).symm
      have hkidsR : kidsOK (replaceChild cs t d') = true := by
        refine kidsOK_build ?_
        intro x hx
        rcases mem_replaceChild hx with rfl | hx2
        · exact htd'
        · exact kidsOK_mem hp5 _ hx2
      have hkaR : kidsAllocOK (replaceChild cs t d') = true := by
        refine kidsAllocOK_build ?_
        intro x hx
        rcases mem_replaceChild hx with rfl | hx2
        · exact had'
        · exact kidsAllocOK_mem ha3 _ hx2
      have hndR : ((replaceChild cs t d').map Node.name).Nodup := by
        rw [hnamesR]
        exact hp4
      have hrepm : ∀ a2, a2 ∈ leafAddrsKids (replaceChild cs t d') ↔
          (∃ sub, a2 = t :: sub ∧ sub ∈ leafAddrs d') ∨
          a2 ∈ leafAddrsKids (eraseChild cs t) := by
        intro a2
        rw [leafAddrsKids_perm_mem (replaceChild_perm_erase d' hf) a2,
          leafAddrsKids_cons_mem, hdnt]
      have holdm : ∀ a2, a2 ∈ leafAddrsKids cs ↔
          (∃ sub, a2 = t :: sub ∧ sub ∈ leafAddrs d) ∨
          a2 ∈ leafAddrsKids (eraseChild cs t) := by
        intro a2
        rw [leafAddrsKids_perm_mem (eraseChild_perm hf) a2,
          leafAddrsKids_cons_mem, hdn]
      refine ⟨.kept (Node.mk nm Kind.internalK (a.subAll la) w
          (replaceChild cs t d')), rbd.map (fun q => t :: q), ?_, ?_,
        Or.inr ⟨Node.mk nm Kind.internalK (a.subAll la) w
          (replaceChild cs t d'), Or.inl ⟨rfl, rfl⟩, rfl, rfl, ?_, ?_, ?_⟩⟩
      · rw [removeAux_cons]
        simp only [Node.children_mk, Node.name_mk, Node.kind_mk,
          Node.alloc_mk, Node.weight_mk]
        rw [hf]
        simp only [Option.bind_eq_bind, Option.some_bind]
        rw [heqd]
        simp only [Option.some_bind]
        rw [happly]
        rw [resolveN_kept pre (Node.mk nm Kind.internalK (a.subAll la) w
          (replaceChild cs t d')) (by simpa using hrne)
          (by simpa using hrnames)]
        cases rbd with
        | none => rfl
        | some qc => simp
      · intro q hq
        obtain ⟨qc, hrbq, rfl⟩ := Option.map_eq_some'.1 hq
        obtain ⟨hdots_c, hnstrip_c, hmemdot_c, hnerest_c⟩ := hrbd qc hrbq
        have hdint : d.kind = Kind.internalK := by
          by_contra hdk
          rw [leafAddrs_leaf hdk, List.mem_singleton] at hmemdot_c
          exact absurd hmemdot_c (by simp)
        have htne : t ≠ "." := by
          intro hcon
          exact treeOK_dotleaf htd (hdn.trans hcon) hdint
        have hrest2 : rest' ≠ [] := by
          intro hcon
          rw [hcon] at hm
          rw [show nodeAt d [] = some d from rfl] at hm
          cases Option.some.inj hm
          rw [Node.isLeaf] at hleaf
          simp [hdint] at hleaf
        refine ⟨?_, ?_, ?_, ?_⟩
        · intro x hx
          rcases List.mem_cons.1 hx with rfl | hx2
          · exact htne
          · exact hdots_c x hx2
        · cases rest' with
          | nil => exact absurd rfl hrest2
          | cons b l =>
            rw [stripDot_cons_cons]
            intro hcon
            exact hnstrip_c (List.cons.inj hcon).2
        · show (t :: qc) ++ ["."]
            ∈ leafAddrs (Node.mk nm Kind.internalK a w cs)
          rw [leafAddrs_internal (by simp)]
          simp only [Node.children_mk]
          have h2 := mem_leafAddrsKids hdm hmemdot_c
          rw [hdn] at h2
          exact h2
        · intro hcon
          exact hnerest_c (List.cons.inj hcon).2
      · exact treeOK_build hp1 (fun _ => ⟨hrne, hrnames⟩)
          (fun h => absurd rfl h) hndR hkidsR
      · exact allocOK_build htot (fun _ => hresR) hkaR
      · intro a2
        rw [leafAddrs_internal (show (Node.mk nm Kind.internalK
            (a.subAll la) w (replaceChild cs t d')).kind = Kind.internalK
            from rfl)]
        rw [leafAddrs_internal (show (Node.mk nm Kind.internalK a w
            cs).kind = Kind.internalK from rfl)]
        simp only [Node.children_mk]
        constructor
        · intro hR
          rcases (hrepm a2).1 hR with ⟨sub, rfl, hsub⟩ | hE
          · rcases (hiffd sub).1 hsub with ⟨hsd, hsner, hsdot⟩ |
              ⟨qc, hqc, rfl⟩
            · refine Or.inl ⟨(holdm _).2 (Or.inl ⟨sub, rfl, hsd⟩), ?_, ?_⟩
              · intro hcon
                exact hsner (List.cons.inj hcon).2
              · intro q hq
                obtain ⟨qc, hrbq, rfl⟩ := Option.map_eq_some'.1 hq
                intro hcon
                exact hsdot qc hrbq (List.cons.inj hcon).2
            · refine Or.inr ⟨t :: sub, ?_, rfl⟩
              rw [hqc]
              rfl
          · refine Or.inl ⟨(holdm _).2 (Or.inr hE), ?_, ?_⟩
            · exact leafAddrsKids_erase_head hp4 _ hE rest'
            · intro q hq
              obtain ⟨qc, hrbq, rfl⟩ := Option.map_eq_some'.1 hq
              exact leafAddrsKids_erase_head hp4 _ hE (qc ++ ["."])
        · rintro (⟨hold, hner, hdotc⟩ | ⟨q, hq, rfl⟩)
          · rcases (holdm _).1 hold with ⟨sub, rfl, hsd⟩ | hE
            · refine (hrepm _).2 (Or.inl ⟨sub, rfl,
                (hiffd sub).2 (Or.inl ⟨hsd, ?_, ?_⟩)⟩)
              · intro hcon
                exact hner (by rw [hcon])
              · intro qc hqc hcon
                refine hdotc (t :: qc) ?_ ?_
                · rw [hqc]
                  rfl
                · rw [hcon]
                  rfl
            · exact (hrepm _).2 (Or.inr hE)
          · obtain ⟨qc, hrbq, rfl⟩ := Option.map_eq_some'.1 hq
            exact (hrepm _).2 (Or.inl ⟨qc, rfl,
              (hiffd qc).2 (Or.inr ⟨qc, hrbq, rfl⟩)⟩)

theorem mem_eraseA_ne {κ α : Type} [DecidableEq κ] :
    ∀ {l : List (κ × α)} {k : κ} {e : κ × α},
    (l.map Prod.fst).Nodup → e ∈ eraseA l k → e ∈ l ∧ e.1 ≠ k := by
  intro l
  induction l with
  | nil =>
    intro k e _ h
    simp [eraseA] at h
  | cons f rest ih =>
    intro k e hnd h
    rw [List.map_cons, List.nodup_cons] at hnd
    unfold eraseA at h
    split at h
    · rename_i hf
      refine ⟨List.mem_cons_of_mem _ h, ?_⟩
      intro hek
      exact hnd.1 (hf ▸ hek ▸ List.mem_map.2 ⟨e, h, rfl⟩)
    · rename_i hf
      rcases List.mem_cons.1 h with rfl | h2
      · exact ⟨List.mem_cons_self _ _, hf⟩
      · obtain ⟨h3, h4⟩ := ih hnd.2 h2
        exact ⟨List.mem_cons_of_mem _ h3, h4⟩

theorem mem_eraseA_of_ne {κ α : Type} [DecidableEq κ] :
    ∀ {l : List (κ × α)} {k : κ} {e : κ × α},
    e ∈ l → e.1 ≠ k → e ∈ eraseA l k := by
  intro l
  induction l with
  | nil =>
    intro k e h
    simp at h
  | cons f rest ih =>
    intro k e h hne
    unfold eraseA
    split
    · rename_i hf
      rcases List.mem_cons.1 h with rfl | h2
      · exact absurd hf hne
      · exact h2
    · rcases List.mem_cons.1 h with rfl | h2
      · exact List.mem_cons_self _ _
      · exact List.mem_cons_of_mem _ (ih h2 hne)

theorem eraseA_keys_nodup {κ α : Type} [DecidableEq κ] :
    ∀ {l : List (κ × α)} (k : κ),
    (l.map Prod.fst).Nodup → ((eraseA l k).map Prod.fst).Nodup := by
  intro l
  induction l with
  | nil =>
    intro k _
    simp [eraseA]
  | cons f rest ih =>
    intro k hnd
    rw [List.map_cons, List.nodup_cons] at hnd
    unfold eraseA
    split
    · exact hnd.2
    · rw [List.map_cons, List.nodup_cons]
      refine ⟨?_, ih k hnd.2⟩
      intro hmem
      rw [List.mem_map] at hmem
      obtain ⟨e, he, heq⟩ := hmem
      exact hnd.1 (List.mem_map.2 ⟨e, (mem_eraseA_ne hnd.2 he).1, heq⟩)

theorem lookupA_eraseA_of_nodup {κ α : Type} [DecidableEq κ]
    {l : List (κ × α)} {k k' : κ} {v : α}
    (hnd : (l.map Prod.fst).Nodup)
    (h : (k, v) ∈ eraseA l k') : lookupA l k = some v :=
  lookupA_eq_of_mem_nodup hnd (mem_eraseA_ne hnd h).1

theorem stripDot_cases (a : List String) :
    stripDot a = a ∨ a = stripDot a ++ ["."] := by
  unfold stripDot
  by_cases h : a.getLast? = some "."
  · rw [if_pos h]
    right
    have hne : a ≠ [] := by
      intro hcon
      rw [hcon] at h
      simp at h
    conv_lhs => rw [← List.dropLast_append_getLast hne]
    rw [List.getLast?_eq_getLast _ hne] at h
    rw [Option.some.inj h]
  · rw [if_neg h]
    left
    rfl

/-- Assemble the maintained invariant for the state `remove` leaves behind:
a well-formed transformed root whose leaf addresses are the old ones minus
the removed client's (a collapse re-addresses one client from its virtual
`"."` leaf to the collapsed node), the removed binding erased from the
index and the collapse re-registration written on top of it. -/
theorem invOK_of_removeparts {A R : Node}
    {cls : List (List String × List String)}
    {wts : List (List String × Rat)} {tr : Multiset Rsrc} {tt : Nat}
    {p addr : List String} {rb2 : Option (List String)}
    (hAname : A.name = "") (hAkind : A.kind = Kind.internalK)
    (hAnodup : (A.children.map Node.name).Nodup)
    (hAnodot : "." ∉ A.children.map Node.name)
    (hAkids : kidsOK A.children = true)
    (hAalloc : allocOK A = true)
    (hkeys : (cls.map Prod.fst).Nodup)
    (hentries : ∀ e ∈ cls, validPath e.1 ∧ e.1 = stripDot e.2 ∧
      e.2 ∈ leafAddrs R)
    (hcomp : ∀ a ∈ leafAddrs R, (stripDot a, a) ∈ cls)
    (hmemp : (p, addr) ∈ cls)
    (hps : p = stripDot addr)
    (hchar : ∀ a2, a2 ∈ leafAddrs A ↔
      (a2 ∈ leafAddrs R ∧ a2 ≠ addr ∧
        (∀ q, rb2 = some q → a2 ≠ q ++ ["."])) ∨
      (∃ q, rb2 = some q ∧ a2 = q))
    (hrb2 : ∀ q, rb2 = some q → (∀ x ∈ q, x ≠ ".") ∧
      q ++ ["."] ∈ leafAddrs R) :
    invOK (SState.mk A
      (match rb2 with
       | none => eraseA cls p
       | some q => setA (eraseA cls p) q q) wts tr tt) = true := by
  unfold invOK
  rw [Bool.and_eq_true, Bool.and_eq_true]
  refine ⟨⟨rootOK_build hAname hAkind hAnodup hAnodot hAkids, hAalloc⟩, ?_⟩
  have hnd1 : ((eraseA cls p).map Prod.fst).Nodup := eraseA_keys_nodup p hkeys
  have hent1 : ∀ e ∈ eraseA cls p, validPath e.1 ∧ e.1 = stripDot e.2 ∧
      e.2 ∈ leafAddrs R ∧ e.2 ≠ addr := by
    intro e he
    obtain ⟨he2, hne⟩ := mem_eraseA_ne hkeys he
    obtain ⟨hv, hs, hm⟩ := hentries e he2
    refine ⟨hv, hs, hm, ?_⟩
    intro hcon
    rw [hcon] at hs
    exact hne (hs.trans hps.symm)
  have hcomp1 : ∀ a, a ∈ leafAddrs R → a ≠ addr →
      (stripDot a, a) ∈ eraseA cls p := by
    intro a ha hne
    refine mem_eraseA_of_ne (hcomp a ha) ?_
    intro hcon
    have hcon2 : stripDot a = p := hcon
    have h1 := lookupA_eq_of_mem_nodup hkeys (hcon2 ▸ hcomp a ha)
    have h2 := lookupA_eq_of_mem_nodup hkeys hmemp
    exact hne (Option.some.inj (h1.symm.trans h2))
  cases rb2 with
  | none =>
    refine clientsOK_build hnd1 ?_ ?_
    · intro e he
      obtain ⟨hv, hs, hm, hne⟩ := hent1 e he
      refine ⟨hv, hs, leafAddrs_nodeAt e.2 A hAkind hAnodup hAkids ?_⟩
      exact (hchar e.2).2 (Or.inl ⟨hm, hne, fun q hq => absurd hq (by simp)⟩)
    · intro a ha
      rcases (hchar a).1 ha with ⟨hm, hne, -⟩ | ⟨q, hq, -⟩
      · exact hcomp1 a hm hne
      · exact absurd hq (by simp)
  | some q =>
    obtain ⟨hqdots, hqmem⟩ := hrb2 q rfl
    have hqstrip : stripDot q = q := stripDot_no_dot hqdots
    have hqold : (q, q ++ ["."]) ∈ cls := by
      have := hcomp (q ++ ["."]) hqmem
      rwa [stripDot_append_dot] at this
    have hqval : validPath q := (hentries _ hqold).1
    refine clientsOK_build (setA_keys_nodup q q hnd1) ?_ ?_
    · intro e he
      rcases mem_setA_ne_key hnd1 he with rfl | ⟨he2, hne⟩
      · refine ⟨hqval, hqstrip.symm,
          leafAddrs_nodeAt q A hAkind hAnodup hAkids ?_⟩
        exact (hchar q).2 (Or.inr ⟨q, rfl, rfl⟩)
      · obtain ⟨hv, hs, hm, hnea⟩ := hent1 e he2
        refine ⟨hv, hs, leafAddrs_nodeAt e.2 A hAkind hAnodup hAkids ?_⟩
        refine (hchar e.2).2 (Or.inl ⟨hm, hnea, ?_⟩)
        intro q' hq'
        cases Option.some.inj hq'
        intro hcon
        rw [hcon, stripDot_append_dot] at hs
        exact hne hs
    · intro a ha
      rcases (hchar a).1 ha with ⟨hm, hne, hdotc⟩ | ⟨q', hq', rfl⟩
      · refine mem_setA_of_ne _ _ (hcomp1 a hm hne) ?_
        intro hcon
        rcases stripDot_cases a with heq | heq
        · rw [heq] at hcon
          subst hcon
          have hca := hcomp a hm
          rw [heq] at hca
          have h1 := lookupA_eq_of_mem_nodup hkeys hca
          have h2 := lookupA_eq_of_mem_nodup hkeys hqold
          have := Option.some.inj (h1.symm.trans h2)
          exact absurd this (by simp)
        · rw [hcon] at heq
          exact hdotc q rfl heq
      · cases Option.some.inj hq'
        rw [hqstrip]
        exact mem_setA_self _ _ _

/-- Leaf addresses of a sibling list after replacing the child named `t`
by a node whose own leaf addresses are characterized relative to the
replaced child's. -/
theorem replace_char {cs : List Node} {t : String} {c c' : Node}
    {rest : List String} {rb : Option (List String)}
    (hf : findChild cs t = some c)
    (hnd : (cs.map Node.name).Nodup)
    (hdnt : c'.name = t)
    (hiffd : ∀ a2, a2 ∈ leafAddrs c' ↔
      (a2 ∈ leafAddrs c ∧ a2 ≠ rest ∧
        (∀ q, rb = some q → a2 ≠ q ++ ["."])) ∨
      (∃ q, rb = some q ∧ a2 = q)) :
    ∀ a2, a2 ∈ leafAddrsKids (replaceChild cs t c') ↔
      (a2 ∈ leafAddrsKids cs ∧ a2 ≠ t :: rest ∧
        (∀ q, rb.map (fun x => t :: x) = some q → a2 ≠ q ++ ["."])) ∨
      (∃ q, rb.map (fun x => t :: x) = some q ∧ a2 = q) := by
  have hdn := findChild_name hf
  have hrepm : ∀ a2, a2 ∈ leafAddrsKids (replaceChild cs t c') ↔
      (∃ sub, a2 = t :: sub ∧ sub ∈ leafAddrs c') ∨
      a2 ∈ leafAddrsKids (eraseChild cs t) := by
    intro a2
    rw [leafAddrsKids_perm_mem (replaceChild_perm_erase c' hf) a2,
      leafAddrsKids_cons_mem, hdnt]
  have holdm : ∀ a2, a2 ∈ leafAddrsKids cs ↔
      (∃ sub, a2 = t :: sub ∧ sub ∈ leafAddrs c) ∨
      a2 ∈ leafAddrsKids (eraseChild cs t) := by
    intro a2
    rw [leafAddrsKids_perm_mem (eraseChild_perm hf) a2,
      leafAddrsKids_cons_mem, hdn]
  intro a2
  constructor
  · intro hR
    rcases (hrepm a2).1 hR with ⟨sub, rfl, hsub⟩ | hE
    · rcases (hiffd sub).1 hsub with ⟨hsd, hsner, hsdot⟩ | ⟨qc, hqc, rfl⟩
      · refine Or.inl ⟨(holdm _).2 (Or.inl ⟨sub, rfl, hsd⟩), ?_, ?_⟩
        · intro hcon
          exact hsner (List.cons.inj hcon).2
        · intro q hq
          obtain ⟨qc, hrbq, rfl⟩ := Option.map_eq_some'.1 hq
          intro hcon
          exact hsdot qc hrbq (List.cons.inj hcon).2
      · refine Or.inr ⟨t :: sub, ?_, rfl⟩
        rw [hqc]
        rfl
    · refine Or.inl ⟨(holdm _).2 (Or.inr hE), ?_, ?_⟩
      · exact leafAddrsKids_erase_head hnd _ hE rest
      · intro q hq
        obtain ⟨qc, hrbq, rfl⟩ := Option.map_eq_some'.1 hq
        exact leafAddrsKids_erase_head hnd _ hE (qc ++ ["."])
  · rintro (⟨hold, hner, hdotc⟩ | ⟨q, hq, rfl⟩)
    · rcases (holdm _).1 hold with ⟨sub, rfl, hsd⟩ | hE
      · refine (hrepm _).2 (Or.inl ⟨sub, rfl,
          (hiffd sub).2 (Or.inl ⟨hsd, ?_, ?_⟩)⟩)
        · intro hcon
          exact hner (by rw [hcon])
        · intro qc hqc hcon
          refine hdotc (t :: qc) ?_ ?_
          · rw [hqc]
            rfl
          · rw [hcon]
            rfl
      · exact (hrepm _).2 (Or.inr hE)
    · obtain ⟨qc, hrbq, rfl⟩ := Option.map_eq_some'.1 hq
      exact (hrepm _).2 (Or.inl ⟨qc, rfl,
        (hiffd qc).2 (Or.inr ⟨qc, hrbq, rfl⟩)⟩)

/-- `RandomSorter::remove` preserves the maintained state invariant. -/
theorem removeClient_inv {s s' : SState} {p : List String}
    (hinv : invOK s = true) (hrem : removeClient s p = some s') :
    invOK s' = true := by
  obtain ⟨hroot, halloc, hcl⟩ := invOK_parts hinv
  obtain ⟨hkeys, hentries, hcomp⟩ := clientsOK_parts hcl
  unfold removeClient at hrem
  simp only [Option.bind_eq_bind] at hrem
  cases hlookc : lookupA s.clients p with
  | none =>
    rw [hlookc] at hrem
    exact absurd hrem (by simp)
  | some addr =>
  rw [hlookc] at hrem
  simp only [Option.some_bind] at hrem
  cases hnode : nodeAt s.root addr with
  | none =>
    rw [hnode] at hrem
    exact absurd hrem (by simp)
  | some leaf =>
  rw [hnode] at hrem
  simp only [Option.some_bind] at hrem
  cases hlb : leaf.isLeaf with
  | false =>
    rw [if_neg (by rw [hlb]; simp)] at hrem
    exact absurd hrem (by simp)
  | true =>
  rw [if_pos hlb] at hrem
  have hmemp : (p, addr) ∈ s.clients := mem_of_lookupA hlookc
  obtain ⟨hpval, hps, -⟩ := hentries _ hmemp
  obtain ⟨root0, cls, wts, tr, tt⟩ := s
  obtain ⟨rn, rk, ra, rw2, rcs⟩ := root0
  obtain ⟨hk, hnodup, hnodot, hkids⟩ := rootOK_parts hroot
  simp only [Node.kind_mk, Node.children_mk] at hk hnodup hnodot hkids
  subst hk
  have hrn : rn = "" := by
    unfold rootOK at hroot
    rw [Bool.and_eq_true, Bool.and_eq_true, Bool.and_eq_true,
      Bool.and_eq_true] at hroot
    exact of_decide_eq_true hroot.1.1.1.1
  subst hrn
  obtain ⟨har1, har2, har3⟩ := allocOK_parts halloc
  have hares : ra.resources = sumKidsRes rcs := har2 rfl
  have hla_a : leaf.alloc.resources ≤ ra.resources := by
    have h2 := alloc_dominance addr (Node.mk "" Kind.internalK ra rw2 rcs)
      halloc (by simpa using hkids) (fun _ => rfl) leaf hnode
    simpa using h2
  have htotR : (ra.subAll leaf.alloc.resources).totals
      = scalarSum ((ra.subAll leaf.alloc.resources).resources) := by
    show ra.totals - scalarSum leaf.alloc.resources
      = scalarSum (ra.resources - leaf.alloc.resources)
    rw [scalarSum_sub hla_a, har1]
  have hclsleaf : ∀ e ∈ cls, validPath e.1 ∧ e.1 = stripDot e.2 ∧
      e.2 ∈ leafAddrs (Node.mk "" Kind.internalK ra rw2 rcs) := by
    intro e he
    obtain ⟨hv, hs, m, hm, hml⟩ := hentries e he
    exact ⟨hv, hs, nodeAt_leafAddrs e.2 _ hkids rfl m hm hml⟩
  cases addr with
  | nil => exact absurd hrem (by simp)
  | cons t rest =>
  have hrem2 : (do
      let c ← findChild rcs t
      let r ← removeAux leaf.alloc.resources [t] c rest
      (some (SState.mk (Node.mk "" Kind.internalK
          (ra.subAll leaf.alloc.resources) rw2
          (applyRes rcs t r.1))
        (r.2.foldl (fun m e => setA m e.1 e.2) (eraseA cls p))
        wts tr tt) : Option SState)) = some s' := hrem
  cases hfc : findChild rcs t with
  | none =>
    rw [hfc] at hrem2
    exact absurd hrem2 (by simp)
  | some c =>
  rw [hfc] at hrem2
  simp only [Option.bind_eq_bind, Option.some_bind] at hrem2
  have hdm := findChild_mem hfc
  have hdn := findChild_name hfc
  have htneR : t ≠ "." := by
    intro hcon
    exact hnodot (List.mem_map.2 ⟨c, hdm, hdn.trans hcon⟩)
  have htc : treeOK c = true := kidsOK_mem hkids _ hdm
  have hac : allocOK c = true := kidsAllocOK_mem har3 _ hdm
  have hnodeC : nodeAt c rest = some leaf := by
    have h2 : nodeAt (Node.mk "" Kind.internalK ra rw2 rcs) (t :: rest)
        = some leaf := hnode
    rw [nodeAt_cons] at h2
    simp only [Node.children_mk] at h2
    rw [hfc] at h2
    exact h2
  obtain ⟨fate, rb, heqR, hrbR, hcaseR⟩ :=
    removeAux_inv rest [t] c leaf leaf.alloc.resources htc hac hnodeC hlb rfl
  rw [heqR] at hrem2
  simp only [Option.some_bind] at hrem2
  cases Option.some.inj hrem2
  rcases hcaseR with ⟨hfd, hrbn, hlac, halac⟩ |
    ⟨c', hdisj, hdname, hdalloc, htd', had', hiffd⟩
  · -- the whole child subtree held only the removed client and is deleted
    subst hfd
    subst hrbn
    have hpm := (eraseChild_perm hfc).map Node.name
    rw [List.map_cons] at hpm
    have hndE : ((eraseChild rcs t).map Node.name).Nodup :=
      ((List.Perm.nodup_iff hpm).1 hnodup).of_cons
    have hnodotE : "." ∉ (eraseChild rcs t).map Node.name := by
      intro hcon
      rw [List.mem_map] at hcon
      obtain ⟨x, hx, hxe⟩ := hcon
      exact hnodot (List.mem_map.2 ⟨x, mem_eraseChild hx, hxe⟩)
    have hkidsE : kidsOK (eraseChild rcs t) = true :=
      kidsOK_build (fun x hx => kidsOK_mem hkids _ (mem_eraseChild hx))
    have hkaE : kidsAllocOK (eraseChild rcs t) = true :=
      kidsAllocOK_build
        (fun x hx => kidsAllocOK_mem har3 _ (mem_eraseChild hx))
    have hresE : (ra.subAll leaf.alloc.resources).resources
        = sumKidsRes (eraseChild rcs t) := by
      show ra.resources - leaf.alloc.resources = _
      rw [hares, sumKidsRes_erase hfc, halac, add_tsub_cancel_left]
    have hchar : ∀ a2, a2 ∈ leafAddrs (Node.mk "" Kind.internalK
        (ra.subAll leaf.alloc.resources) rw2 (eraseChild rcs t)) ↔
        (a2 ∈ leafAddrs (Node.mk "" Kind.internalK ra rw2 rcs) ∧
          a2 ≠ t :: rest ∧
          (∀ q, (none : Option (List String)) = some q →
            a2 ≠ q ++ ["."])) ∨
        (∃ q, (none : Option (List String)) = some q ∧ a2 = q) := by
      intro a2
      rw [leafAddrs_internal (by simp), leafAddrs_internal (by simp)]
      simp only [Node.children_mk]
      constructor
      · intro hE
        refine Or.inl ⟨?_, ?_, ?_⟩
        · rw [leafAddrsKids_perm_mem (eraseChild_perm hfc) a2,
            leafAddrsKids_cons_mem]
          exact Or.inr hE
        · exact leafAddrsKids_erase_head hnodup _ hE rest
        · intro q hq
          exact absurd hq (by simp)
      · rintro (⟨hold, hner, -⟩ | ⟨q, hq, -⟩)
        · rw [leafAddrsKids_perm_mem (eraseChild_perm hfc) a2,
            leafAddrsKids_cons_mem, hdn] at hold
          rcases hold with ⟨sub, rfl, hsub⟩ | hE
          · rw [hlac, List.mem_singleton] at hsub
            exact absurd (by rw [hsub]) hner
          · exact hE
        · exact absurd hq (by simp)
    exact invOK_of_removeparts
      (show (Node.mk "" Kind.internalK (ra.subAll leaf.alloc.resources)
        rw2 (eraseChild rcs t)).name = "" from rfl) rfl hndE hnodotE hkidsE
      (allocOK_build htotR (fun _ => hresE) hkaE) hkeys hclsleaf hcomp
      hmemp hps hchar (fun q hq => absurd hq (by simp))
  · -- the child is kept (possibly collapsed) and replaced in place
    have hdnt : c'.name = t := hdname.trans hdn
    have happly : applyRes rcs t fate = replaceChild rcs t c' := by
      rcases hdisj with ⟨hfk, -⟩ | ⟨hfc2, hkindn, -⟩
      · rw [hfk, applyRes_kept]
      · rw [hfc2, applyRes_collapsed_leaf _ _ hkindn]
    have hdomC : leaf.alloc.resources ≤ c.alloc.resources := by
      refine alloc_dominance rest c hac (treeOK_kidsOK htc) ?_ leaf hnodeC
      intro hne
      cases rest with
      | nil => exact absurd rfl hne
      | cons u us =>
        rw [nodeAt_cons] at hnodeC
        by_cases hdk : c.kind = Kind.internalK
        · exact hdk
        · have hdcs : c.children = [] := by
            cases c with
            | mk n2 k2 a2 w2 cs2 => exact (treeOK_parts htc).2.2.1 hdk
          rw [hdcs] at hnodeC
          exact absurd hnodeC (by simp [findChild])
    have hla_cs : leaf.alloc.resources ≤ sumKidsRes rcs := hares ▸ hla_a
    have hnamesR : (replaceChild rcs t c').map Node.name
        = rcs.map Node.name := replaceChild_map_name hdnt
    have hndR : ((replaceChild rcs t c').map Node.name).Nodup := by
      rw [hnamesR]
      exact hnodup
    have hnodotR : "." ∉ (replaceChild rcs t c').map Node.name := by
      rw [hnamesR]
      exact hnodot
    have hkidsR : kidsOK (replaceChild rcs t c') = true := by
      refine kidsOK_build ?_
      intro x hx
      rcases mem_replaceChild hx with rfl | hx2
      · exact htd'
      · exact kidsOK_mem hkids _ hx2
    have hkaR : kidsAllocOK (replaceChild rcs t c') = true := by
      refine kidsAllocOK_build ?_
      intro x hx
      rcases mem_replaceChild hx with rfl | hx2
      · exact had'
      · exact kidsAllocOK_mem har3 _ hx2
    have hresR : (ra.subAll leaf.alloc.resources).resources
        = sumKidsRes (replaceChild rcs t c') := by
      show ra.resources - leaf.alloc.resources
        = sumKidsRes (replaceChild rcs t c')
      have hkey : sumKidsRes (replaceChild rcs t c') + c.alloc.resources
          = sumKidsRes rcs + c'.alloc.resources := sumKidsRes_replace hfc
      have hdres' : c'.alloc.resources
          = c.alloc.resources - leaf.alloc.resources := by
        rw [hdalloc]
        rfl
      rw [hdres'] at hkey
      have h2 : sumKidsRes rcs
            + (c.alloc.resources - leaf.alloc.resources)
          = (sumKidsRes rcs - leaf.alloc.resources) + c.alloc.resources := by
        rw [← add_tsub_assoc_of_le hdomC, tsub_add_eq_add_tsub hla_cs]
      rw [h2] at hkey
      rw [hares]
      exact (add_right_cancel hkey).symm
    have hcharK := replace_char hfc hnodup hdnt hiffd
    have hallocA : allocOK (Node.mk "" Kind.internalK
        (ra.subAll leaf.alloc.resources) rw2 (replaceChild rcs t c'))
        = true := allocOK_build htotR (fun _ => hresR) hkaR
    rw [happly]
    cases rb with
    | none =>
      have hchar : ∀ a2, a2 ∈ leafAddrs (Node.mk "" Kind.internalK
          (ra.subAll leaf.alloc.resources) rw2 (replaceChild rcs t c')) ↔
          (a2 ∈ leafAddrs (Node.mk "" Kind.internalK ra rw2 rcs) ∧
            a2 ≠ t :: rest ∧
            (∀ q, (none : Option (List String)) = some q →
              a2 ≠ q ++ ["."])) ∨
          (∃ q, (none : Option (List String)) = some q ∧ a2 = q) := by
        intro a2
        rw [leafAddrs_internal (by simp), leafAddrs_internal (by simp)]
        simp only [Node.children_mk]
        have h2 := hcharK a2
        simpa using h2
      exact invOK_of_removeparts
        (show (Node.mk "" Kind.internalK (ra.subAll leaf.alloc.resources)
          rw2 (replaceChild rcs t c')).name = "" from rfl) rfl hndR hnodotR
        hkidsR hallocA hkeys hclsleaf hcomp hmemp hps hchar
        (fun q hq => absurd hq (by simp))
    | some qc =>
      obtain ⟨hdots_c, -, hmemdot_c, -⟩ := hrbR qc rfl
      have hchar : ∀ a2, a2 ∈ leafAddrs (Node.mk "" Kind.internalK
          (ra.subAll leaf.alloc.resources) rw2 (replaceChild rcs t c')) ↔
          (a2 ∈ leafAddrs (Node.mk "" Kind.internalK ra rw2 rcs) ∧
            a2 ≠ t :: rest ∧
            (∀ q, (some (t :: qc) : Option (List String)) = some q →
              a2 ≠ q ++ ["."])) ∨
          (∃ q, (some (t :: qc) : Option (List String)) = some q ∧
            a2 = q) := by
        intro a2
        rw [leafAddrs_internal (by simp), leafAddrs_internal (by simp)]
        simp only [Node.children_mk]
        have h2 := hcharK a2
        simpa using h2
      have hrb2 : ∀ q, (some (t :: qc) : Option (List String)) = some q →
          (∀ x ∈ q, x ≠ ".") ∧
          q ++ ["."] ∈ leafAddrs (Node.mk "" Kind.internalK ra rw2 rcs) := by
        intro q hq
        cases Option.some.inj hq
        refine ⟨?_, ?_⟩
        · intro x hx
          rcases List.mem_cons.1 hx with rfl | hx2
          · exact htneR
          · exact hdots_c x hx2
        · rw [leafAddrs_internal (by simp)]
          simp only [Node.children_mk]
          have h2 := mem_leafAddrsKids hdm hmemdot_c
          rw [hdn] at h2
          exact h2
      exact invOK_of_removeparts
        (show (Node.mk "" Kind.internalK (ra.subAll leaf.alloc.resources)
          rw2 (replaceChild rcs t c')).name = "" from rfl) rfl hndR hnodotR
        hkidsR hallocA hkeys hclsleaf hcomp hmemp hps hchar hrb2

theorem inv_init : invOK initS = true := by decide

theorem inv_step {s s' : SState} (hst : Step s s')
    (hinv : invOK s = true) : invOK s' = true := by
  cases hst with
  | add hv h => exact addClient_inv hinv hv h
  | remove h => exact removeClient_inv hinv h
  | activate h => exact activateS_inv h hinv
  | deactivate h => exact deactivateS_inv h hinv
  | updateW h => exact h ▸ updateWeightS_inv hinv
  | allocated h => exact allocatedS_inv h hinv
  | updateAlloc h => exact updateS_inv h hinv
  | unallocated h => exact unallocatedS_inv h hinv
  | addTot h => exact h ▸ addTotal_inv hinv
  | removeTot h => exact removeTotal_inv h hinv
  | sortStep hsh h => exact h ▸ sortS_inv hsh hinv

/-- Every state reachable by public calls satisfies the maintained
invariant. -/
theorem inv_reachable {s : SState} (h : Reachable s) : invOK s = true := by
  induction h with
  | refl => exact inv_init
  | tail hst ih =>
    rename_i s1 s2 hr
    exact inv_step ih hr

theorem allocOK_nodeAt : ∀ (ad : List String) (n m : Node),
    allocOK n = true → nodeAt n ad = some m → allocOK m = true := by
  intro ad
  induction ad with
  | nil =>
    intro n m h hm
    rw [show nodeAt n [] = some n from rfl] at hm
    cases Option.some.inj hm
    exact h
  | cons t ts ih =>
    intro n m h hm
    rw [nodeAt_cons] at hm
    cases hf : findChild n.children t with
    | none =>
      rw [hf] at hm
      exact absurd hm (by simp)
    | some c =>
      rw [hf] at hm
      have hc : allocOK c = true := by
        cases n with
        | mk nm k a w cs =>
          exact kidsAllocOK_mem (allocOK_parts h).2.2 _ (findChild_mem hf)
      exact ih c m hc hm

mutual
/-- An allocation-consistent node's cached resources are exactly the sum
of its leaf descendants' allocations. -/
theorem allocOK_leafResSum : ∀ (n : Node), allocOK n = true →
    n.alloc.resources = leafResSum n
  | .mk nm k a w cs, h => by
    obtain ⟨h1, h2, h3⟩ := allocOK_parts h
    show a.resources = leafResSum (Node.mk nm k a w cs)
    unfold leafResSum
    by_cases hk : k = Kind.internalK
    · rw [if_pos hk, h2 hk]
      exact kidsAllocOK_leafResSum cs h3
    · rw [if_neg hk]

theorem kidsAllocOK_leafResSum : ∀ (cs : List Node),
    kidsAllocOK cs = true → sumKidsRes cs = leafResSumKids cs
  | [], _ => rfl
  | c :: rest, h => by
    have h2 : allocOK c = true ∧ kidsAllocOK rest = true := by
      have := h
      unfold kidsAllocOK at this
      rwa [Bool.and_eq_true] at this
    rw [sumKidsRes_cons, allocOK_leafResSum c h2.1,
      kidsAllocOK_leafResSum rest h2.2]
    rfl
end

mutual
/-- The leaf addresses of a well-formed node are pairwise distinct. -/
theorem leafAddrs_nodup : ∀ (n : Node), treeOK n = true →
    (leafAddrs n).Nodup
  | .mk nm k a w cs, h => by
    obtain ⟨-, -, -, h4, h5⟩ := treeOK_parts h
    by_cases hk : k = Kind.internalK
    · rw [leafAddrs_internal (show (Node.mk nm k a w cs).kind
        = Kind.internalK from hk)]
      exact leafAddrsKids_nodup cs h4 h5
    · rw [leafAddrs_leaf (show ¬(Node.mk nm k a w cs).kind
        = Kind.internalK from hk)]
      simp

theorem leafAddrsKids_nodup : ∀ (cs : List Node),
    (cs.map Node.name).Nodup → kidsOK cs = true →
    (leafAddrsKids cs).Nodup
  | [], _, _ => by
    rw [show leafAddrsKids [] = [] from rfl]
    simp
  | c :: rest, hnd, hk => by
    rw [List.map_cons, List.nodup_cons] at hnd
    have hk2 : treeOK c = true ∧ kidsOK rest = true := by
      have := hk
      unfold kidsOK at this
      rwa [Bool.and_eq_true] at this
    rw [show leafAddrsKids (c :: rest)
      = (leafAddrs c).map (fun x => c.name :: x) ++ leafAddrsKids rest
      from rfl]
    refine List.Nodup.append ?_ (leafAddrsKids_nodup rest hnd.2 hk2.2) ?_
    · exact (leafAddrs_nodup c hk2.1).map
        (fun x y hxy => (List.cons.inj hxy).2)
    · intro a ha1 ha2
      rw [List.mem_map] at ha1
      obtain ⟨sub, -, rfl⟩ := ha1
      rw [mem_leafAddrsKids_iff] at ha2
      obtain ⟨c2, hc2, s2, heq, -⟩ := ha2
      exact hnd.1 ((List.cons.inj heq).1 ▸ List.mem_map.2 ⟨c2, hc2, rfl⟩)
end

theorem snd_nodup_of_fst : ∀ {l : List (List String × List String)},
    ((l.map Prod.fst).Nodup) → (∀ e ∈ l, e.1 = stripDot e.2) →
    (l.map Prod.snd).Nodup := by
  intro l
  induction l with
  | nil =>
    intro _ _
    simp
  | cons e rest ih =>
    intro hnd hf
    rw [List.map_cons, List.nodup_cons] at hnd
    rw [List.map_cons, List.nodup_cons]
    refine ⟨?_, ih hnd.2 (fun x hx => hf x (List.mem_cons_of_mem _ hx))⟩
    intro hmem
    rw [List.mem_map] at hmem
    obtain ⟨e2, he2, heq⟩ := hmem
    have h1 : e2.1 = e.1 := by
      rw [hf e2 (List.mem_cons_of_mem _ he2), hf e (List.mem_cons_self _ _),
        heq]
    exact hnd.1 (h1 ▸ List.mem_map.2 ⟨e2, he2, rfl⟩)

mutual
/-- Resolving each leaf address of a well-formed node and summing the
resolved allocations yields exactly the leaf-descendant sum. -/
theorem leafRes_addrs : ∀ (n : Node), treeOK n = true →
    ((leafAddrs n).map (fun a =>
      (nodeAt n a).elim 0 (fun m => m.alloc.resources))).sum
      = leafResSum n
  | .mk nm k a w cs, h => by
    obtain ⟨-, -, -, h4, h5⟩ := treeOK_parts h
    by_cases hk : k = Kind.internalK
    · rw [leafAddrs_internal (show (Node.mk nm k a w cs).kind
        = Kind.internalK from hk)]
      show _ = leafResSum (Node.mk nm k a w cs)
      unfold leafResSum
      rw [if_pos hk]
      simp only [Node.children_mk]
      exact leafRes_addrsKids cs (Node.mk nm k a w cs)
        (fun c hc => findChild_of_nodup_mem h4 hc rfl) h5
    · rw [leafAddrs_leaf (show ¬(Node.mk nm k a w cs).kind
        = Kind.internalK from hk)]
      show ((nodeAt (Node.mk nm k a w cs) []).elim 0
        (fun m => m.alloc.resources)) + ([] : List (Multiset Rsrc)).sum
        = leafResSum (Node.mk nm k a w cs)
      unfold leafResSum
      rw [if_neg hk]
      show a.resources + 0 = a.resources
      rw [add_zero]

theorem leafRes_addrsKids : ∀ (cs : List Node) (n : Node),
    (∀ c ∈ cs, findChild n.children c.name = some c) →
    kidsOK cs = true →
    ((leafAddrsKids cs).map (fun a =>
      (nodeAt n a).elim 0 (fun m => m.alloc.resources))).sum
      = leafResSumKids cs
  | [], n, _, _ => rfl
  | c :: rest, n, hfull, hk => by
    have hk2 : treeOK c = true ∧ kidsOK rest = true := by
      have := hk
      unfold kidsOK at this
      rwa [Bool.and_eq_true] at this
    rw [show leafAddrsKids (c :: rest)
      = (leafAddrs c).map (fun x => c.name :: x) ++ leafAddrsKids rest
      from rfl]
    rw [List.map_append, List.sum_append, List.map_map]
    have hstep : (leafAddrs c).map ((fun a =>
        (nodeAt n a).elim 0 (fun m => m.alloc.resources)) ∘
          (fun x => c.name :: x))
        = (leafAddrs c).map (fun x =>
          (nodeAt c x).elim 0 (fun m => m.alloc.resources)) := by
      refine List.map_congr_left ?_
      intro x _
      show (nodeAt n (c.name :: x)).elim 0 (fun m => m.alloc.resources) = _
      rw [nodeAt_cons, hfull c (List.mem_cons_self _ _)]
    rw [hstep, leafRes_addrs c hk2.1,
      leafRes_addrsKids rest n
        (fun c2 hc2 => hfull c2 (List.mem_cons_of_mem _ hc2)) hk2.2]
    rfl
end

theorem scalarSum_list_sum : ∀ (l : List (Multiset Rsrc)),
    scalarSum l.sum = (l.map scalarSum).sum
  | [] => rfl
  | r :: rest => by
    rw [List.sum_cons, scalarSum_add, scalarSum_list_sum rest,
      List.map_cons, List.sum_cons]

/-- On an invariant-satisfying state, the stored client addresses are
exactly the tree's leaf addresses, up to order. -/
theorem clients_addrs_perm (s : SState) (hinv : invOK s = true) :
    (s.clients.map Prod.snd).Perm (leafAddrs s.root) := by
  obtain ⟨hroot, halloc, hcl⟩ := invOK_parts hinv
  obtain ⟨hkeys, hentries, hcomp⟩ := clientsOK_parts hcl
  obtain ⟨hk, hnodup, hnodot, hkids⟩ := rootOK_parts hroot
  refine (List.perm_ext_iff_of_nodup ?_ ?_).2 ?_
  · exact snd_nodup_of_fst hkeys (fun e he => (hentries e he).2.1)
  · rw [leafAddrs_internal hk]
    exact leafAddrsKids_nodup s.root.children hnodup hkids
  · intro a
    constructor
    · intro ha
      rw [List.mem_map] at ha
      obtain ⟨e, he, rfl⟩ := ha
      obtain ⟨-, -, m, hm, hml⟩ := hentries e he
      exact nodeAt_leafAddrs e.2 s.root hkids hk m hm hml
    · intro ha
      exact List.mem_map.2 ⟨(stripDot a, a), hcomp a ha, rfl⟩

/-- C2, counterexample to the literal claim: from a fresh sorter, after
`add("z/w"); add("y")` the root's children are `[z, y]`; `add("y/v")`
(which splits the leaf client `y`) followed immediately by
`remove("y/v")` leaves the children as `[y, z]` — the prior tree shape is
not restored exactly, because the collapsed node is reinserted at the
front of its sibling list (the repositioning branch at sorter.cpp:219 is
dead). -/
theorem c2_roundtrip_counterexample :
    ∃ s1 s2 s3 s4 : SState,
      addClient initS ["z", "w"] = some s1 ∧
      addClient s1 ["y"] = some s2 ∧
      lookupA s2.clients ["y", "v"] = none ∧
      addClient s2 ["y", "v"] = some s3 ∧
      removeClient s3 ["y", "v"] = some s4 ∧
      s4.root.children.map Node.name ≠ s2.root.children.map Node.name := by
  refine ⟨_, _, _, _, rfl, rfl, rfl, rfl, rfl, by decide⟩

/-- C2 (amended): on any reachable state, `add(p)` for a valid
unregistered path followed immediately by `remove(p)` succeeds, restores
the tree up to the order of the one sibling list the split case rewrites
(equal canonical forms: the same nodes with the same kinds and
allocations), and restores the `clients` index, the weight table and the
cluster totals exactly. -/
theorem c2_add_remove_roundtrip (s : SState) (p : List String)
    (hreach : Reachable s) (hvalid : validPath p)
    (habs : lookupA s.clients p = none) :
    ∃ s1 s2, addClient s p = some s1 ∧ removeClient s1 p = some s2 ∧
      canonN s2.root = canonN s.root ∧ s2.clients = s.clients ∧
      s2.weights = s.weights ∧ s2.totalRes = s.totalRes ∧
      s2.totalTotals = s.totalTotals :=
  addRemove_roundtrip_inv s p (inv_reachable hreach) hvalid habs

theorem c2_add_remove_roundtrip_witness :
    Reachable initS ∧ validPath ["a"] ∧
    lookupA initS.clients ["a"] = none ∧
    (∃ s1 s2, addClient initS ["a"] = some s1 ∧
      removeClient s1 ["a"] = some s2 ∧
      canonN s2.root = canonN initS.root ∧ s2.clients = initS.clients ∧
      s2.weights = initS.weights ∧ s2.totalRes = initS.totalRes ∧
      s2.totalTotals = initS.totalTotals) :=
  ⟨Relation.ReflTransGen.refl, by decide, rfl,
    c2_add_remove_roundtrip initS ["a"] Relation.ReflTransGen.refl
      (by decide) rfl⟩

/-- C4: on every reachable state, every node's cached allocation is the
exact sum of its leaf descendants' allocations (with the matching cached
scalar total), and the root aggregate `allocationScalarQuantities()`
equals the sum over all registered clients of
`allocationScalarQuantities(client)`. -/
theorem c4_allocation_sums (s : SState) (hreach : Reachable s) :
    (∀ ad m, nodeAt s.root ad = some m →
      m.alloc.resources = leafResSum m ∧
      m.alloc.totals = scalarSum (leafResSum m)) ∧
    allocScalarRootQ s
      = (s.clients.map (fun e => (allocScalarQ s e.1).getD 0)).sum := by
  have hinv := inv_reachable hreach
  obtain ⟨hroot, halloc, hcl⟩ := invOK_parts hinv
  obtain ⟨hkeys, hentries, hcomp⟩ := clientsOK_parts hcl
  obtain ⟨hk, hnodup, hnodot, hkids⟩ := rootOK_parts hroot
  constructor
  · intro ad m hm
    have ham := allocOK_nodeAt ad s.root m halloc hm
    have h1 := allocOK_leafResSum m ham
    refine ⟨h1, ?_⟩
    have h2 : m.alloc.totals = scalarSum m.alloc.resources := by
      cases m with
      | mk nm2 k2 a2 w2 cs2 => exact (allocOK_parts ham).1
    rw [h2, h1]
  · have har1 : s.root.alloc.totals = scalarSum s.root.alloc.resources := by
      cases hs : s.root with
      | mk nm2 k2 a2 w2 cs2 =>
        have h2 := halloc
        rw [hs] at h2
        exact (allocOK_parts h2).1
    have hres : s.root.alloc.resources = leafResSum s.root :=
      allocOK_leafResSum s.root halloc
    have hlrs : leafResSum s.root = leafResSumKids s.root.children := by
      cases hs : s.root with
      | mk nm2 k2 a2 w2 cs2 =>
        rw [hs] at hk
        simp only [Node.kind_mk] at hk
        unfold leafResSum
        rw [if_pos hk]
        rfl
    have haddrs := leafRes_addrsKids s.root.children s.root
      (fun c hc => findChild_of_nodup_mem hnodup hc rfl) hkids
    have hperm := clients_addrs_perm s hinv
    have hmap : s.clients.map (fun e => (allocScalarQ s e.1).getD 0)
        = s.clients.map (fun e =>
          scalarSum ((nodeAt s.root e.2).elim 0
            (fun m => m.alloc.resources))) := by
      refine List.map_congr_left ?_
      intro e he
      obtain ⟨-, -, m, hm, hml⟩ := hentries e he
      have hlook : lookupA s.clients e.1 = some e.2 := by
        refine lookupA_eq_of_mem_nodup hkeys ?_
        cases e
        exact he
      have hfind : findS s e.1 = some m := by
        unfold findS
        rw [hlook]
        simp only [Option.bind_eq_bind, Option.some_bind]
        rw [hm]
        simp only [Option.some_bind]
        rw [if_pos hml]
      show (allocScalarQ s e.1).getD 0 = _
      unfold allocScalarQ
      rw [hfind, hm]
      simp only [Option.map_some', Option.getD_some, Option.elim]
      have ham := allocOK_nodeAt e.2 s.root m halloc hm
      cases m with
      | mk nm2 k2 a2 w2 cs2 => exact (allocOK_parts ham).1
    rw [hmap]
    have hmap2 : s.clients.map (fun e =>
        scalarSum ((nodeAt s.root e.2).elim 0
          (fun m => m.alloc.resources)))
        = (s.clients.map Prod.snd).map (fun a =>
          scalarSum ((nodeAt s.root a).elim 0
            (fun m => m.alloc.resources))) := by
      rw [List.map_map]
      rfl
    rw [hmap2]
    have hpermsum := (hperm.map (fun a =>
      scalarSum ((nodeAt s.root a).elim 0
        (fun m => m.alloc.resources)))).sum_eq
    rw [hpermsum]
    show allocScalarRootQ s = _
    unfold allocScalarRootQ
    rw [har1, hres, hlrs, ← haddrs]
    rw [leafAddrs_internal hk]
    rw [scalarSum_list_sum, List.map_map]
    rfl

theorem c4_allocation_sums_witness :
    Reachable initS ∧
    ((∀ ad m, nodeAt initS.root ad = some m →
        m.alloc.resources = leafResSum m ∧
        m.alloc.totals = scalarSum (leafResSum m)) ∧
      allocScalarRootQ initS
        = (initS.clients.map
            (fun e => (allocScalarQ initS e.1).getD 0)).sum) :=
  ⟨Relation.ReflTransGen.refl,
    c4_allocation_sums initS Relation.ReflTransGen.refl⟩
